import Mathlib

/-!
# bip39toalgo: a shallow embedding of `src/bip39toalgo.js`

JavaScript strings are lists of characters (`Str`), byte arrays and CryptoJS
`WordArray`s are lists of naturals below 256 (`Bytes`).  Library primitives
(hashes, HMAC, PBKDF2, curve arithmetic, the BIP39 word table, Unicode
normalisation) are fields of the record `Ext`; the helpers of the repository
module `./utils`, whose text is not part of the sources at hand, are modelled
and marked as such.
-/

set_option autoImplicit false

namespace Bip39ToAlgo

/-! ## JavaScript strings -/

abbrev Str := List Char
abbrev Bytes := List Nat

/-- `String.prototype.padStart(n, c)` for a one-character filler. -/
def padStart (n : Nat) (c : Char) (s : Str) : Str :=
  List.replicate (n - s.length) c ++ s

/-- `String.prototype.substr(start, len)` for `start ≥ 0`. -/
def substr (start len : Nat) (s : Str) : Str :=
  (s.drop start).take len

/-- `String.prototype.substr(start)` for `start ≥ 0`. -/
def substrFrom (start : Nat) (s : Str) : Str :=
  s.drop start

/-- `String.prototype.substr(-n)`: the last `n` characters; `-0` is `0`, so
`substr(-0)` is the whole string. -/
def substrLast (n : Nat) (s : Str) : Str :=
  if n = 0 then s else s.drop (s.length - n)

/-- Value of a character as a digit in radix 16, as `parseInt(_, 16)` reads it. -/
def hexVal (c : Char) : Option Nat :=
  if '0' ≤ c ∧ c ≤ '9' then some (c.toNat - 48)
  else if 'a' ≤ c ∧ c ≤ 'f' then some (c.toNat - 87)
  else if 'A' ≤ c ∧ c ≤ 'F' then some (c.toNat - 55)
  else none

/-- The digit characters `Number.prototype.toString(radix)` writes. -/
def digitChars : List Char :=
  ['0', '1', '2', '3', '4', '5', '6', '7', '8', '9', 'a', 'b', 'c', 'd', 'e', 'f']

def digitChar (d : Nat) : Char := digitChars.getD d '0'

/-- Digits of `n` in radix `b`, most significant first, accumulated in `acc`. -/
def toDigitsAux (b : Nat) : Nat → Nat → Str → Str
  | 0, _, acc => acc
  | fuel + 1, n, acc =>
    if n < b then digitChar n :: acc
    else toDigitsAux b fuel (n / b) (digitChar (n % b) :: acc)

/-- `n.toString(b)` for a non-negative integer `n` (number or BigInt), `2 ≤ b ≤ 16`. -/
def natToString (b n : Nat) : Str := toDigitsAux b (n + 1) n []

/-- `n.toString(b)` for an integer: a minus sign before the digits of `-n`. -/
def intToString (b : Nat) (n : Int) : Str :=
  if n < 0 then '-' :: natToString b n.natAbs else natToString b n.natAbs

/-- `parseInt(s, b)` on a string without sign or blanks: the value of the longest
prefix of digits, `none` (NaN) when there is none. -/
def parseDigits (b : Nat) : Str → Option Nat → Option Nat
  | [], acc => acc
  | c :: cs, acc =>
    match hexVal c with
    | some d => if d < b then parseDigits b cs (some (acc.getD 0 * b + d)) else acc
    | none => acc

def parseIntRadix (b : Nat) (s : Str) : Option Nat := parseDigits b s none


/-- White space as `String.prototype.trim` and `parseInt` skip it. -/
def isJsSpace (c : Char) : Bool :=
  let n := c.toNat
  n = 32 || (9 ≤ n && n ≤ 13) || n = 160 || n = 5760 || (8192 ≤ n && n ≤ 8202) ||
    n = 8232 || n = 8233 || n = 8239 || n = 8287 || n = 12288 || n = 65279

/-- `String.prototype.trim`. -/
def trim (s : Str) : Str :=
  ((s.dropWhile isJsSpace).reverse.dropWhile isJsSpace).reverse

/-- `String.prototype.toLowerCase`, on the ASCII letters (other characters are kept). -/
def toLowerCase (s : Str) : Str := s.map Char.toLower

/-- `String.prototype.toUpperCase`, on the ASCII letters (other characters are kept). -/
def toUpperCase (s : Str) : Str := s.map Char.toUpper

/-- `String.prototype.split(sep)` for a one-character separator. -/
def splitOn (sep : Char) : Str → List Str
  | [] => [[]]
  | c :: cs =>
    match splitOn sep cs with
    | [] => [[]]
    | w :: ws => if c = sep then [] :: w :: ws else (c :: w) :: ws

/-- `Array.prototype.join(sep)` on an array of strings. -/
def joinWith (sep : Char) : List Str → Str
  | [] => []
  | [w] => w
  | w :: w2 :: ws => w ++ sep :: joinWith sep (w2 :: ws)

/-- `Array.prototype.join(sep)` on an array whose entries may be `undefined`
(written as the empty string). -/
def joinWords (sep : Char) (ws : List (Option Str)) : Str :=
  joinWith sep (ws.map (fun w => w.getD []))

/-- UTF-8 bytes of one character. -/
def utf8Char (c : Char) : Bytes :=
  let n := c.toNat
  if n < 128 then [n]
  else if n < 2048 then [192 + n / 64, 128 + n % 64]
  else if n < 65536 then [224 + n / 4096, 128 + n / 64 % 64, 128 + n % 64]
  else [240 + n / 262144, 128 + n / 4096 % 64, 128 + n / 64 % 64, 128 + n % 64]

/-- UTF-8 bytes of a string: how the hash libraries read a string message or key. -/
def utf8 (s : Str) : Bytes := s.flatMap utf8Char

/-- Value of a byte sequence read as a big-endian integer: `BigInt('0x' + hex)`. -/
def beVal (bs : Bytes) : Nat := bs.foldl (fun acc b => acc * 256 + b) 0

/-- Value of a byte sequence read as a little-endian integer. -/
def leVal : Bytes → Nat
  | [] => 0
  | b :: bs => b + 256 * leVal bs

/-! ## CryptoJS and Node encoders -/

/-- CryptoJS `enc.Hex.stringify` (`hexilify`), also `WordArray.toString()`: two
digits a byte. -/
def hexilify (bs : Bytes) : Str :=
  bs.flatMap (fun b => [digitChar (b / 16 % 16), digitChar (b % 16)])

/-- CryptoJS `enc.Hex.parse` (`unhexilify`): one byte for every two characters,
`parseInt(pair, 16)` each (a pair without a leading digit counts 0). -/
def unhexilify : Str → Bytes
  | [] => []
  | [a] => [(parseIntRadix 16 [a]).getD 0 % 256]
  | a :: b :: rest => (parseIntRadix 16 [a, b]).getD 0 % 256 :: unhexilify rest

/-- Node `Buffer.from(s, 'hex')`: decodes pairs of hex digits up to the first pair
that is not one. -/
def bufferFromHex : Str → Bytes
  | a :: b :: rest =>
    match hexVal a, hexVal b with
    | some x, some y => (16 * x + y) :: bufferFromHex rest
    | _, _ => []
  | _ => []

/-! ## The helpers of `./utils` -/

/-- Modelled from the spec: `utils.hexToBytes`, absent from the sources; one number
for every two characters, `parseInt(pair, 16)` each (a pair without a leading
digit counts 0). -/
def hexToBytes : Str → Bytes
  | [] => []
  | [a] => [(parseIntRadix 16 [a]).getD 0]
  | a :: b :: rest => (parseIntRadix 16 [a, b]).getD 0 :: hexToBytes rest

/-- Modelled from the spec: `utils.bytesToHex`, absent from the sources; every byte
written as `toString(16).padStart(2, '0')`. -/
def bytesToHex (bs : Bytes) : Str :=
  bs.flatMap (fun b => padStart 2 '0' (natToString 16 b))

/-- Modelled from the spec: `utils.reverseHex`, absent from the sources; the bytes
of a hex string in reverse order. -/
def reverseHex (hex : Str) : Str := bytesToHex (hexToBytes hex).reverse

/-- Modelled from the spec: `utils.hex2bits`, absent from the sources; eight binary
digits for every byte of the hex string. -/
def hex2bits (hex : Str) : Str :=
  (hexToBytes hex).flatMap (fun b => padStart 8 '0' (natToString 2 b))

/-- Groups of `n` characters from the left, the last one possibly shorter:
`s.match(/.{1,n}/g)`. -/
def chunksOf (n : Nat) : Nat → Str → List Str
  | 0, _ => []
  | fuel + 1, s => if s = [] then [] else s.take n :: chunksOf n fuel (s.drop n)

/-- Modelled from the spec: `utils.bits2hex`, absent from the sources; every group
of eight binary digits written as a byte of two hex digits. -/
def bits2hex (bits : Str) : Str :=
  (chunksOf 8 bits.length bits).flatMap
    (fun g => padStart 2 '0' (natToString 16 ((parseIntRadix 2 g).getD 0)))

/-- Modelled from the spec: `utils.bits2uintN`, absent from the sources; the
numbers written by the groups of `n` binary digits ("split into 11-bit
big-endian groups"). -/
def bits2uintN (n : Nat) (bits : Str) : List Nat :=
  (chunksOf n bits.length bits).map (fun g => (parseIntRadix 2 g).getD 0)

/-- Modelled from the spec: `utils.uintN2bits`, absent from the sources; every
number written as `toString(2).padStart(n, '0')` ("recombine 11-bit groups
into a bit string"). -/
def uintN2bits (n : Nat) (nums : List Int) : Str :=
  nums.flatMap (fun x => padStart n '0' (intToString 2 x))

/-- Loop of `bytes2b11`: `buf` holds `nbits` pending bits, low bits first. -/
def bytes2b11Aux : Bytes → Nat → Nat → List Nat
  | [], buf, nbits => if nbits ≠ 0 then [buf % 2048] else []
  | b :: rest, buf, nbits =>
    if nbits + 8 ≥ 11 then
      (buf + b * 2 ^ nbits) % 2048 ::
        bytes2b11Aux rest ((buf + b * 2 ^ nbits) / 2048) (nbits + 8 - 11)
    else bytes2b11Aux rest (buf + b * 2 ^ nbits) (nbits + 8)

/-- Modelled from the spec: `utils.bytes2b11`, absent from the sources; the bytes
read as one little-endian bit stream and cut into 11-bit numbers, the last
one holding the bits left over ("256 bits → 24 groups after padding"). -/
def bytes2b11 (bs : Bytes) : List Nat := bytes2b11Aux bs 0 0

/-- The base32 alphabet of RFC 4648. -/
def b32Chars : List Char :=
  ['A', 'B', 'C', 'D', 'E', 'F', 'G', 'H', 'I', 'J', 'K', 'L', 'M', 'N', 'O', 'P',
   'Q', 'R', 'S', 'T', 'U', 'V', 'W', 'X', 'Y', 'Z', '2', '3', '4', '5', '6', '7']

def b32Char (n : Nat) : Char := b32Chars.getD n 'A'

/-- RFC 4648 base32 of a byte sequence, padded with `=` to a multiple of eight
characters. -/
def base32Encode : Bytes → Str
  | v1 :: v2 :: v3 :: v4 :: v5 :: rest =>
    b32Char (v1 >>> 3 &&& 31) :: b32Char ((v1 <<< 2 ||| v2 >>> 6) &&& 31) ::
    b32Char (v2 >>> 1 &&& 31) :: b32Char ((v2 <<< 4 ||| v3 >>> 4) &&& 31) ::
    b32Char ((v3 <<< 1 ||| v4 >>> 7) &&& 31) :: b32Char (v4 >>> 2 &&& 31) ::
    b32Char ((v4 <<< 3 ||| v5 >>> 5) &&& 31) :: b32Char (v5 &&& 31) :: base32Encode rest
  | [v1, v2, v3, v4] =>
    [b32Char (v1 >>> 3 &&& 31), b32Char ((v1 <<< 2 ||| v2 >>> 6) &&& 31),
     b32Char (v2 >>> 1 &&& 31), b32Char ((v2 <<< 4 ||| v3 >>> 4) &&& 31),
     b32Char ((v3 <<< 1 ||| v4 >>> 7) &&& 31), b32Char (v4 >>> 2 &&& 31),
     b32Char (v4 <<< 3 &&& 31), '=']
  | [v1, v2, v3] =>
    [b32Char (v1 >>> 3 &&& 31), b32Char ((v1 <<< 2 ||| v2 >>> 6) &&& 31),
     b32Char (v2 >>> 1 &&& 31), b32Char ((v2 <<< 4 ||| v3 >>> 4) &&& 31),
     b32Char (v3 <<< 1 &&& 31), '=', '=', '=']
  | [v1, v2] =>
    [b32Char (v1 >>> 3 &&& 31), b32Char ((v1 <<< 2 ||| v2 >>> 6) &&& 31),
     b32Char (v2 >>> 1 &&& 31), b32Char (v2 <<< 4 &&& 31), '=', '=', '=', '=']
  | [v1] =>
    [b32Char (v1 >>> 3 &&& 31), b32Char (v1 <<< 2 &&& 31), '=', '=', '=', '=', '=', '=']
  | [] => []

/-- Modelled from the spec: `utils.hex2b32`, absent from the sources; the base32
text of the bytes of a hex string ("address = base32(pub‖checksum)"). -/
def hex2b32 (hex : Str) : Str := base32Encode (hexToBytes hex)


/-! ## Library primitives -/

/-- The primitives the module takes from its libraries. -/
structure Ext where
  /-- The table `require('./bip39-en').words`. -/
  bip39words : List Str
  /-- `String.prototype.normalize('NFKD')`. -/
  nfkd : Str → Str
  /-- The digest `sha512_256` of js-sha512 computes over a byte sequence. -/
  sha512_256 : Bytes → Bytes
  /-- CryptoJS `SHA256` over a byte sequence. -/
  sha256 : Bytes → Bytes
  /-- CryptoJS `HmacSHA512(message, key)`. -/
  hmacSHA512 : Bytes → Bytes → Bytes
  /-- CryptoJS `HmacSHA256(message, key)`. -/
  hmacSHA256 : Bytes → Bytes → Bytes
  /-- CryptoJS `PBKDF2(password, salt)` with SHA-512, 2048 rounds, 64 bytes. -/
  pbkdf2 : Bytes → Bytes → Bytes
  /-- The bytes of `ecEd25519.keyFromSecret(hex).getPublic()`. -/
  edPublic : Str → Bytes
  /-- Coordinates of `ecSECP256.keyFromPrivate(hex).getPublic()`. -/
  secpPublic : Str → Nat × Nat
  /-- Coordinates of `ecCurve25519.keyFromPrivate(hex).getPublic()`. -/
  curve25519Public : Str → Nat × Nat

/-! ## Algorand secret encoder -/

/-- `bip39words[c]`, `undefined` outside the table. -/
def wordAt (E : Ext) (c : Nat) : Option Str := E.bip39words.get? c

def numsToWords (E : Ext) (nums : List Nat) : List (Option Str) :=
  nums.foldl (fun p c => p ++ [wordAt E c]) []

/-- `bip39words.find(bw => bw.substr(0,4) == w.substr(0,4))`. -/
def findByFour (E : Ext) (w : Str) : Option Str :=
  E.bip39words.find? (fun bw => substr 0 4 bw == substr 0 4 w)

/-- `bip39words.findIndex(bw => bw == w)`, with `w` possibly `undefined`. -/
def findIndex (E : Ext) (w : Option Str) : Int :=
  match w with
  | none => -1
  | some w =>
    match E.bip39words.findIdx? (fun bw => bw == w) with
    | none => -1
    | some i => (i : Int)

structure AlgoAddressData where
  key : Str
  pub : Str
  address : Str
  chk : Str
deriving DecidableEq, Repr

def algoAddress (E : Ext) (key : Str) : AlgoAddressData :=
  let key := padStart 64 '0' key
  let pub := bytesToHex (E.edPublic key)
  let chk := substrLast 8 (hexilify (E.sha512_256 (bufferFromHex pub)))
  let address := (hex2b32 (pub ++ chk)).filter (fun c => c ≠ '=')
  { key := key, pub := pub, address := address, chk := chk }

structure AlgoMnemonicData where
  words : List (Option Str)
  chk : Str
deriving DecidableEq, Repr

def algoMnemonic (E : Ext) (key : Str) : AlgoMnemonicData :=
  let nums := bytes2b11 (hexToBytes key)
  let words := numsToWords E nums
  let chk := substr 0 (2 * 2) (hexilify (E.sha512_256 (bufferFromHex key)))
  let chkN := bytes2b11 (hexToBytes chk)
  let chkW := (numsToWords E chkN).head?.join
  { words := words ++ [chkW], chk := chk }

structure AlgoParsedMnemonicData where
  mnemonic : Str
  original : Str
  words : List (Option Str)
  key : Str
  checksum : Str
  valid : Bool
deriving DecidableEq, Repr

/-- What a JavaScript `throw` or a rejected promise carries. -/
inductive JsError where
  | error (msg : String)
  | typeError
  | referenceError
  | syntaxError
deriving DecidableEq, Repr

def algoKeyFromMnemonic (E : Ext) (mnemonic : Str) : Except JsError AlgoParsedMnemonicData :=
  let mnemonic := splitOn ' ' (E.nfkd (toLowerCase (trim mnemonic)))
  if mnemonic.length ≠ 25 then
    .error (.error "Invalid mnemonic length: expected 25 words")
  else
    let words := mnemonic.map (findByFour E)
    let nums := words.map (findIndex E)
    if nums.length ≠ 25 then
      .error (.error "Invalid mnemonic: one or more words not valid")
    else
      let csN1 := nums.getLast?
      let cs1 := intToString 16 (csN1.getD 0)
      let bits := (((nums.take 24).map (fun e => padStart 11 '0' (intToString 2 e))).reverse).flatten
      let key := substr 0 64 (reverseHex (bits2hex bits))
      let cs2 := substr 0 (2 * 2) (hexilify (E.sha512_256 (utf8 key)))
      let csN2 := (bytes2b11 (hexToBytes cs2)).head?
      let isValid := csN1 == csN2.map Int.ofNat
      .ok { mnemonic := joinWords ' ' words
            original := joinWith ' ' mnemonic
            words := words
            key := key
            checksum := cs1
            valid := isValid }

def algoAddressFromMnemonic (E : Ext) (mnemonic : Str) :
    Except JsError (Str × Str × Str × List (Option Str)) :=
  match algoKeyFromMnemonic E mnemonic with
  | .error e => .error e
  | .ok r =>
    if !r.valid then .error (.error "Invalid mnemonic checksum")
    else
      let a := algoAddress E r.key
      .ok (a.key, a.pub, a.address, r.words)

/-! ## BIP39 mnemonic codec -/

def entCheckBits (E : Ext) (ent : Str) (cs : Nat) : Str :=
  let chk := substr 0 2 (hexilify (E.sha256 (unhexilify ent)))
  padStart cs ' ' (substr 0 cs (hex2bits chk))

def ent2bip39words (E : Ext) (ent : Str) : List (Option Str) :=
  let cs := ent.length * 8 / 2 / 32
  let entChecked := substr 0 (ent.length * 8 / 2 + cs) (hex2bits ent) ++ entCheckBits E ent cs
  let nums := bits2uintN 11 entChecked
  numsToWords E nums

structure Bip39ParsedMnemonicData where
  mnemonic : Str
  original : Str
  words : List (Option Str)
  checkbits : Str
  valid : Bool
deriving DecidableEq, Repr

def parseMnemonic (E : Ext) (mnemonic : Str) : Bip39ParsedMnemonicData :=
  let mnemonic := splitOn ' ' (E.nfkd (toLowerCase (trim mnemonic)))
  let words := mnemonic.map (findByFour E)
  let nums := words.map (findIndex E)
  let bits := uintN2bits 11 nums
  let cs := bits.length % 32
  let ent := bits2hex (substr 0 (bits.length - cs) bits)
  let chkBits1 := substrLast cs bits
  let chkBits2 := entCheckBits E ent cs
  let isValid := chkBits1 == chkBits2
  { mnemonic := joinWords ' ' words
    original := joinWith ' ' mnemonic
    words := words
    checkbits := chkBits1
    valid := isValid }

def findBip39Word (E : Ext) (word : Str) : Option Str :=
  let w := substr 0 4 (E.nfkd (toLowerCase (trim word)))
  E.bip39words.find? (fun bw => substr 0 4 bw == w)

def testMnemonicWords (E : Ext) (word : Str) (size : Nat) : List (Option Str) :=
  let dummyMnemonic := trim (List.flatten (List.replicate size (trim word ++ [' '])))
  let mnemonic := splitOn ' ' (E.nfkd (toLowerCase (trim dummyMnemonic)))
  let words := mnemonic.map (findByFour E)
  let nums := words.map (findIndex E)
  let bits := uintN2bits 11 nums
  let cs := bits.length % 32
  let ent := bits2hex (substr 0 (bits.length - cs) bits)
  ent2bip39words E ent


/-! ## JavaScript numbers and promises -/

/-- A JavaScript number that holds an integer, `none` for `NaN` (integers are
exact here; the source has them exact up to `2 ^ 53`). -/
abbrev JsNum := Option Int

/-- The conversion `ToUint32` the bitwise operators apply: `NaN` becomes 0. -/
def toUint32 (x : JsNum) : Nat :=
  match x with
  | none => 0
  | some n => (n % 4294967296).toNat

def BIP32KEY_HARDEN : Nat := 2147483648

def ed25519_n : Nat := 2 ^ 252 + 27742317777372353535851937790883648493

def _getBit (character pattern : Nat) : Nat := (character &&& pattern) % 4294967296

def _setBit (character pattern : Nat) : Nat := (character ||| pattern) % 4294967296

def _clearBit (character pattern : Nat) : Nat :=
  (character &&& (4294967295 - pattern % 4294967296)) % 4294967296

def _OR (x : JsNum) (y : Nat) : Nat := (toUint32 x ||| y) % 4294967296

def _AND (x : JsNum) (y : Nat) : Nat := (toUint32 x &&& y) % 4294967296

/-- `Number.prototype.toString(16)`. -/
def numToString16 (i : JsNum) : Str :=
  match i with
  | none => ['N', 'a', 'N']
  | some n => intToString 16 n

/-- `parseInt(s)` without a radix: leading blanks, a sign, `0x` for radix 16, then
the longest run of digits; `NaN` when there is none. -/
def parseInt (s : Str) : JsNum :=
  let s := s.dropWhile isJsSpace
  let neg := s.head? == some '-'
  let s := if s.head? == some '-' || s.head? == some '+' then s.drop 1 else s
  let hex := s.take 2 == ['0', 'x'] || s.take 2 == ['0', 'X']
  let r := if hex then parseIntRadix 16 (s.drop 2) else parseIntRadix 10 s
  r.map (fun n => if neg then - (n : Int) else (n : Int))

/-- `BigInt('0x' + s)` for a non-empty string of hex digits. -/
def bigIntHex (s : Str) : Nat := (parseIntRadix 16 s).getD 0

/-- How a call that returns a promise ends: the promise is resolved, rejected,
or never settled (`pending`); `unfinished` is a synchronous loop still running
when the fuel of the model is used up. -/
inductive Outcome (α : Type) where
  | resolved (a : α)
  | rejected (e : JsError)
  | pending
  | unfinished
deriving DecidableEq, Repr

/-- The module-level variable `k` that `getPublicKey` assigns and returns; `none`
while it has never been assigned. -/
structure Globals where
  k : Option Str
deriving DecidableEq, Repr

/-! ## Curve registry -/

structure CurveParams where
  name : Str
  modifier : Str
  order : Option Nat
deriving DecidableEq, Repr

/-- What `curves[curveName]` evaluates to: an entry of the table, a member
inherited from `Object.prototype`, or `undefined`. -/
inductive CurveLookup where
  | params (c : CurveParams)
  | inherited
  | undefined
deriving DecidableEq, Repr

def objectPrototypeKeys : List Str :=
  ["constructor", "__proto__", "toString", "toLocaleString", "valueOf", "hasOwnProperty",
   "isPrototypeOf", "propertyIsEnumerable", "__defineGetter__", "__defineSetter__",
   "__lookupGetter__", "__lookupSetter__"].map String.toList

def curveInfo (curveName : Option Str) : CurveLookup :=
  match curveName with
  | none => .undefined
  | some n =>
    if n = "secp256k1".toList then
      .params { name := "secp256k1".toList, modifier := "Bitcoin seed".toList,
                order := some 0xfffffffffffffffffffffffffffffffebaaedce6af48a03bbfd25e8cd0364141 }
    else if n = "nist256p1".toList then
      .params { name := "nist256p1".toList, modifier := "Nist256p1 seed".toList,
                order := some 0xffffffff00000000ffffffffffffffffbce6faada7179e84f3b9cac2fc632551 }
    else if n = "ed25519".toList then
      .params { name := "ed25519".toList, modifier := "ed25519 seed".toList, order := none }
    else if n ∈ objectPrototypeKeys then .inherited
    else .undefined

/-! ## Derivation nodes -/

structure AlgoData where
  key : Str
  address : Str
  words : List (Option Str)
  pub : Str
  chk1 : Str
  chk2 : Str
deriving DecidableEq, Repr

structure DerivationNode where
  kL : Bytes
  kR : Option Bytes
  A : Option Str
  c : Option Bytes
  p : Option Str
  seed : Option Bytes
  bip39seed : Option Str
  algo : Option AlgoData
deriving DecidableEq, Repr

def _NODE (kL : Bytes) (kR : Option Bytes) (A : Option Str) (c : Option Bytes)
    (p : Option Str) : DerivationNode :=
  { kL := kL, kR := kR, A := A, c := c, p := p, seed := none, bip39seed := none, algo := none }

def bip39seed (E : Ext) (mnemonic passphrase : Str) (pre : Str) : Outcome Bytes :=
  .resolved (E.pbkdf2 (utf8 (E.nfkd mnemonic)) (utf8 (pre ++ passphrase)))

def encodeXY (x y : Str) : Str :=
  let xb := hexToBytes x
  let yb := hexToBytes y
  let yb :=
    if _AND (some (xb.getD 31 0 : Int)) 1 ≠ 0 then
      match yb with
      | [] => [128]
      | y0 :: ys => (y0 ||| 128) % 4294967296 :: ys
    else yb
  bytesToHex yb.reverse

/-! ## Root key -/

/-- The `while (isAlive)` loop of `rootKey` for `slip10`.  `res` is called inside
the loop, so the promise keeps the node of the first pass (`first`); the loop
itself goes on until a candidate is accepted. -/
def rootKeySlip10 (E : Ext) (curve : CurveParams) :
    Nat → Bytes → Option DerivationNode → Outcome DerivationNode
  | 0, _, _ => .unfinished
  | fuel + 1, seed, first =>
    let h := hexilify (E.hmacSHA512 seed (utf8 curve.modifier))
    let kL := unhexilify (substr 0 64 h)
    let kR := unhexilify (substrFrom 64 h)
    let a := bigIntHex (hexilify kL)
    let accepted :=
      curve.name == "ed25519".toList ||
        (match curve.order with
          | some order => decide (a < order) && a != 0
          | none => false)
    let seed := unhexilify h
    let settled := first.getD (_NODE kL (some kR) none none none)
    if accepted then .resolved settled else rootKeySlip10 E curve fuel seed (some settled)

/-- The `while` loop of `rootKey` for `kholaw`, on the hex text `I` of the last
HMAC: it ends on the first `I` whose byte 31 has bit `0x20` clear. -/
def rootKeyKholawLoop (E : Ext) (curve : CurveParams) : Nat → Str → Option Str
  | 0, _ => none
  | fuel + 1, I =>
    let kL := unhexilify (substr 0 64 I)
    let kLb := hexToBytes (hexilify kL)
    if _getBit (kLb.getD 31 0) 0b00100000 != 0 then
      rootKeyKholawLoop E curve fuel (hexilify (E.hmacSHA512 (unhexilify I) (utf8 curve.modifier)))
    else some I

def rootKey (E : Ext) (fuel : Nat) (seed : Bytes) (curve : CurveLookup) (method : Str) :
    Outcome DerivationNode :=
  if method = "slip10".toList then
    match curve with
    | .params curve => rootKeySlip10 E curve fuel seed none
    | _ => .rejected .typeError
  else if method = "kholaw".toList then
    match curve with
    | .params curve =>
      let c := E.hmacSHA256 (unhexilify ("01".toList ++ hexilify seed)) (utf8 curve.modifier)
      match rootKeyKholawLoop E curve fuel (hexilify (E.hmacSHA512 seed (utf8 curve.modifier))) with
      | none => .unfinished
      | some I =>
        let kL := unhexilify (substr 0 64 I)
        let kR := unhexilify (substrFrom 64 I)
        let kLb := hexToBytes (hexilify kL)
        let kLb := kLb.set 0 (_clearBit (kLb.getD 0 0) 0b00000111)
        let kLb := kLb.set 31 (_clearBit (kLb.getD 31 0) 0b10000000)
        let kLb := kLb.set 31 (_setBit (kLb.getD 31 0) 0b01000000)
        let kL := unhexilify (bytesToHex kLb)
        let kLr := bytesToHex kLb.reverse
        let pub := E.curve25519Public kLr
        let x := natToString 16 pub.1
        let y := natToString 16 pub.2
        let A := encodeXY x y
        .resolved (_NODE kL (some kR) (some A) (some c) none)
    | _ => .rejected .typeError
  else .pending


/-! ## Child keys -/

/-- The function `getPublicKey`: it assigns the module variable `k` in the
`ed25519` and `secp256k1` branches only, and returns `k` in every case; reading
`k` while it was never assigned throws a `ReferenceError`. -/
def getPublicKey (E : Ext) (key : Bytes) (curve : CurveParams) (g : Globals) :
    Except JsError Str × Globals :=
  if curve.name == "ed25519".toList then
    let k := "00".toList ++ bytesToHex (E.edPublic (hexilify key))
    (.ok k, { g with k := some k })
  else if curve.name == "secp256k1".toList then
    let pub := E.secpPublic (hexilify key)
    let x := natToString 16 pub.1
    let y := natToString 16 pub.2
    let padx := padStart 64 '0' x
    let k := if bigIntHex y &&& 1 ≠ 0 then "03".toList ++ padx else "02".toList ++ padx
    (.ok k, { g with k := some k })
  else
    match g.k with
    | some k => (.ok k, g)
    | none => (.error .referenceError, g)

/-- The `while (true)` loop of `deriveChild`: the accepted `(kL, kR)`. -/
def deriveChildLoop (E : Ext) (curve : CurveParams) (parentKey parentChaincode : Bytes)
    (i : JsNum) : Nat → Str → Outcome (Bytes × Bytes)
  | 0, _ => .unfinished
  | fuel + 1, data =>
    let h := hexilify (E.hmacSHA512 (unhexilify data) parentChaincode)
    let kL := unhexilify (substr 0 64 h)
    let kR := unhexilify (substrFrom 64 h)
    if curve.name == "ed25519".toList then .resolved (kL, kR)
    else
      let a := bigIntHex (hexilify kL)
      match curve.order with
      | none => .rejected .typeError
      | some order =>
        let key := (a + bigIntHex (hexilify parentKey)) % order
        if a < order && key != 0 then
          .resolved (unhexilify (padStart 64 '0' (natToString 16 key)), kR)
        else
          deriveChildLoop E curve parentKey parentChaincode i fuel
            ("01".toList ++ hexilify kR ++ padStart 8 '0' (numToString16 i))

def deriveChild (E : Ext) (fuel : Nat) (parentKey parentChaincode : Bytes) (i : JsNum)
    (curve : CurveParams) (g : Globals) : Outcome DerivationNode × Globals :=
  let start : Except JsError Str × Globals :=
    if _AND i BIP32KEY_HARDEN ≠ 0 then (.ok ("00".toList ++ hexilify parentKey), g)
    else getPublicKey E parentKey curve g
  match start with
  | (.error e, g) => (.rejected e, g)
  | (.ok data, g) =>
    let data := data ++ padStart 8 '0' (numToString16 i)
    match deriveChildLoop E curve parentKey parentChaincode i fuel data with
    | .resolved (kL, kR) =>
      match getPublicKey E kL curve g with
      | (.error e, g) => (.rejected e, g)
      | (.ok pub, g) => (.resolved (_NODE kL (some kR) none none (some pub)), g)
    | .rejected e => (.rejected e, g)
    | .pending => (.pending, g)
    | .unfinished => (.unfinished, g)

/-- The two HMAC calls of `deriveChildKhoLaw`: the hex text `Z` and the hex text
`c` of the child chain code, for a regular (`i < 2 ** 31`) or hardened child. -/
def khoLawHmacs (E : Ext) (kLP kRP : Bytes) (AP : Option Str) (cP : Bytes) (i : JsNum) :
    Str × Str :=
  let ib := reverseHex (padStart (4 * 2) '0' (numToString16 i))
  let regular : Bool := match i with
    | some n => decide (n < 2 ^ 31)
    | none => false
  let Zi :=
    if regular then "02".toList ++ AP.getD "undefined".toList ++ ib
    else "00".toList ++ hexilify kLP ++ hexilify kRP ++ ib
  let ci :=
    if regular then "03".toList ++ AP.getD "undefined".toList ++ ib
    else "01".toList ++ hexilify kLP ++ hexilify kRP ++ ib
  let Z := hexilify (E.hmacSHA512 (unhexilify Zi) cP)
  let c := substrLast (32 * 2) (hexilify (E.hmacSHA512 (unhexilify ci) cP))
  (Z, c)

/-- The line `ZL = unhexilify(Z.substr(0,28*2))`. -/
def khoLawZL (Z : Str) : Bytes := unhexilify (substr 0 (28 * 2) Z)

/-- The line `ZR = unhexilify(Z.substr(32*2))`. -/
def khoLawZR (Z : Str) : Bytes := unhexilify (substrFrom (32 * 2) Z)

/-- The line `kLn = BigInt('0x'+reverseHex(hexilify(ZL))) * 8n +
BigInt('0x'+reverseHex(hexilify(kLP)))`. -/
def khoLawKLn (Z : Str) (kLP : Bytes) : Nat :=
  bigIntHex (reverseHex (hexilify (khoLawZL Z))) * 8 + bigIntHex (reverseHex (hexilify kLP))

/-- The lines computing `kRn`. -/
def khoLawKRn (Z : Str) (kRP : Bytes) : Nat :=
  (bigIntHex (reverseHex (hexilify (khoLawZR Z))) + bigIntHex (reverseHex (hexilify kRP)))
    % 2 ^ 256

/-- The function `deriveChildKhoLaw`; the promise is resolved with `undefined`
(`none`) when `kLn % ed25519_n == 0n`, the first `res` being the one that counts. -/
def deriveChildKhoLaw (E : Ext) (node : DerivationNode) (i : JsNum) :
    Outcome (Option DerivationNode) :=
  let kLP := node.kL
  let AP := node.A
  match node.kR, node.c with
  | some kRP, some cP =>
    let Zc := khoLawHmacs E kLP kRP AP cP i
    let Z := Zc.1
    let c := Zc.2
    let kLn := khoLawKLn Z kLP
    let kRn := khoLawKRn Z kRP
    let kL := reverseHex (natToString 16 kLn)
    let kR := reverseHex (natToString 16 kRn)
    let pub := E.curve25519Public (reverseHex kL)
    let x := natToString 16 pub.1
    let y := natToString 16 pub.2
    let A := encodeXY x y
    let o := _NODE (unhexilify kL) (some (unhexilify kR)) (some A) (some (unhexilify c)) none
    if kLn % ed25519_n == 0 then .resolved none else .resolved (some o)
  | _, _ => .rejected .typeError

/-! ## Algorand secret of a node and the path walker -/

def algoSecret (E : Ext) (node : DerivationNode) : Outcome DerivationNode :=
  let a := algoAddress E (hexilify node.kL)
  let chk1 := a.chk
  let m := algoMnemonic E a.key
  let chk2 := m.chk
  .resolved { node with algo := some { key := a.key, address := a.address, words := m.words,
                                       pub := a.pub, chk1 := chk1, chk2 := chk2 } }

/-- The index the walker computes for the path segment `c`. -/
def segmentIndex (curve : CurveParams) (method : Str) (c : Str) : JsNum :=
  let idx := parseInt c
  let idx := if substrLast 1 c == [Char.ofNat 39] then some (_OR idx BIP32KEY_HARDEN : Int) else idx
  let idx :=
    if curve.name == "ed25519".toList && method == "slip10".toList then
      some (_OR idx BIP32KEY_HARDEN : Int)
    else idx
  idx

/-- The chain `path.reduce((p, c) => p.then(o => ...), Promise.resolve(root))`. -/
def walkPath (E : Ext) (fuel : Nat) (curve : CurveParams) (method : Str) :
    List Str → DerivationNode → Globals → Outcome DerivationNode × Globals
  | [], o, g => (.resolved o, g)
  | c :: rest, o, g =>
    let idx := segmentIndex curve method c
    if method == "slip10".toList then
      match o.kR with
      | none => (.rejected .typeError, g)
      | some kR =>
        match deriveChild E fuel o.kL kR idx curve g with
        | (.resolved o, g) => walkPath E fuel curve method rest o g
        | other => other
    else if method == "kholaw".toList then
      match deriveChildKhoLaw E o idx with
      | .resolved (some o) => walkPath E fuel curve method rest o g
      | .resolved none => (.rejected .typeError, g)
      | .rejected e => (.rejected e, g)
      | .pending => (.pending, g)
      | .unfinished => (.unfinished, g)
    else (.rejected .typeError, g)

def defaultPath : Str := [ 'm', '/', '4', '4', Char.ofNat 39, '/', '2', '8', '3', Char.ofNat 39,
  '/', '0', Char.ofNat 39, '/', '0', '/', '0']

def deriveBip39Seed (E : Ext) (fuel : Nat) (seed : Bytes) (method : Str) (path : Option Str)
    (g : Globals) : Outcome DerivationNode × Globals :=
  let path := path.getD defaultPath
  if method = "bip39-seed".toList then
    let o : DerivationNode :=
      { kL := unhexilify (substr 0 (32 * 2) (hexilify seed)), kR := none, A := none, c := none,
        p := none, seed := some seed, bip39seed := some (hexilify seed), algo := none }
    (algoSecret E o, g)
  else
    let curve := curveInfo ((splitOn '-' method).get? 1)
    let method := (splitOn '-' method).headD []
    match rootKey E fuel seed curve method, curve with
    | .resolved root, .params curve =>
      let path := splitOn '/' path
      let path := if path.head? == some ['m'] then path.drop 1 else path
      match walkPath E fuel curve method path root g with
      | (.resolved o, g) =>
        (algoSecret E { o with seed := some seed, bip39seed := some (hexilify seed) }, g)
      | other => other
    | .resolved _, _ => (.rejected .typeError, g)
    | .rejected e, _ => (.rejected e, g)
    | .pending, _ => (.pending, g)
    | .unfinished, _ => (.unfinished, g)

def deriveMnemonic (E : Ext) (fuel : Nat) (mnemonic method : Str) (path : Option Str)
    (passphrase : Str) (g : Globals) : Outcome DerivationNode × Globals :=
  match bip39seed E mnemonic passphrase "mnemonic".toList with
  | .resolved seed => deriveBip39Seed E fuel seed method path g
  | .rejected e => (.rejected e, g)
  | .pending => (.pending, g)
  | .unfinished => (.unfinished, g)


/-! ## Reference primitives

The hash functions of FIPS 180-4, HMAC (RFC 2104), PBKDF2 (RFC 8018) and the
curve arithmetic the libraries implement, written out so that the definitions
above can be run on concrete inputs. -/

/-- The `n` bytes of `x`, most significant first. -/
def toBytesBE : Nat → Nat → Bytes
  | 0, _ => []
  | n + 1, x => toBytesBE n (x / 256) ++ [x % 256]

/-- The `n` bytes of `x`, least significant first. -/
def toBytesLE : Nat → Nat → Bytes
  | 0, _ => []
  | n + 1, x => x % 256 :: toBytesLE n (x / 256)

/-- Consecutive blocks of `size` bytes. -/
def blocksOf (size : Nat) : Nat → Bytes → List Bytes
  | 0, _ => []
  | fuel + 1, bs => if bs = [] then [] else bs.take size :: blocksOf size fuel (bs.drop size)

/-- Parameters that tell SHA-256 from SHA-512: word size, round constants and
the rotation amounts of the four sigma functions. -/
structure Sha2 where
  w : Nat
  k : List Nat
  bigS0 : Nat × Nat × Nat
  bigS1 : Nat × Nat × Nat
  smallS0 : Nat × Nat × Nat
  smallS1 : Nat × Nat × Nat

structure Sha2State where
  a : Nat
  b : Nat
  c : Nat
  d : Nat
  e : Nat
  f : Nat
  g : Nat
  h : Nat

def rotr (w x n : Nat) : Nat :=
  Nat.mod (Nat.lor (Nat.shiftRight x n) (Nat.shiftLeft x (Nat.sub w n))) (Nat.pow 2 w)

/-- The padded message as a number: the message bytes, `0x80`, zeros up to a
whole number of blocks, the bit length on `w / 4` bytes; and the number of
`w`-bit words it has. -/
def Sha2.pad (P : Sha2) (msg : Bytes) : Nat × Nat :=
  let block := 2 * P.w
  let lenField := P.w / 4
  let used := (msg.length + 1 + lenField) % block
  let zeros := if used = 0 then 0 else block - used
  ((beVal msg * 256 + 128) * 2 ^ (8 * (zeros + lenField)) + 8 * msg.length,
    (msg.length + 1 + zeros + lenField) / (P.w / 8))

/-- The `n` words of `w` bits of `x`, most significant first, put before `acc`. -/
def wordsOf (w : Nat) : Nat → Nat → List Nat → List Nat
  | 0, _, acc => acc
  | n + 1, x, acc => wordsOf w n (Nat.div x (Nat.pow 2 w)) (Nat.mod x (Nat.pow 2 w) :: acc)

/-- The functions `Σ0` and `Σ1`: three rotations. -/
def Sha2.bigSigma (w : Nat) (r : Nat × Nat × Nat) (x : Nat) : Nat :=
  Nat.xor (Nat.xor (rotr w x r.1) (rotr w x r.2.1)) (rotr w x r.2.2)

/-- The functions `σ0` and `σ1`: two rotations and a shift. -/
def Sha2.smallSigma (w : Nat) (r : Nat × Nat × Nat) (x : Nat) : Nat :=
  Nat.xor (Nat.xor (rotr w x r.1) (rotr w x r.2.1)) (Nat.shiftRight x r.2.2)

/-- The message schedule: the next `n` words, from the window of the sixteen
latest words, oldest first. -/
def Sha2.schedule (P : Sha2) : Nat → List Nat → List Nat
  | n + 1, w0 :: w1 :: w2 :: w3 :: w4 :: w5 :: w6 :: w7 :: w8 :: w9 :: w10 :: w11 :: w12 :: w13
      :: w14 :: w15 :: _ =>
    w0 :: Sha2.schedule P n [w1, w2, w3, w4, w5, w6, w7, w8, w9, w10, w11, w12, w13, w14, w15,
      Nat.mod (Nat.add (Nat.add (Nat.add (Sha2.smallSigma P.w P.smallS1 w14) w9)
        (Sha2.smallSigma P.w P.smallS0 w1)) w0) (Nat.pow 2 P.w)]
  | _, _ => []

/-- The rounds of a block, on the working variables `a` to `h`: with
`T1 = h + Σ1(e) + Ch(e, f, g) + k + w` and `T2 = Σ0(a) + Maj(a, b, c)`, the
variables become `T1 + T2, a, b, c, d + T1, e, f, g`. -/
def Sha2.rounds (P : Sha2) :
    List Nat → List Nat → Nat → Nat → Nat → Nat → Nat → Nat → Nat → Nat → Sha2State
  | k :: ks, w :: ws, a, b, c, d, e, f, g, h =>
    (fun t1 => Sha2.rounds P ks ws
      (Nat.mod (Nat.add t1 (Nat.mod (Nat.add (Sha2.bigSigma P.w P.bigS0 a)
        (Nat.xor (Nat.xor (Nat.land a b) (Nat.land a c)) (Nat.land b c))) (Nat.pow 2 P.w)))
        (Nat.pow 2 P.w))
      a b c (Nat.mod (Nat.add d t1) (Nat.pow 2 P.w)) e f g)
    (Nat.mod (Nat.add (Nat.add (Nat.add (Nat.add h (Sha2.bigSigma P.w P.bigS1 e))
      (Nat.xor (Nat.land e f) (Nat.land (Nat.sub (Nat.sub (Nat.pow 2 P.w) 1) e) g))) k) w)
      (Nat.pow 2 P.w))
  | _, _, a, b, c, d, e, f, g, h =>
    { a := a, b := b, c := c, d := d, e := e, f := f, g := g, h := h }

/-- One block: the sixteen words at the head of `ws`. -/
def Sha2.compress (P : Sha2) (s : Sha2State) (ws : List Nat) : Sha2State :=
  let t := Sha2.rounds P P.k (Sha2.schedule P P.k.length ws) s.a s.b s.c s.d s.e s.f s.g s.h
  let m := 2 ^ P.w
  { a := (s.a + t.a) % m, b := (s.b + t.b) % m, c := (s.c + t.c) % m, d := (s.d + t.d) % m,
    e := (s.e + t.e) % m, f := (s.f + t.f) % m, g := (s.g + t.g) % m, h := (s.h + t.h) % m }

/-- The blocks of a message given as words, sixteen words at a time. -/
def Sha2.blocks (P : Sha2) : Nat → List Nat → Sha2State → Sha2State
  | 0, _, s => s
  | n + 1, ws, s => Sha2.blocks P n (ws.drop 16) (Sha2.compress P s ws)

def Sha2.digest (P : Sha2) (iv : Sha2State) (outLen : Nat) (msg : Bytes) : Bytes :=
  let padded := Sha2.pad P msg
  let s := Sha2.blocks P (padded.2 / 16) (wordsOf P.w padded.2 padded.1 []) iv
  ([s.a, s.b, s.c, s.d, s.e, s.f, s.g, s.h].flatMap (toBytesBE (P.w / 8))).take outLen

def sha256Params : Sha2 :=
  { w := 32
    k := 
[
   0x428a2f98, 0x71374491, 0xb5c0fbcf, 0xe9b5dba5, 0x3956c25b, 0x59f111f1, 0x923f82a4, 0xab1c5ed5,
   0xd807aa98, 0x12835b01, 0x243185be, 0x550c7dc3, 0x72be5d74, 0x80deb1fe, 0x9bdc06a7, 0xc19bf174,
   0xe49b69c1, 0xefbe4786, 0x0fc19dc6, 0x240ca1cc, 0x2de92c6f, 0x4a7484aa, 0x5cb0a9dc, 0x76f988da,
   0x983e5152, 0xa831c66d, 0xb00327c8, 0xbf597fc7, 0xc6e00bf3, 0xd5a79147, 0x06ca6351, 0x14292967,
   0x27b70a85, 0x2e1b2138, 0x4d2c6dfc, 0x53380d13, 0x650a7354, 0x766a0abb, 0x81c2c92e, 0x92722c85,
   0xa2bfe8a1, 0xa81a664b, 0xc24b8b70, 0xc76c51a3, 0xd192e819, 0xd6990624, 0xf40e3585, 0x106aa070,
   0x19a4c116, 0x1e376c08, 0x2748774c, 0x34b0bcb5, 0x391c0cb3, 0x4ed8aa4a, 0x5b9cca4f, 0x682e6ff3,
   0x748f82ee, 0x78a5636f, 0x84c87814, 0x8cc70208, 0x90befffa, 0xa4506ceb, 0xbef9a3f7, 0xc67178f2]
    bigS0 := (2, 13, 22), bigS1 := (6, 11, 25), smallS0 := (7, 18, 3), smallS1 := (17, 19, 10) }

def sha512Params : Sha2 :=
  { w := 64
    k := 
[
   0x428a2f98d728ae22, 0x7137449123ef65cd, 0xb5c0fbcfec4d3b2f, 0xe9b5dba58189dbbc,
   0x3956c25bf348b538, 0x59f111f1b605d019, 0x923f82a4af194f9b, 0xab1c5ed5da6d8118,
   0xd807aa98a3030242, 0x12835b0145706fbe, 0x243185be4ee4b28c, 0x550c7dc3d5ffb4e2,
   0x72be5d74f27b896f, 0x80deb1fe3b1696b1, 0x9bdc06a725c71235, 0xc19bf174cf692694,
   0xe49b69c19ef14ad2, 0xefbe4786384f25e3, 0x0fc19dc68b8cd5b5, 0x240ca1cc77ac9c65,
   0x2de92c6f592b0275, 0x4a7484aa6ea6e483, 0x5cb0a9dcbd41fbd4, 0x76f988da831153b5,
   0x983e5152ee66dfab, 0xa831c66d2db43210, 0xb00327c898fb213f, 0xbf597fc7beef0ee4,
   0xc6e00bf33da88fc2, 0xd5a79147930aa725, 0x06ca6351e003826f, 0x142929670a0e6e70,
   0x27b70a8546d22ffc, 0x2e1b21385c26c926, 0x4d2c6dfc5ac42aed, 0x53380d139d95b3df,
   0x650a73548baf63de, 0x766a0abb3c77b2a8, 0x81c2c92e47edaee6, 0x92722c851482353b,
   0xa2bfe8a14cf10364, 0xa81a664bbc423001, 0xc24b8b70d0f89791, 0xc76c51a30654be30,
   0xd192e819d6ef5218, 0xd69906245565a910, 0xf40e35855771202a, 0x106aa07032bbd1b8,
   0x19a4c116b8d2d0c8, 0x1e376c085141ab53, 0x2748774cdf8eeb99, 0x34b0bcb5e19b48a8,
   0x391c0cb3c5c95a63, 0x4ed8aa4ae3418acb, 0x5b9cca4f7763e373, 0x682e6ff3d6b2b8a3,
   0x748f82ee5defb2fc, 0x78a5636f43172f60, 0x84c87814a1f0ab72, 0x8cc702081a6439ec,
   0x90befffa23631e28, 0xa4506cebde82bde9, 0xbef9a3f7b2c67915, 0xc67178f2e372532b,
   0xca273eceea26619c, 0xd186b8c721c0c207, 0xeada7dd6cde0eb1e, 0xf57d4f7fee6ed178,
   0x06f067aa72176fba, 0x0a637dc5a2c898a6, 0x113f9804bef90dae, 0x1b710b35131c471b,
   0x28db77f523047d84, 0x32caab7b40c72493, 0x3c9ebe0a15c9bebc, 0x431d67c49c100d4c,
   0x4cc5d4becb3e42b6, 0x597f299cfc657e2a, 0x5fcb6fab3ad6faec, 0x6c44198c4a475817]
    bigS0 := (28, 34, 39), bigS1 := (14, 18, 41), smallS0 := (1, 8, 7), smallS1 := (19, 61, 6) }

def sha256Ref (msg : Bytes) : Bytes :=
  Sha2.digest sha256Params
    { a := 0x6a09e667, b := 0xbb67ae85, c := 0x3c6ef372, d := 0xa54ff53a,
      e := 0x510e527f, f := 0x9b05688c, g := 0x1f83d9ab, h := 0x5be0cd19 } 32 msg

def sha512Ref (msg : Bytes) : Bytes :=
  Sha2.digest sha512Params
    { a := 0x6a09e667f3bcc908, b := 0xbb67ae8584caa73b, c := 0x3c6ef372fe94f82b,
      d := 0xa54ff53a5f1d36f1, e := 0x510e527fade682d1, f := 0x9b05688c2b3e6c1f,
      g := 0x1f83d9abfb41bd6b, h := 0x5be0cd19137e2179 } 64 msg

def sha512_256Ref (msg : Bytes) : Bytes :=
  Sha2.digest sha512Params
    { a := 0x22312194fc2bf72c, b := 0x9f555fa3c84c64c2, c := 0x2393b86b6f53b151,
      d := 0x963877195940eabd, e := 0x96283ee2a88effe3, f := 0xbe5e1e2553863992,
      g := 0x2b0199fc2c85b8aa, h := 0x0eb72ddc81c52ca2 } 32 msg

/-- HMAC over a hash with the given block size: `hmacRef H block message key`. -/
def hmacRef (H : Bytes → Bytes) (block : Nat) (message key : Bytes) : Bytes :=
  let key := if key.length > block then H key else key
  let key := key ++ List.replicate (block - key.length) 0
  H (key.map (fun b => b ^^^ 0x5c) ++ H (key.map (fun b => b ^^^ 0x36) ++ message))

def hmacSHA512Ref (message key : Bytes) : Bytes := hmacRef sha512Ref 128 message key

def hmacSHA256Ref (message key : Bytes) : Bytes := hmacRef sha256Ref 64 message key

def xorBytes (x y : Bytes) : Bytes := List.zipWith (fun a b => a ^^^ b) x y

/-- The rounds of PBKDF2 after the first: `u` is the last HMAC, `t` the running xor. -/
def pbkdf2Rounds (password : Bytes) : Nat → Bytes → Bytes → Bytes
  | 0, _, t => t
  | n + 1, u, t =>
    let u := hmacSHA512Ref u password
    pbkdf2Rounds password n u (xorBytes t u)

/-- PBKDF2 with HMAC-SHA512, 2048 rounds, one block of 64 bytes. -/
def pbkdf2Ref (password salt : Bytes) : Bytes :=
  let u := hmacSHA512Ref (salt ++ [0, 0, 0, 1]) password
  pbkdf2Rounds password 2047 u u

/-- Modular power by squaring: `b ^ e % m`, for `e < 2 ^ fuel`. -/
def powMod (m b : Nat) : Nat → Nat → Nat
  | 0, _ => 1 % m
  | fuel + 1, e =>
    if e = 0 then 1 % m
    else
      let h := powMod m b fuel (e / 2)
      if e % 2 = 1 then h * h % m * b % m else h * h % m

/-- Inverse modulo a prime `m` below `2 ^ 256`. -/
def invMod (m x : Nat) : Nat := powMod m x 256 (m - 2)

def ed25519_p : Nat := 2 ^ 255 - 19

def ed25519_d : Nat :=
  37095705934669439343138083508754565189542113879843219016388785533085940283555

def ed25519_G : Nat × Nat :=
  (15112221349535400772501151409588531511454012693041857206046113283949847762202,
   46316835694926478169428394003475163141307993866256225615783033603165251855960)

/-- Sum of two points of the curve `-x² + y² = 1 + d x² y²`, in projective
coordinates `(X, Y, Z)`. -/
def edAdd (P Q : Nat × Nat × Nat) : Nat × Nat × Nat :=
  let p := ed25519_p
  let a := P.2.2 * Q.2.2 % p
  let b := a * a % p
  let c := P.1 * Q.1 % p
  let d := P.2.1 * Q.2.1 % p
  let e := ed25519_d * c % p * d % p
  let f := (b + p - e) % p
  let g := (b + e) % p
  let x3 := a * f % p * (((P.1 + P.2.1) * (Q.1 + Q.2.1) + 2 * p - c - d) % p) % p
  let y3 := a * g % p * ((d + c) % p) % p
  (x3, y3, f * g % p)

/-- Multiple `k · P` by doubling, for `k < 2 ^ fuel`. -/
def edMul : Nat → Nat → Nat × Nat × Nat → Nat × Nat × Nat
  | 0, _, _ => (0, 1, 1)
  | fuel + 1, k, P =>
    if k = 0 then (0, 1, 1)
    else
      let h := edMul fuel (k / 2) (edAdd P P)
      if k % 2 = 1 then edAdd h P else h

/-- Affine coordinates of `k · G` on ed25519. -/
def edBaseMul (k : Nat) : Nat × Nat :=
  let r := edMul 256 k (ed25519_G.1, ed25519_G.2, 1)
  let zi := invMod ed25519_p r.2.2
  (r.1 * zi % ed25519_p, r.2.1 * zi % ed25519_p)

/-- The public key `ecEd25519.keyFromSecret(hex).getPublic()` of RFC 8032: the
secret is hashed, clamped and read little-endian, the point is written as the 32
little-endian bytes of `y` with the parity of `x` in the top bit. -/
def edPublicRef (secret : Str) : Bytes :=
  let h := (sha512Ref (hexToBytes secret)).take 32
  let h := h.set 0 (h.getD 0 0 &&& 248)
  let h := h.set 31 ((h.getD 31 0 &&& 127) ||| 64)
  let pt := edBaseMul (leVal h)
  let enc := toBytesLE 32 pt.2
  enc.set 31 (enc.getD 31 0 ||| (if pt.1 % 2 = 1 then 128 else 0))

/-- The point `ecCurve25519.keyFromPrivate(hex).getPublic()`: the scalar is the
hex number reduced modulo the group order. -/
def curve25519PublicRef (priv : Str) : Nat × Nat :=
  edBaseMul (bigIntHex priv % ed25519_n)

def secp256k1_p : Nat := 0xfffffffffffffffffffffffffffffffffffffffffffffffffffffffefffffc2f

def secp256k1_n : Nat := 0xfffffffffffffffffffffffffffffffebaaedce6af48a03bbfd25e8cd0364141

def secp256k1_G : Nat × Nat :=
  (0x79be667ef9dcbbac55a06295ce870b07029bfcdb2dce28d959f2815b16f81798,
   0x483ada7726a3c4655da4fbfc0e1108a8fd17b448a68554199c47d08ffb10d4b8)

/-- Sum of two points of `y² = x³ + 7` in projective coordinates `(X, Y, Z)`,
by the complete formulas for a curve with `a = 0` (`3·b = 21`); `(0, 1, 0)` is
the point at infinity. -/
def secpAdd (P Q : Nat × Nat × Nat) : Nat × Nat × Nat :=
  let p := secp256k1_p
  let t0 := P.1 * Q.1 % p
  let t1 := P.2.1 * Q.2.1 % p
  let t2 := P.2.2 * Q.2.2 % p
  let t3 := ((P.1 + P.2.1) * (Q.1 + Q.2.1) + 2 * p - t0 - t1) % p
  let t4 := ((P.2.1 + P.2.2) * (Q.2.1 + Q.2.2) + 2 * p - t1 - t2) % p
  let y3 := 21 * (((P.1 + P.2.2) * (Q.1 + Q.2.2) + 2 * p - t0 - t2) % p) % p
  let x3 := 3 * t0 % p
  let z3 := (t1 + 21 * t2) % p
  let u := (t1 + p - 21 * t2 % p) % p
  ((t3 * u + p - t4 * y3 % p) % p, (y3 * x3 + u * z3) % p, (z3 * t4 + x3 * t3) % p)

/-- Multiple `k · P` by doubling, for `k < 2 ^ fuel`. -/
def secpMul : Nat → Nat → Nat × Nat × Nat → Nat × Nat × Nat
  | 0, _, _ => (0, 1, 0)
  | fuel + 1, k, P =>
    if k = 0 then (0, 1, 0)
    else
      let h := secpMul fuel (k / 2) (secpAdd P P)
      if k % 2 = 1 then secpAdd h P else h

/-- The point `ecSECP256.keyFromPrivate(hex).getPublic()`: the scalar is the hex
number reduced modulo the group order (the pair `(0, 0)` stands for the point at
infinity, which has no coordinates). -/
def secpPublicRef (priv : Str) : Nat × Nat :=
  let r := secpMul 256 (bigIntHex priv % secp256k1_n) (secp256k1_G.1, secp256k1_G.2, 1)
  let zi := invMod secp256k1_p r.2.2
  (r.1 * zi % secp256k1_p, r.2.1 * zi % secp256k1_p)

/-- A table of 2048 distinct three-letter entries standing for `bip39-en`. -/
def sampleWord (i : Nat) : Str :=
  [Char.ofNat (97 + i / 256), Char.ofNat (97 + i / 16 % 16), Char.ofNat (97 + i % 16)]

def sampleWords : List Str := (List.range 2048).map sampleWord

/-- The reference primitives, with the sample word table; `nfkd` is the identity,
which is what NFKD is on ASCII text. -/
def refExt : Ext :=
  { bip39words := sampleWords
    nfkd := fun s => s
    sha512_256 := sha512_256Ref
    sha256 := sha256Ref
    hmacSHA512 := hmacSHA512Ref
    hmacSHA256 := hmacSHA256Ref
    pbkdf2 := pbkdf2Ref
    edPublic := edPublicRef
    secpPublic := secpPublicRef
    curve25519Public := curve25519PublicRef }


/-! ## Contracts of the library primitives -/

/-- An Ed25519 public key is 32 bytes. -/
def Ext.edPublicOk (E : Ext) : Prop :=
  ∀ k, (E.edPublic k).length = 32 ∧ ∀ b ∈ E.edPublic k, b < 256

/-- A SHA-512/256 digest is 32 bytes. -/
def Ext.sha512_256Ok (E : Ext) : Prop :=
  ∀ m, (E.sha512_256 m).length = 32 ∧ ∀ b ∈ E.sha512_256 m, b < 256

/-- A SHA-256 digest is 32 bytes. -/
def Ext.sha256Ok (E : Ext) : Prop :=
  ∀ m, (E.sha256 m).length = 32 ∧ ∀ b ∈ E.sha256 m, b < 256

/-- NFKD leaves ASCII text as it is. -/
def Ext.nfkdOk (E : Ext) : Prop :=
  ∀ s : Str, (∀ c ∈ s, c.toNat < 128) → E.nfkd s = s

/-- The word table has 2048 entries, each a non-empty run of the letters `a` to
`z`, and no two of them start with the same four characters. -/
def Ext.wordsOk (E : Ext) : Prop :=
  E.bip39words.length = 2048 ∧
  (∀ w ∈ E.bip39words, w ≠ [] ∧ ∀ c ∈ w, 'a' ≤ c ∧ c ≤ 'z') ∧
  (∀ i j : Nat, ∀ wi wj : Str, E.bip39words.get? i = some wi → E.bip39words.get? j = some wj →
    substr 0 4 wi = substr 0 4 wj → i = j)

/-- An HMAC-SHA512 output is 64 bytes. -/
def Ext.hmacSHA512Ok (E : Ext) : Prop :=
  ∀ m k, (E.hmacSHA512 m k).length = 64 ∧ ∀ b ∈ E.hmacSHA512 m k, b < 256

/-- The coordinates of a secp256k1 point are below `2 ^ 256`. -/
def Ext.secpPublicOk (E : Ext) : Prop :=
  ∀ k, (E.secpPublic k).1 < 2 ^ 256 ∧ (E.secpPublic k).2 < 2 ^ 256

/-- The last characters an address of 58 characters can have. -/
def b32Endings : List Char := ['A', 'E', 'I', 'M', 'Q', 'U', 'Y', '4']

/-! ## Specification helpers -/

/-- The `w` digits of `n` in radix `b`, most significant first. -/
def fixedDigits (b : Nat) : Nat → Nat → Str
  | 0, _ => []
  | w + 1, n => fixedDigits b w (n / b) ++ [digitChar (n % b)]

/-- Specification of the retry loop of the SLIP10 child for a curve with an
order, in the words of the spec: `I = HMAC-SHA512(data, parentChainCode)`,
`kL = I[0:32]`, `kR = I[32:64]`, `newKey = (kL + parentKey) mod order`; accept iff
`kL < order` and `newKey ≠ 0`, giving `newKey` on 32 bytes and `kR`; else retry on
`data = 0x01 ‖ kR ‖ indexBytes`. -/
def slip10ChildSpec (E : Ext) (order : Nat) (parentKey parentChainCode indexBytes : Bytes) :
    Nat → Bytes → Option (Bytes × Bytes)
  | 0, _ => none
  | fuel + 1, data =>
    let I := E.hmacSHA512 data parentChainCode
    let kL := I.take 32
    let kR := I.drop 32
    let newKey := (beVal kL + beVal parentKey) % order
    if beVal kL < order ∧ newKey ≠ 0 then some (toBytesBE 32 newKey, kR)
    else slip10ChildSpec E order parentKey parentChainCode indexBytes fuel
      ([1] ++ kR ++ indexBytes)

/-- The standard compressed form of a point: `0x02` or `0x03` by the parity of
`y`, then `x` on 32 big-endian bytes. -/
def compressedPoint (pt : Nat × Nat) : Bytes :=
  (if pt.2 % 2 = 1 then 3 else 2) :: toBytesBE 32 pt.1

/-- The first `data` of the SLIP10 child, in the words of the spec: `0x00 ‖
parentKey` for a hardened index, else the serialized public key of the parent
key; then the index on 4 big-endian bytes. -/
def slip10ChildData (E : Ext) (parentKey : Bytes) (i : Nat) : Bytes :=
  (if 2 ^ 31 ≤ i then 0 :: parentKey else compressedPoint (E.secpPublic (hexilify parentKey)))
    ++ toBytesBE 4 i

/-- The value a promise was resolved with, if it was. -/
def Outcome.value? {α : Type} : Outcome α → Option α
  | .resolved a => some a
  | _ => none

/-- Specification of the HMAC inputs of the Kholaw child, in the words of the
spec: not hardened (`i < 2^31`), `Zpre = 0x02 ‖ A ‖ indexLE` and `Cpre = 0x03 ‖ A ‖
indexLE`; hardened, `Zpre = 0x00 ‖ kL ‖ kR ‖ indexLE` and `Cpre = 0x01 ‖ kL ‖ kR ‖
indexLE`, the index on 4 little-endian bytes. -/
def khoLawPreimages (kL kR A : Bytes) (i : Nat) : Bytes × Bytes :=
  if i < 2 ^ 31 then (2 :: (A ++ toBytesLE 4 i), 3 :: (A ++ toBytesLE 4 i))
  else (0 :: (kL ++ kR ++ toBytesLE 4 i), 1 :: (kL ++ kR ++ toBytesLE 4 i))

/-! ## Sample inputs -/

/-- The curve parameters `curveInfo('ed25519')` returns. -/
def ed25519Params : CurveParams :=
  { name := "ed25519".toList, modifier := "ed25519 seed".toList, order := none }

/-- The Kholaw root node of the seed of 64 bytes `0x07`, under the reference
primitives: the value `rootKey` resolves with, written out. -/
def sampleKholawRoot : DerivationNode :=
  { kL := [128, 202, 120, 64, 149, 109, 23, 9, 13, 157, 218, 10, 156, 125, 142, 107, 128, 94, 61,
      16, 160, 106, 242, 156, 51, 103, 9, 180, 79, 119, 96, 74]
    kR := some [98, 191, 226, 194, 143, 53, 78, 113, 53, 194, 153, 6, 137, 144, 32, 237, 62, 159,
      115, 205, 140, 228, 183, 174, 186, 132, 132, 197, 133, 233, 210, 169]
    A := some "76008257964fcf6535bbc6e00d3aa45437b53bd6b49452b2942450fc7b2995c1".toList
    c := some [79, 37, 230, 79, 151, 200, 175, 220, 175, 208, 103, 225, 95, 199, 198, 246, 245,
      109, 151, 50, 143, 28, 6, 197, 81, 36, 251, 221, 219, 81, 14, 61]
    p := none, seed := none, bip39seed := none, algo := none }

/-- The curve parameters `curveInfo('nist256p1')` returns. -/
def nist256p1Params : CurveParams :=
  { name := "nist256p1".toList, modifier := "Nist256p1 seed".toList,
    order := some 0xffffffff00000000ffffffffffffffffbce6faada7179e84f3b9cac2fc632551 }

/-- A parent node for index 0 whose `kL` is chosen so that `8·ZL + kL` is a
multiple of the group order: chain code, `kR` and `A` are those of
`sampleKholawRoot` (for a regular index `Z` depends on `A` and `c` only). -/
def sampleVanishingParent : DerivationNode :=
  let Z := (khoLawHmacs refExt sampleKholawRoot.kL (sampleKholawRoot.kR.getD [])
    sampleKholawRoot.A (sampleKholawRoot.c.getD []) (some 0)).1
  { sampleKholawRoot with
    kL := toBytesLE 32 ((ed25519_n - 8 * leVal (khoLawZL Z) % ed25519_n) % ed25519_n) }

/-- Lengths of `kL`, `kR` (bytes) and `A` (hex characters) of the node a call of
`deriveChildKhoLaw` returned. -/
def childLengths (o : Outcome (Option DerivationNode)) : Option (Nat × Option Nat × Option Nat) :=
  match o with
  | .resolved (some n) => some (n.kL.length, n.kR.map List.length, n.A.map List.length)
  | _ => none

/-- Primitives whose HMAC-SHA512 returns 64 bytes `0xff` on every input: every
candidate of the rejection-sampling loops is then rejected. -/
def stuckExt : Ext := { refExt with hmacSHA512 := fun _ _ => List.replicate 64 255 }

/-- The curve parameters `curveInfo('secp256k1')` returns. -/
def secp256k1Params : CurveParams :=
  { name := "secp256k1".toList, modifier := "Bitcoin seed".toList, order := some secp256k1_n }

/-- The mnemonic of the first two test vectors of `tests()`: `all` 23 times,
then `feel`. -/
def allFeelMnemonic : Str :=
  ("all all all all all all all all all all all all all all all all all all all all all all " ++
    "all feel").toList

/-- The BIP39 seed of `allFeelMnemonic` with an empty passphrase: the 64 bytes
PBKDF2-HMAC-SHA512 gives for the mnemonic as password, the salt `mnemonic` and
2048 rounds. -/
def allFeelSeed : Bytes :=
  [59, 225, 56, 179, 108, 1, 63, 199, 151, 217, 168, 151, 223, 235, 87, 200, 43, 250, 67, 243, 37,
    9, 117, 49, 64, 216, 81, 188, 136, 190, 15, 190, 90, 10, 190, 152, 78, 12, 160, 103, 135, 73,
    149, 42, 27, 31, 153, 133, 60, 227, 11, 12, 56, 138, 77, 163, 142, 42, 101, 197, 209, 242, 62,
    155]

/-- The reference primitives with the value of PBKDF2 at the test mnemonic
tabulated (its 2048 rounds of HMAC are too long to be evaluated by reduction);
everywhere else PBKDF2 is `pbkdf2Ref`. -/
def vectorExt : Ext :=
  { refExt with
    pbkdf2 := fun password salt =>
      if password = utf8 allFeelMnemonic ∧ salt = utf8 "mnemonic".toList then allFeelSeed
      else pbkdf2Ref password salt }

/-- The fields `algo.key` and `algo.address` of the node a derivation resolved
with. -/
def algoKeyAddress (o : Outcome DerivationNode × Globals) : Option (Str × Str) :=
  match o.1 with
  | .resolved n => n.algo.map (fun a => (a.key, a.address))
  | _ => none

/-- The bytes written in binary, eight digits each, most significant first. -/
def bitsOfBytes (bs : Bytes) : Str := bs.flatMap (fun b => fixedDigits 2 8 b)

/-- The entropy size `generateMnemonic` of `main.js` computes for `w` words:
`s = (w * 11 - (w * 11) % 32) / 8`. -/
def generateMnemonicSize (w : Nat) : Nat := (w * 11 - (w * 11) % 32) / 8

/-- The function `randomWords`, on the hex text `r` that `utils.randomHex(size)`
resolved with: `ent2bip39words(r)` joined with spaces. -/
def randomWords (E : Ext) (r : Str) : Str := joinWords ' ' (ent2bip39words E r)

/-- The Kholaw child of `sampleKholawRoot` for the path segment `44'`, under the
reference primitives: the value the path walker resolves with, written out. -/
def sampleKholawChild : DerivationNode :=
  { kL := [184, 82, 157, 74, 109, 64, 166, 115, 249, 186, 76, 223, 217, 86, 212, 80, 33, 82, 63,
      34, 95, 235, 145, 12, 103, 144, 106, 174, 87, 119, 96, 74]
    kR := some [126, 139, 144, 206, 50, 89, 239, 223, 176, 60, 94, 73, 66, 245, 45, 103, 119, 52,
      136, 144, 91, 83, 191, 123, 250, 150, 217, 166, 135, 170, 48, 86]
    A := some "7ffa4ee74f2a688df81ba2a771aaf8969a9efca9a07745526098b49166ff3fdb".toList
    c := some [228, 29, 189, 200, 67, 18, 141, 122, 59, 109, 197, 101, 205, 65, 74, 219, 240, 121,
      23, 221, 19, 220, 118, 39, 70, 2, 186, 6, 99, 32, 34, 196]
    p := none, seed := none, bip39seed := none, algo := none }

/-- A valid 12-word mnemonic over the sample table: the words of 16 zero bytes
of entropy. -/
def sampleMnemonic : Str := "aaa aaa aaa aaa aaa aaa aaa aaa aaa aaa aaa aad".toList

/-- The text `sampleMnemonic` with its first word in upper case. -/
def sampleUpperMnemonic : Str := "AAA aaa aaa aaa aaa aaa aaa aaa aaa aaa aaa aad".toList

/-! ## The page script `public/js/main.js` -/

/-- The call `b32.search(e)` for a string `e` of one character: `search` turns
its argument into a regular expression.  A character that is not a pattern on
its own throws a `SyntaxError`; `.`, `^` and `|` match at index 0 and `$` at the
end of the 32 characters; any other character stands for itself, `-1` when it is
not in the alphabet. -/
def b32Search (e : Char) : Except JsError Int :=
  if e ∈ ['*', '+', '?', '(', ')', '[', '\\'] then .error .syntaxError
  else if e = '.' ∨ e = '^' ∨ e = '|' then .ok 0
  else if e = '$' then .ok 32
  else
    match b32Chars.indexOf? e with
    | some i => .ok (i : Int)
    | none => .ok (-1)

/-- The loop `m.map((e, i, a) => { isValid &= b32.search(e) >= 0 })`. -/
def b32AllFound : Str → Bool → Except JsError Bool
  | [], isValid => .ok isValid
  | e :: rest, isValid =>
    match b32Search e with
    | .error err => .error err
    | .ok i => b32AllFound rest (isValid && decide (i ≥ 0))

/-- The value `checkBase32Input` returns, for the text `value` of the input
field (the classes and the feedback text it sets on the page are left out).
`m.splice(-1)` takes the last character out of `m`, so the loop that follows does
not see it. -/
def checkBase32Input (E : Ext) (value : Str) (maxLength : Nat) (range : Bool) :
    Except JsError Int :=
  let m := E.nfkd (toUpperCase (trim value))
  if !range && m.length != maxLength then .ok (-1)
  else if m.length == 0 || decide (m.length > maxLength) then .ok (-1)
  else
    let b32endings :=
      (List.range b32Chars.length).filterMap
        (fun i => if i % 4 = 0 then b32Chars.get? i else none)
    let ending : Option Str :=
      if maxLength == 58 && m.length == 58 then
        (if (m.getLast?.map (fun c => decide (c ∈ b32endings))).getD false
          then some m.dropLast else none)
      else some m
    match ending with
    | none => .ok (-1)
    | some m =>
      match b32AllFound m true with
      | .error err => .error err
      | .ok isValid => if !isValid then .ok (-1) else .ok 1

/-- The function `range` of `main.js`: `Array.from(new Uint8Array(n).map((e, i)
=> i + o))`.  `map` on a `Uint8Array` gives a `Uint8Array`, whose elements are
stored modulo 256. -/
def range (n o : Nat) : List Nat := (List.range n).map (fun i => (i + o) % 256)

/-- A seed whose first SLIP10 candidate for nist256p1 is not below the group
order: 60 zero bytes, then `99 af 97 ba`. -/
def sampleNistSeed : Bytes := List.replicate 60 0 ++ [0x99, 0xaf, 0x97, 0xba]

/-- The module variables after a first derivation, `deriveMnemonic(mnemonic,
'slip10-secp256k1', "m/0'")` on the test mnemonic: `k` holds the public key text
of its last `getPublicKey` call. -/
def afterSecp256k1 : Globals :=
  (deriveMnemonic vectorExt 5 allFeelMnemonic "slip10-secp256k1".toList
    (some ['m', '/', '0', Char.ofNat 39]) [] { k := none }).2

/-- What a call threw, if it threw. -/
def thrown {α : Type} (r : Except JsError α) : Option JsError :=
  match r with
  | .error e => some e
  | .ok _ => none

/-- The path segments `segs` with an apostrophe appended to those whose mark is
`true` (segments beyond the marks are left as they are). -/
def markSegments : List Bool → List Str → List Str
  | _, [] => []
  | [], segs => segs
  | b :: bs, s :: ss => (if b then s ++ [Char.ofNat 39] else s) :: markSegments bs ss

/-! # Theorems -/

set_option maxRecDepth 1000000

/-! ## Digits and hex text -/

theorem toDigitsAux_eq (b : Nat) (hb : 2 ≤ b) (n : Nat) :
    ∀ fuel acc, n < fuel → toDigitsAux b fuel n acc = natToString b n ++ acc := by
  induction n using Nat.strong_induction_on with
  | _ n ih =>
    intro fuel acc hf
    obtain ⟨f, rfl⟩ : ∃ f, fuel = f + 1 := ⟨fuel - 1, by omega⟩
    by_cases hn : n < b
    · simp [natToString, toDigitsAux, hn]
    · have hdiv : n / b < n := Nat.div_lt_self (by omega) (by omega)
      have h1 : toDigitsAux b (f + 1) n acc
          = toDigitsAux b f (n / b) (digitChar (n % b) :: acc) := by
        simp [toDigitsAux, hn]
      have h2 : natToString b n = toDigitsAux b n (n / b) [digitChar (n % b)] := by
        simp [natToString, toDigitsAux, hn]
      rw [h1, h2, ih (n / b) hdiv f _ (by omega), ih (n / b) hdiv n _ hdiv]
      simp

theorem natToString_lt (b n : Nat) (hn : n < b) : natToString b n = [digitChar n] := by
  simp [natToString, toDigitsAux, hn]

theorem natToString_ge (b n : Nat) (hb : 2 ≤ b) (hn : ¬ n < b) :
    natToString b n = natToString b (n / b) ++ [digitChar (n % b)] := by
  have hdiv : n / b < n := Nat.div_lt_self (by omega) (by omega)
  have h2 : natToString b n = toDigitsAux b n (n / b) [digitChar (n % b)] := by
    simp [natToString, toDigitsAux, hn]
  rw [h2, toDigitsAux_eq b hb (n / b) n _ hdiv]


theorem length_fixedDigits (b w n : Nat) : (fixedDigits b w n).length = w := by
  induction w generalizing n with
  | zero => rfl
  | succ w ih => simp [fixedDigits, ih]

theorem fixedDigits_zero (b w : Nat) : fixedDigits b w 0 = List.replicate w '0' := by
  induction w with
  | zero => rfl
  | succ w ih =>
    simp only [fixedDigits, Nat.zero_div, Nat.zero_mod, ih]
    rw [List.replicate_succ']
    rfl

theorem length_natToString_le (b : Nat) (hb : 2 ≤ b) (w : Nat) :
    ∀ n, n < b ^ (w + 1) → (natToString b n).length ≤ w + 1 := by
  induction w with
  | zero =>
    intro n hn
    simp at hn
    simp [natToString_lt b n hn]
  | succ w ih =>
    intro n hn
    by_cases hlt : n < b
    · simp [natToString_lt b n hlt]
    · rw [natToString_ge b n hb hlt]
      have : n / b < b ^ (w + 1) := by
        apply Nat.div_lt_of_lt_mul
        rw [← Nat.pow_succ']
        exact hn
      have := ih (n / b) this
      simp
      omega

/-- For `n < b ^ w`, `n.toString(b).padStart(w, '0')` is the `w` digits of `n`. -/
theorem padStart_natToString (b : Nat) (hb : 2 ≤ b) (w : Nat) :
    ∀ n, n < b ^ (w + 1) → padStart (w + 1) '0' (natToString b n) = fixedDigits b (w + 1) n := by
  induction w with
  | zero =>
    intro n hn
    simp at hn
    simp [natToString_lt b n hn, padStart, fixedDigits, Nat.mod_eq_of_lt hn]
  | succ w ih =>
    intro n hn
    by_cases hlt : n < b
    · rw [natToString_lt b n hlt]
      have h0 : n / b = 0 := Nat.div_eq_of_lt hlt
      rw [fixedDigits, h0, fixedDigits_zero, Nat.mod_eq_of_lt hlt]
      simp [padStart]
    · rw [natToString_ge b n hb hlt]
      have hd : n / b < b ^ (w + 1) := by
        apply Nat.div_lt_of_lt_mul
        rw [← Nat.pow_succ']
        exact hn
      have h1 := ih (n / b) hd
      have hl := length_natToString_le b hb w (n / b) hd
      rw [fixedDigits, ← h1]
      simp only [padStart, List.length_append, List.length_singleton, List.append_assoc]
      congr 2
      omega

theorem bytesToHex_cons (b : Nat) (bs : Bytes) (hb : b < 256) :
    bytesToHex (b :: bs) = digitChar (b / 16) :: digitChar (b % 16) :: bytesToHex bs := by
  have h := padStart_natToString 16 (by omega) 1 b (by simpa using hb)
  simp only [bytesToHex, List.flatMap_cons, Nat.reduceAdd] at h ⊢
  rw [h]
  simp [fixedDigits, Nat.mod_eq_of_lt (show b / 16 < 16 by omega)]

theorem length_bytesToHex (bs : Bytes) (h : ∀ b ∈ bs, b < 256) :
    (bytesToHex bs).length = 2 * bs.length := by
  induction bs with
  | nil => rfl
  | cons b bs ih =>
    rw [bytesToHex_cons b bs (h b (by simp))]
    simp [ih (fun x hx => h x (by simp [hx]))]
    omega

theorem length_hexilify (bs : Bytes) : (hexilify bs).length = 2 * bs.length := by
  induction bs with
  | nil => rfl
  | cons b bs ih =>
    simp only [hexilify, List.flatMap_cons] at ih ⊢
    simp [ih]
    omega

theorem length_hexToBytes : ∀ s : Str, (hexToBytes s).length = (s.length + 1) / 2
  | [] => rfl
  | [_] => by simp [hexToBytes]
  | _ :: _ :: rest => by
    simp [hexToBytes, length_hexToBytes rest]
    omega

/-! ## Base32 -/

theorem b32Char_spec : ∀ n, n < 32 → b32Char n ∈ b32Chars ∧ b32Char n ≠ '=' := by
  decide

theorem b32Char_and (n : Nat) : b32Char (n &&& 31) ∈ b32Chars ∧ b32Char (n &&& 31) ≠ '=' :=
  b32Char_spec _ (Nat.lt_succ_of_le Nat.and_le_right)

theorem b32Char_ending : ∀ v, v < 8 → b32Char (4 * v) ∈ b32Endings := by
  decide

theorem b32Char_last (v : Nat) : b32Char (v <<< 2 &&& 31) ∈ b32Endings := by
  have h : v <<< 2 &&& 31 = 4 * (v % 8) := by
    rw [Nat.shiftLeft_eq, show (31 : Nat) = 2 ^ 5 - 1 by norm_num,
      Nat.and_pow_two_sub_one_eq_mod]
    omega
  rw [h]
  exact b32Char_ending _ (Nat.mod_lt _ (by omega))

/-- Text of `base32Encode` without its padding. -/
theorem base32_strip (l : Bytes) :
    ((base32Encode l).filter (fun c => c ≠ '=')).length = (8 * l.length + 4) / 5 ∧
    (∀ c ∈ (base32Encode l).filter (fun c => c ≠ '='), c ∈ b32Chars) ∧
    (l.length % 5 = 1 →
      ∃ c ∈ b32Endings, ((base32Encode l).filter (fun c => c ≠ '=')).getLast? = some c) := by
  induction l using base32Encode.induct with
  | case1 v1 v2 v3 v4 v5 rest ih =>
    obtain ⟨ih1, ih2, ih3⟩ := ih
    rw [base32Encode]
    refine ⟨?_, ?_, ?_⟩
    · simp only [ne_eq, decide_not] at ih1
      simp [List.filter_cons, (b32Char_and _).2, ih1]
      omega
    · intro c hc
      simp only [List.filter_cons, (b32Char_and _).2, ne_eq, not_false_eq_true, decide_True,
        ite_true, List.mem_cons] at hc
      rcases hc with h | h | h | h | h | h | h | h | h
      all_goals first
        | exact ih2 c h
        | (rw [h]; exact (b32Char_and _).1)
    · intro hlen
      have hr : rest.length % 5 = 1 := by
        simp at hlen
        omega
      obtain ⟨c, hc, hlast⟩ := ih3 hr
      refine ⟨c, hc, ?_⟩
      simp only [List.filter_cons, (b32Char_and _).2, ne_eq, not_false_eq_true, decide_True,
        ite_true]
      have hne : (rest.length) ≠ 0 := by omega
      simp only [List.getLast?_cons_cons]
      rw [List.getLast?_cons]
      rw [hlast]
      rfl
  | case2 v1 v2 v3 v4 =>
    rw [base32Encode]
    refine ⟨?_, ?_, ?_⟩
    · simp [List.filter_cons, (b32Char_and _).2]
    · intro c hc
      simp only [List.filter_cons, (b32Char_and _).2, ne_eq, not_false_eq_true, decide_True,
        ite_true, List.mem_cons] at hc
      simp at hc
      rcases hc with h | h | h | h | h | h | h
      all_goals (rw [h]; exact (b32Char_and _).1)
    · intro h; simp at h
  | case3 v1 v2 v3 =>
    rw [base32Encode]
    refine ⟨?_, ?_, ?_⟩
    · simp [List.filter_cons, (b32Char_and _).2]
    · intro c hc
      simp only [List.filter_cons, (b32Char_and _).2, ne_eq, not_false_eq_true, decide_True,
        ite_true, List.mem_cons] at hc
      simp at hc
      rcases hc with h | h | h | h | h
      all_goals (rw [h]; exact (b32Char_and _).1)
    · intro h; simp at h
  | case4 v1 v2 =>
    rw [base32Encode]
    refine ⟨?_, ?_, ?_⟩
    · simp [List.filter_cons, (b32Char_and _).2]
    · intro c hc
      simp only [List.filter_cons, (b32Char_and _).2, ne_eq, not_false_eq_true, decide_True,
        ite_true, List.mem_cons] at hc
      simp at hc
      rcases hc with h | h | h | h
      all_goals (rw [h]; exact (b32Char_and _).1)
    · intro h; simp at h
  | case5 v1 =>
    rw [base32Encode]
    refine ⟨?_, ?_, ?_⟩
    · simp [List.filter_cons, (b32Char_and _).2]
    · intro c hc
      simp only [List.filter_cons, (b32Char_and _).2, ne_eq, not_false_eq_true, decide_True,
        ite_true, List.mem_cons] at hc
      simp at hc
      rcases hc with h | h
      all_goals (rw [h]; exact (b32Char_and _).1)
    · intro _
      refine ⟨b32Char (v1 <<< 2 &&& 31), b32Char_last v1, ?_⟩
      simp [List.filter_cons, (b32Char_and _).2]
  | case6 =>
    simp [base32Encode]

/-! ## Hex text and bytes -/

theorem hexVal_digitChar : ∀ h, h < 16 → hexVal (digitChar h) = some h := by
  decide

theorem parseHexPair : ∀ h, h < 16 → ∀ l, l < 16 →
    parseIntRadix 16 [digitChar h, digitChar l] = some (16 * h + l) := by
  decide

theorem hexilify_eq_bytesToHex (bs : Bytes) (h : ∀ b ∈ bs, b < 256) :
    hexilify bs = bytesToHex bs := by
  induction bs with
  | nil => rfl
  | cons b bs ih =>
    have hb := h b (by simp)
    rw [bytesToHex_cons b bs hb, ← ih (fun x hx => h x (by simp [hx]))]
    simp [hexilify, Nat.mod_eq_of_lt (show b / 16 < 16 by omega)]

theorem hexilify_append (a b : Bytes) : hexilify (a ++ b) = hexilify a ++ hexilify b := by
  simp [hexilify]

theorem hexToBytes_bytesToHex (bs : Bytes) (h : ∀ b ∈ bs, b < 256) :
    hexToBytes (bytesToHex bs) = bs := by
  induction bs with
  | nil => rfl
  | cons b bs ih =>
    have hb := h b (by simp)
    rw [bytesToHex_cons b bs hb, hexToBytes,
      parseHexPair (b / 16) (by omega) (b % 16) (Nat.mod_lt _ (by omega)),
      ih (fun x hx => h x (by simp [hx]))]
    simp
    omega

theorem bufferFromHex_bytesToHex (bs : Bytes) (h : ∀ b ∈ bs, b < 256) :
    bufferFromHex (bytesToHex bs) = bs := by
  induction bs with
  | nil => rfl
  | cons b bs ih =>
    have hb := h b (by simp)
    rw [bytesToHex_cons b bs hb, bufferFromHex,
      hexVal_digitChar (b / 16) (by omega), hexVal_digitChar (b % 16) (Nat.mod_lt _ (by omega))]
    simp only
    rw [ih (fun x hx => h x (by simp [hx]))]
    simp
    omega

theorem unhexilify_bytesToHex (bs : Bytes) (h : ∀ b ∈ bs, b < 256) :
    unhexilify (bytesToHex bs) = bs := by
  induction bs with
  | nil => rfl
  | cons b bs ih =>
    have hb := h b (by simp)
    rw [bytesToHex_cons b bs hb, unhexilify,
      parseHexPair (b / 16) (by omega) (b % 16) (Nat.mod_lt _ (by omega)),
      ih (fun x hx => h x (by simp [hx]))]
    simp
    omega

theorem substrLast_append (a b : Str) (n : Nat) (hn : b.length = n) (h0 : n ≠ 0) :
    substrLast n (a ++ b) = b := by
  simp [substrLast, h0, hn]

/-- The last four bytes of a digest of 32 bytes, as hex text. -/
theorem substrLast_hexilify (bs : Bytes) (hl : bs.length = 32) :
    substrLast 8 (hexilify bs) = hexilify (bs.drop 28) := by
  conv_lhs => rw [← List.take_append_drop 28 bs, hexilify_append]
  apply substrLast_append _ _ 8 _ (by omega)
  rw [length_hexilify]
  simp [hl]

/-- C1: for every private key, `algoAddress` returns the base32 text, without
padding, of 36 bytes (the 32-byte public key followed by the last 4 bytes of its
SHA-512/256 digest); the address has exactly 58 characters, all of the alphabet
`A`-`Z`, `2`-`7`, and its last character is one of `A E I M Q U Y 4`. -/
theorem algoAddress_shape (E : Ext) (hpub : E.edPublicOk) (hsha : E.sha512_256Ok) (key : Str) :
    (algoAddress E key).address
        = (base32Encode (E.edPublic (padStart 64 '0' key) ++
            (E.sha512_256 (E.edPublic (padStart 64 '0' key))).drop 28)).filter (fun c => c ≠ '=') ∧
      (E.edPublic (padStart 64 '0' key) ++
        (E.sha512_256 (E.edPublic (padStart 64 '0' key))).drop 28).length = 36 ∧
      (algoAddress E key).address.length = 58 ∧
      (∀ c ∈ (algoAddress E key).address, c ∈ b32Chars) ∧
      ∃ c ∈ b32Endings, (algoAddress E key).address.getLast? = some c := by
  obtain ⟨hp1, hp2⟩ := hpub (padStart 64 '0' key)
  obtain ⟨hs1, hs2⟩ := hsha (E.edPublic (padStart 64 '0' key))
  have hd : ∀ b ∈ (E.sha512_256 (E.edPublic (padStart 64 '0' key))).drop 28, b < 256 :=
    fun b hb => hs2 b (List.mem_of_mem_drop hb)
  have haddr : (algoAddress E key).address
      = (base32Encode (E.edPublic (padStart 64 '0' key) ++
          (E.sha512_256 (E.edPublic (padStart 64 '0' key))).drop 28)).filter (fun c => c ≠ '=') := by
    simp only [algoAddress, hex2b32]
    rw [bufferFromHex_bytesToHex _ hp2, substrLast_hexilify _ hs1,
      hexilify_eq_bytesToHex _ hd]
    have : bytesToHex (E.edPublic (padStart 64 '0' key)) ++
        bytesToHex ((E.sha512_256 (E.edPublic (padStart 64 '0' key))).drop 28)
        = bytesToHex (E.edPublic (padStart 64 '0' key) ++
          (E.sha512_256 (E.edPublic (padStart 64 '0' key))).drop 28) := by
      simp [bytesToHex]
    rw [this, hexToBytes_bytesToHex]
    intro b hb
    rcases List.mem_append.mp hb with h | h
    · exact hp2 b h
    · exact hd b h
  have hlen : (E.edPublic (padStart 64 '0' key) ++
      (E.sha512_256 (E.edPublic (padStart 64 '0' key))).drop 28).length = 36 := by
    simp [hp1, hs1]
  obtain ⟨b1, b2, b3⟩ := base32_strip (E.edPublic (padStart 64 '0' key) ++
      (E.sha512_256 (E.edPublic (padStart 64 '0' key))).drop 28)
  rw [haddr]
  refine ⟨rfl, hlen, ?_, b2, b3 ?_⟩
  · rw [b1, hlen]
  · rw [hlen]

/-! ## The reference primitives meet their contracts -/

theorem length_toBytesBE (n x : Nat) : (toBytesBE n x).length = n := by
  induction n generalizing x with
  | zero => rfl
  | succ n ih => simp [toBytesBE, ih]

theorem toBytesBE_lt (n x : Nat) : ∀ b ∈ toBytesBE n x, b < 256 := by
  induction n generalizing x with
  | zero => simp [toBytesBE]
  | succ n ih =>
    intro b hb
    simp only [toBytesBE, List.mem_append, List.mem_singleton] at hb
    rcases hb with h | h
    · exact ih _ b h
    · rw [h]; exact Nat.mod_lt _ (by omega)

theorem length_toBytesLE (n x : Nat) : (toBytesLE n x).length = n := by
  induction n generalizing x with
  | zero => rfl
  | succ n ih => simp [toBytesLE, ih]

theorem toBytesLE_lt (n x : Nat) : ∀ b ∈ toBytesLE n x, b < 256 := by
  induction n generalizing x with
  | zero => simp [toBytesLE]
  | succ n ih =>
    intro b hb
    simp only [toBytesLE, List.mem_cons] at hb
    rcases hb with h | h
    · rw [h]; exact Nat.mod_lt _ (by omega)
    · exact ih _ b h

theorem digest_spec (P : Sha2) (iv : Sha2State) (outLen : Nat) (msg : Bytes)
    (hout : outLen ≤ 8 * (P.w / 8)) :
    (Sha2.digest P iv outLen msg).length = outLen ∧
      ∀ b ∈ Sha2.digest P iv outLen msg, b < 256 := by
  constructor
  · simp only [Sha2.digest, List.length_take, List.flatMap_cons, List.flatMap_nil,
      List.length_append, length_toBytesBE, List.length_nil]
    omega
  · intro b hb
    simp only [Sha2.digest] at hb
    have hb := List.mem_of_mem_take hb
    simp only [List.mem_flatMap] at hb
    obtain ⟨x, _, hx⟩ := hb
    exact toBytesBE_lt _ _ b hx

theorem refExt_sha512_256Ok : refExt.sha512_256Ok := by
  intro m
  exact digest_spec sha512Params _ 32 m (by decide)

theorem refExt_sha256Ok : refExt.sha256Ok := by
  intro m
  exact digest_spec sha256Params _ 32 m (by decide)

theorem refExt_edPublicOk : refExt.edPublicOk := by
  intro k
  constructor
  · simp [refExt, edPublicRef, length_toBytesLE]
  · intro b hb
    simp only [refExt, edPublicRef] at hb
    rcases List.mem_or_eq_of_mem_set hb with h | h
    · exact toBytesLE_lt _ _ b h
    · rw [h]
      have h1 : (toBytesLE 32 (edBaseMul (leVal (((List.take 32 (sha512Ref (hexToBytes k))).set 0
          ((List.take 32 (sha512Ref (hexToBytes k))).getD 0 0 &&& 248)).set 31
          ((((List.take 32 (sha512Ref (hexToBytes k))).set 0
          ((List.take 32 (sha512Ref (hexToBytes k))).getD 0 0 &&& 248)).getD 31 0 &&& 127)
            ||| 64)))).2).getD 31 0 < 2 ^ 8 := by
        rw [List.getD_eq_getElem?_getD]
        cases hg : (toBytesLE 32 _)[31]? with
        | none => simp
        | some v =>
          simp only [Option.getD_some]
          exact toBytesLE_lt _ _ v (List.getElem?_mem hg)
      have h2 : (if (edBaseMul (leVal (((List.take 32 (sha512Ref (hexToBytes k))).set 0
          ((List.take 32 (sha512Ref (hexToBytes k))).getD 0 0 &&& 248)).set 31
          ((((List.take 32 (sha512Ref (hexToBytes k))).set 0
          ((List.take 32 (sha512Ref (hexToBytes k))).getD 0 0 &&& 248)).getD 31 0 &&& 127)
            ||| 64)))).1 % 2 = 1 then 128 else 0) < 2 ^ 8 := by
        split <;> norm_num
      exact Nat.or_lt_two_pow h1 h2

theorem algoAddress_shape_witness :
    refExt.edPublicOk ∧ refExt.sha512_256Ok ∧
      (algoAddress refExt
        "c76c4ac4f4e4a00d6b274d5c39c700bb4a7ddc04fbc6f78e85ca75007b5b495f".toList).address.length
          = 58 ∧
      ∃ c ∈ b32Endings, (algoAddress refExt
        "c76c4ac4f4e4a00d6b274d5c39c700bb4a7ddc04fbc6f78e85ca75007b5b495f".toList).address.getLast?
          = some c :=
  ⟨refExt_edPublicOk, refExt_sha512_256Ok,
    (algoAddress_shape refExt refExt_edPublicOk refExt_sha512_256Ok _).2.2.1,
    (algoAddress_shape refExt refExt_edPublicOk refExt_sha512_256Ok _).2.2.2.2⟩

/-! ## Curve registry -/

/-- C11 (counterexample): for the unrecognized name `foo`, `curveInfo` raises no
error; it returns the value `undefined`. -/
theorem curveInfo_foo_returns_undefined :
    curveInfo (some "foo".toList) = CurveLookup.undefined := by
  decide

/-- C11 (amended): `curveInfo` has no error path.  For a name other than
`secp256k1`, `nist256p1` and `ed25519` it returns no curve parameters: the value
is `undefined`, or for the name of a member of `Object.prototype` that inherited
member; for a name that is none of these it is `undefined`. -/
theorem curveInfo_unrecognized (n : Str) (h1 : n ≠ "secp256k1".toList)
    (h2 : n ≠ "nist256p1".toList) (h3 : n ≠ "ed25519".toList) :
    (∀ c, curveInfo (some n) ≠ CurveLookup.params c) ∧
      (n ∈ objectPrototypeKeys → curveInfo (some n) = CurveLookup.inherited) ∧
      (n ∉ objectPrototypeKeys → curveInfo (some n) = CurveLookup.undefined) := by
  simp only [curveInfo, h1, h2, h3, if_false]
  refine ⟨?_, ?_, ?_⟩
  · intro c
    split <;> simp
  · intro h
    simp [h]
  · intro h
    simp [h]

theorem curveInfo_unrecognized_witness :
    "foo".toList ≠ "secp256k1".toList ∧ "foo".toList ≠ "nist256p1".toList ∧
      "foo".toList ≠ "ed25519".toList ∧ "foo".toList ∉ objectPrototypeKeys ∧
      curveInfo (some "foo".toList) = CurveLookup.undefined :=
  ⟨by decide, by decide, by decide, by decide,
    (curveInfo_unrecognized "foo".toList (by decide) (by decide) (by decide)).2.2 (by decide)⟩

/-! ## Reading digits -/

theorem parseDigits_append (b : Nat) (s t : Str)
    (hs : ∀ c ∈ s, ∃ d, hexVal c = some d ∧ d < b) :
    ∀ acc, parseDigits b (s ++ t) acc = parseDigits b t (parseDigits b s acc) := by
  induction s with
  | nil => intro acc; rfl
  | cons c s ih =>
    intro acc
    obtain ⟨d, hd, hlt⟩ := hs c (by simp)
    simp only [List.cons_append, parseDigits, hd, hlt, if_true]
    exact ih (fun x hx => hs x (by simp [hx])) _

theorem fixedDigits_valid (b : Nat) (hb : b ≤ 16) (hb0 : 0 < b) (w n : Nat) :
    ∀ c ∈ fixedDigits b w n, ∃ d, hexVal c = some d ∧ d < b := by
  induction w generalizing n with
  | zero => simp [fixedDigits]
  | succ w ih =>
    intro c hc
    simp only [fixedDigits, List.mem_append, List.mem_singleton] at hc
    rcases hc with h | h
    · exact ih _ c h
    · have hlt : n % b < b := Nat.mod_lt _ hb0
      exact ⟨n % b, by rw [h]; exact hexVal_digitChar _ (by omega), hlt⟩

theorem parseDigits_fixedDigits (b : Nat) (hb : b ≤ 16) (hb0 : 0 < b) (w : Nat) :
    ∀ n a, parseDigits b (fixedDigits b (w + 1) n) (some a)
      = some (a * b ^ (w + 1) + n % b ^ (w + 1)) := by
  induction w with
  | zero =>
    intro n a
    have hlt : n % b < b := Nat.mod_lt _ hb0
    simp [fixedDigits, parseDigits, hexVal_digitChar (n % b) (by omega), hlt]
  | succ w ih =>
    intro n a
    have hlt : n % b < b := Nat.mod_lt _ hb0
    rw [fixedDigits, parseDigits_append b _ _ (fixedDigits_valid b hb hb0 _ _), ih]
    simp only [parseDigits, hexVal_digitChar (n % b) (by omega), hlt, if_true, Option.getD_some]
    congr 1
    rw [Nat.pow_succ' (n := w + 1), Nat.mod_mul]
    ring

theorem parseDigits_fixedDigits_none (b : Nat) (hb : b ≤ 16) (hb0 : 0 < b) (w n : Nat) :
    parseDigits b (fixedDigits b (w + 1) n) none = some (n % b ^ (w + 1)) := by
  induction w generalizing n with
  | zero =>
    have hlt : n % b < b := Nat.mod_lt _ hb0
    simp [fixedDigits, parseDigits, hexVal_digitChar (n % b) (by omega), hlt]
  | succ w ih =>
    have hlt : n % b < b := Nat.mod_lt _ hb0
    rw [fixedDigits, parseDigits_append b _ _ (fixedDigits_valid b hb hb0 _ _), ih]
    simp only [parseDigits, hexVal_digitChar (n % b) (by omega), hlt, if_true, Option.getD_some]
    congr 1
    rw [Nat.pow_succ' (n := w + 1), Nat.mod_mul]
    ring

theorem hexilify_cons (b : Nat) (bs : Bytes) :
    hexilify (b :: bs) = fixedDigits 16 2 b ++ hexilify bs := by
  simp [hexilify, fixedDigits]

theorem hexilify_valid (bs : Bytes) : ∀ c ∈ hexilify bs, ∃ d, hexVal c = some d ∧ d < 16 := by
  induction bs with
  | nil => simp [hexilify]
  | cons b bs ih =>
    intro c hc
    rw [hexilify_cons, List.mem_append] at hc
    rcases hc with h | h
    · exact fixedDigits_valid 16 (by omega) (by omega) 2 b c h
    · exact ih c h

theorem parseDigits_hexilify (bs : Bytes) (h : ∀ b ∈ bs, b < 256) :
    ∀ a, parseDigits 16 (hexilify bs) (some a)
      = some (bs.foldl (fun acc b => acc * 256 + b) a) := by
  induction bs with
  | nil => intro a; rfl
  | cons b bs ih =>
    intro a
    have hb := h b (by simp)
    rw [hexilify_cons, parseDigits_append 16 _ _ (fixedDigits_valid 16 (by omega) (by omega) 2 b),
      parseDigits_fixedDigits 16 (by omega) (by omega) 1 b a,
      ih (fun x hx => h x (by simp [hx]))]
    simp only [List.foldl_cons]
    congr 2
    have : b % 16 ^ (1 + 1) = b := Nat.mod_eq_of_lt (by simpa using hb)
    rw [this]
    norm_num

/-- `BigInt('0x' + kL)` on the hex text of a byte sequence is its big-endian value. -/
theorem bigIntHex_hexilify (bs : Bytes) (h : ∀ b ∈ bs, b < 256) :
    bigIntHex (hexilify bs) = beVal bs := by
  cases bs with
  | nil => rfl
  | cons b bs =>
    have hb := h b (by simp)
    unfold bigIntHex parseIntRadix
    rw [hexilify_cons, parseDigits_append 16 _ _ (fixedDigits_valid 16 (by omega) (by omega) 2 b),
      parseDigits_fixedDigits_none 16 (by omega) (by omega) 1 b,
      parseDigits_hexilify bs (fun x hx => h x (by simp [hx]))]
    have : b % 16 ^ (1 + 1) = b := Nat.mod_eq_of_lt (by simpa using hb)
    rw [this]
    simp [beVal]

theorem unhexilify_hexilify (bs : Bytes) (h : ∀ b ∈ bs, b < 256) :
    unhexilify (hexilify bs) = bs := by
  rw [hexilify_eq_bytesToHex bs h, unhexilify_bytesToHex bs h]

theorem hexilify_take (bs : Bytes) (n : Nat) :
    (hexilify bs).take (2 * n) = hexilify (bs.take n) := by
  induction bs generalizing n with
  | nil => simp [hexilify]
  | cons b bs ih =>
    cases n with
    | zero => simp [hexilify]
    | succ n =>
      rw [List.take_succ_cons, hexilify_cons, hexilify_cons, ← ih n]
      simp [fixedDigits, Nat.mul_succ]

theorem hexilify_drop (bs : Bytes) (n : Nat) :
    (hexilify bs).drop (2 * n) = hexilify (bs.drop n) := by
  induction bs generalizing n with
  | nil => simp [hexilify]
  | cons b bs ih =>
    cases n with
    | zero => simp
    | succ n =>
      rw [List.drop_succ_cons, hexilify_cons, ← ih n]
      simp [fixedDigits, Nat.mul_succ]

/-- The two halves of the hex text of an HMAC output. -/
theorem halves_of_hex (bs : Bytes) (h : ∀ b ∈ bs, b < 256) :
    unhexilify (substr 0 64 (hexilify bs)) = bs.take 32 ∧
      unhexilify (substrFrom 64 (hexilify bs)) = bs.drop 32 := by
  have ht : ∀ b ∈ bs.take 32, b < 256 := fun b hb => h b (List.mem_of_mem_take hb)
  have hd : ∀ b ∈ bs.drop 32, b < 256 := fun b hb => h b (List.mem_of_mem_drop hb)
  constructor
  · simp only [substr, List.drop_zero]
    rw [show (64 : Nat) = 2 * 32 by rfl, hexilify_take, unhexilify_hexilify _ ht]
  · simp only [substrFrom]
    rw [show (64 : Nat) = 2 * 32 by rfl, hexilify_drop, unhexilify_hexilify _ hd]

/-! ## SLIP10 child derivation -/

theorem unhexilify_append_even : ∀ (s t : Str), s.length % 2 = 0 →
    unhexilify (s ++ t) = unhexilify s ++ unhexilify t
  | [], t, _ => by simp [unhexilify]
  | [_], t, h => by simp at h
  | a :: b :: s, t, h => by
    have hs : s.length % 2 = 0 := by simp at h; omega
    simp [unhexilify, unhexilify_append_even s t hs]

theorem fixedDigits_two (b w n : Nat) :
    fixedDigits b (w + 2) n = fixedDigits b w (n / b / b) ++
      [digitChar (n / b % b), digitChar (n % b)] := by
  simp [fixedDigits]

theorem unhexilify_fixedDigits (n : Nat) : ∀ x, unhexilify (fixedDigits 16 (2 * n) x)
    = toBytesBE n x := by
  induction n with
  | zero => intro x; rfl
  | succ n ih =>
    intro x
    rw [show 2 * (n + 1) = 2 * n + 2 by ring, fixedDigits_two,
      unhexilify_append_even _ _ (by rw [length_fixedDigits]; omega), ih, toBytesBE,
      Nat.div_div_eq_div_mul]
    congr 1
    simp only [unhexilify]
    rw [parseHexPair (x / 16 % 16) (Nat.mod_lt _ (by omega)) (x % 16) (Nat.mod_lt _ (by omega))]
    simp
    omega

theorem beVal_append_singleton (l : Bytes) (b : Nat) : beVal (l ++ [b]) = beVal l * 256 + b := by
  simp [beVal]

theorem beVal_toBytesBE (n : Nat) : ∀ x, beVal (toBytesBE n x) = x % 256 ^ n := by
  induction n with
  | zero => intro x; simp [toBytesBE, beVal, Nat.mod_one]
  | succ n ih =>
    intro x
    rw [toBytesBE, beVal_append_singleton, ih, Nat.pow_succ', Nat.mod_mul]
    ring

/-- `key.toString(16).padStart(64, 0)` read back as bytes. -/
theorem unhexilify_padStart_64 (key : Nat) (h : key < 2 ^ 256) :
    unhexilify (padStart 64 '0' (natToString 16 key)) = toBytesBE 32 key := by
  rw [padStart_natToString 16 (by omega) 63 key (by norm_num; exact h)]
  exact unhexilify_fixedDigits 32 key

/-- `i.toString(16).padStart(8, 0)` read back as bytes, for `0 ≤ i < 2 ^ 32`. -/
theorem unhexilify_index (i : Nat) (h : i < 2 ^ 32) :
    padStart 8 '0' (numToString16 (some (i : Int))) = fixedDigits 16 8 i ∧
      unhexilify (fixedDigits 16 8 i) = toBytesBE 4 i := by
  constructor
  · have : ¬ ((i : Int) < 0) := by omega
    simp only [numToString16, intToString, this, if_false, Int.natAbs_ofNat]
    exact padStart_natToString 16 (by omega) 7 i (by norm_num; exact h)
  · exact unhexilify_fixedDigits 4 i

theorem toBytesBE_length_lt (n x : Nat) :
    (toBytesBE n x).length = n ∧ ∀ b ∈ toBytesBE n x, b < 256 :=
  ⟨length_toBytesBE n x, toBytesBE_lt n x⟩

/-- The loop of `deriveChild` on hex text computes the loop of the spec on bytes. -/
theorem deriveChildLoop_eq_spec (E : Ext) (hmac : E.hmacSHA512Ok) (curve : CurveParams)
    (order : Nat) (hname : curve.name ≠ "ed25519".toList) (hord : curve.order = some order)
    (hle : order ≤ 2 ^ 256) (parentKey chain : Bytes) (hpk : ∀ b ∈ parentKey, b < 256)
    (i : Nat) (hi : i < 2 ^ 32) (fuel : Nat) :
    ∀ data : Str,
      deriveChildLoop E curve parentKey chain (some (i : Int)) fuel data
        = match slip10ChildSpec E order parentKey chain (toBytesBE 4 i) fuel (unhexilify data) with
          | some r => Outcome.resolved r
          | none => Outcome.unfinished := by
  induction fuel with
  | zero => intro data; rfl
  | succ fuel ih =>
    intro data
    obtain ⟨hlen, hlt⟩ := hmac (unhexilify data) chain
    obtain ⟨h1, h2⟩ := halves_of_hex _ hlt
    have ht : ∀ b ∈ (E.hmacSHA512 (unhexilify data) chain).take 32, b < 256 :=
      fun b hb => hlt b (List.mem_of_mem_take hb)
    have hd : ∀ b ∈ (E.hmacSHA512 (unhexilify data) chain).drop 32, b < 256 :=
      fun b hb => hlt b (List.mem_of_mem_drop hb)
    have hn : (curve.name == "ed25519".toList) = false := by simpa using hname
    rw [deriveChildLoop, slip10ChildSpec]
    simp only [hn, Bool.false_eq_true, if_false, hord, h1, h2, bigIntHex_hexilify _ ht,
      bigIntHex_hexilify _ hpk]
    by_cases hacc : beVal ((E.hmacSHA512 (unhexilify data) chain).take 32) < order ∧
        (beVal ((E.hmacSHA512 (unhexilify data) chain).take 32) + beVal parentKey) % order ≠ 0
    · have hkey : (beVal ((E.hmacSHA512 (unhexilify data) chain).take 32) + beVal parentKey)
          % order < 2 ^ 256 :=
        lt_of_lt_of_le (Nat.mod_lt _ (by omega)) hle
      simp [hacc.1, hacc.2, unhexilify_padStart_64 _ hkey]
    · have hnext : unhexilify ("01".toList ++
            hexilify ((E.hmacSHA512 (unhexilify data) chain).drop 32) ++
            padStart 8 '0' (numToString16 (some (i : Int))))
          = [1] ++ (E.hmacSHA512 (unhexilify data) chain).drop 32 ++ toBytesBE 4 i := by
        rw [(unhexilify_index i hi).1, List.append_assoc,
          unhexilify_append_even _ _ (by decide),
          unhexilify_append_even _ _ (by rw [length_hexilify]; omega),
          unhexilify_hexilify _ hd, (unhexilify_index i hi).2]
        rfl
      have := ih ("01".toList ++ hexilify ((E.hmacSHA512 (unhexilify data) chain).drop 32) ++
        padStart 8 '0' (numToString16 (some (i : Int))))
      rw [hnext] at this
      rw [if_neg hacc]
      rw [← this]
      have hacc' : ¬ (beVal ((E.hmacSHA512 (unhexilify data) chain).take 32) < order ∧
          ¬ (beVal ((E.hmacSHA512 (unhexilify data) chain).take 32) + beVal parentKey)
            % order = 0) := hacc
      by_cases ha : beVal ((E.hmacSHA512 (unhexilify data) chain).take 32) < order
      · have hz : (beVal ((E.hmacSHA512 (unhexilify data) chain).take 32) + beVal parentKey)
            % order = 0 := by
          by_contra hne
          exact hacc ⟨ha, hne⟩
        simp [ha, hz]
      · simp [ha]

/-- What the loop of the spec accepts is a key `kL` of 32 bytes with
`0 < kL < order`. -/
theorem slip10ChildSpec_bounds (E : Ext) (order : Nat) (hle : order ≤ 2 ^ 256)
    (parentKey chain idx : Bytes) (fuel : Nat) :
    ∀ data kL kR, slip10ChildSpec E order parentKey chain idx fuel data = some (kL, kR) →
      kL.length = 32 ∧ 0 < beVal kL ∧ beVal kL < order := by
  induction fuel with
  | zero => intro data kL kR h; simp [slip10ChildSpec] at h
  | succ fuel ih =>
    intro data kL kR h
    rw [slip10ChildSpec] at h
    split at h
    · rename_i hacc
      simp only [Option.some.injEq, Prod.mk.injEq] at h
      have hpos : 0 < order := by omega
      have hlt := Nat.mod_lt (beVal ((E.hmacSHA512 data chain).take 32) + beVal parentKey) hpos
      rw [← h.1, beVal_toBytesBE, length_toBytesBE]
      have : (beVal ((E.hmacSHA512 data chain).take 32) + beVal parentKey) % order % 256 ^ 32
          = (beVal ((E.hmacSHA512 data chain).take 32) + beVal parentKey) % order := by
        apply Nat.mod_eq_of_lt
        have : (256 : Nat) ^ 32 = 2 ^ 256 := by norm_num
        omega
      rw [this]
      exact ⟨rfl, Nat.pos_of_ne_zero hacc.2, hlt⟩
    · exact ih _ kL kR h

theorem natToString_parse (b : Nat) (hb : 2 ≤ b) (hb16 : b ≤ 16) (n : Nat) :
    (∀ c ∈ natToString b n, ∃ d, hexVal c = some d ∧ d < b) ∧
      parseDigits b (natToString b n) none = some n := by
  induction n using Nat.strong_induction_on with
  | _ n ih =>
    by_cases hn : n < b
    · rw [natToString_lt b n hn]
      constructor
      · intro c hc
        simp only [List.mem_singleton] at hc
        exact ⟨n, by rw [hc]; exact hexVal_digitChar n (by omega), hn⟩
      · simp [parseDigits, hexVal_digitChar n (by omega), hn]
    · have hdiv : n / b < n := Nat.div_lt_self (by omega) (by omega)
      obtain ⟨ih1, ih2⟩ := ih (n / b) hdiv
      have hlt : n % b < b := Nat.mod_lt _ (by omega)
      rw [natToString_ge b n hb hn]
      constructor
      · intro c hc
        simp only [List.mem_append, List.mem_singleton] at hc
        rcases hc with h | h
        · exact ih1 c h
        · exact ⟨n % b, by rw [h]; exact hexVal_digitChar _ (by omega), hlt⟩
      · rw [parseDigits_append b _ _ ih1, ih2]
        simp only [parseDigits, hexVal_digitChar (n % b) (by omega), hlt, if_true,
          Option.getD_some]
        congr 1
        exact Nat.div_add_mod' n b

/-- `BigInt('0x' + n.toString(16))` is `n`. -/
theorem bigIntHex_natToString (n : Nat) : bigIntHex (natToString 16 n) = n := by
  simp [bigIntHex, parseIntRadix, (natToString_parse 16 (by omega) (by omega) n).2]

theorem and_harden (i : Nat) (hi : i < 2 ^ 32) :
    _AND (some (i : Int)) BIP32KEY_HARDEN ≠ 0 ↔ 2 ^ 31 ≤ i := by
  have h1 : toUint32 (some (i : Int)) = i := by
    simp only [toUint32]
    have : (i : Int) % 4294967296 = (i : Int) := Int.emod_eq_of_lt (by omega) (by omega)
    rw [this]
    simp
  have hand : i &&& 2147483648 = if 2147483648 ≤ i then 2147483648 else 0 := by
    have h := Nat.and_two_pow i 31
    rw [Nat.testBit_to_div_mod] at h
    have e : (2 : Nat) ^ 31 = 2147483648 := by norm_num
    rw [e] at h
    rw [h]
    by_cases hc : 2147483648 ≤ i
    · have : i / 2147483648 = 1 := by omega
      simp [this, hc]
    · have : i / 2147483648 = 0 := by omega
      simp [this, hc]
  have e : (2 : Nat) ^ 31 = 2147483648 := by norm_num
  unfold _AND BIP32KEY_HARDEN
  rw [h1, hand, e]
  by_cases hc : 2147483648 ≤ i
  · simp [hc]
  · simp [hc]

/-- The public key text `getPublicKey` builds for secp256k1, read as bytes, is the
compressed point. -/
theorem getPublicKey_secp256k1 (E : Ext) (hsec : E.secpPublicOk) (key : Bytes)
    (curve : CurveParams) (hname : curve.name = "secp256k1".toList) (g : Globals) :
    ∃ k, getPublicKey E key curve g = (Except.ok k, { g with k := some k }) ∧
      k.length % 2 = 0 ∧ unhexilify k = compressedPoint (E.secpPublic (hexilify key)) := by
  obtain ⟨hx, _⟩ := hsec (hexilify key)
  have hfix := padStart_natToString 16 (by omega) 63 (E.secpPublic (hexilify key)).1
    (by norm_num; exact hx)
  have hn1 : (curve.name == "ed25519".toList) = false := by rw [hname]; decide
  have hn2 : (curve.name == "secp256k1".toList) = true := by rw [hname]; decide
  by_cases hodd : (E.secpPublic (hexilify key)).2 % 2 = 1
  · refine ⟨"03".toList ++ padStart 64 '0' (natToString 16 (E.secpPublic (hexilify key)).1),
      ?_, ?_, ?_⟩
    · simp only [getPublicKey, hn1, hn2, bigIntHex_natToString, Nat.and_one_is_mod]
      simp [hodd]
    · rw [hfix]; simp [length_fixedDigits]
    · rw [hfix, unhexilify_append_even _ _ (by decide), unhexilify_fixedDigits 32]
      have e3 : unhexilify "03".toList = [3] := by decide
      have e2 : unhexilify "02".toList = [2] := by decide
      simp only [compressedPoint, hodd, if_true, if_false, e2, e3, List.singleton_append]
  · refine ⟨"02".toList ++ padStart 64 '0' (natToString 16 (E.secpPublic (hexilify key)).1),
      ?_, ?_, ?_⟩
    · simp only [getPublicKey, hn1, hn2, bigIntHex_natToString, Nat.and_one_is_mod]
      have : (E.secpPublic (hexilify key)).2 % 2 = 0 := by omega
      simp [this]
    · rw [hfix]; simp [length_fixedDigits]
    · rw [hfix, unhexilify_append_even _ _ (by decide), unhexilify_fixedDigits 32]
      have e3 : unhexilify "03".toList = [3] := by decide
      have e2 : unhexilify "02".toList = [2] := by decide
      simp only [compressedPoint, hodd, if_true, if_false, e2, e3, List.singleton_append]

theorem secp256k1_curve (curve : CurveParams)
    (hc : curveInfo (some "secp256k1".toList) = CurveLookup.params curve) :
    curve.name = "secp256k1".toList ∧ curve.order = some secp256k1_n := by
  have h : curveInfo (some "secp256k1".toList) = CurveLookup.params
      { name := "secp256k1".toList, modifier := "Bitcoin seed".toList,
        order := some 0xfffffffffffffffffffffffffffffffebaaedce6af48a03bbfd25e8cd0364141 } := by
    simp [curveInfo]
  rw [h] at hc
  injection hc with hc
  subst hc
  exact ⟨rfl, rfl⟩

/-- The call `deriveChild` for secp256k1 as one equation: the node is the one the
loop of the spec accepts, with the compressed public key of its `kL`. -/
theorem deriveChild_secp256k1_eq (E : Ext) (hmac : E.hmacSHA512Ok) (hsec : E.secpPublicOk)
    (curve : CurveParams)
    (hc : curveInfo (some "secp256k1".toList) = CurveLookup.params curve)
    (fuel : Nat) (parentKey chain : Bytes) (hpk : ∀ b ∈ parentKey, b < 256)
    (i : Nat) (hi : i < 2 ^ 32) (g : Globals) :
    ∃ g1 : Globals,
      deriveChild E fuel parentKey chain (some (i : Int)) curve g =
        match slip10ChildSpec E secp256k1_n parentKey chain (toBytesBE 4 i) fuel
            (slip10ChildData E parentKey i) with
        | some (kL, kR) =>
          (Outcome.resolved (_NODE kL (some kR) none none (getPublicKey E kL curve g1).1.toOption),
            (getPublicKey E kL curve g1).2)
        | none => (Outcome.unfinished, g1) := by
  obtain ⟨hname, hord⟩ := secp256k1_curve curve hc
  have hne : curve.name ≠ "ed25519".toList := by rw [hname]; decide
  have hle : secp256k1_n ≤ 2 ^ 256 := by decide
  have hloop := deriveChildLoop_eq_spec E hmac curve secp256k1_n hne hord hle parentKey chain hpk
    i hi fuel
  have hidx := unhexilify_index i hi
  by_cases hh : 2 ^ 31 ≤ i
  · refine ⟨g, ?_⟩
    have hdata : unhexilify ("00".toList ++ hexilify parentKey ++
        padStart 8 '0' (numToString16 (some (i : Int)))) = slip10ChildData E parentKey i := by
      rw [hidx.1, List.append_assoc, unhexilify_append_even _ _ (by decide),
        unhexilify_append_even _ _ (by rw [length_hexilify]; omega),
        unhexilify_hexilify _ hpk, hidx.2]
      simp only [slip10ChildData, hh, if_true]
      rfl
    simp only [deriveChild, (and_harden i hi).mpr hh, ne_eq, not_false_eq_true, if_true]
    rw [hloop, hdata]
    cases hs : slip10ChildSpec E secp256k1_n parentKey chain (toBytesBE 4 i) fuel
        (slip10ChildData E parentKey i) with
    | none => rfl
    | some r =>
      obtain ⟨kL, kR⟩ := r
      obtain ⟨k, hk, _, _⟩ := getPublicKey_secp256k1 E hsec kL curve hname g
      simp only [hk]
      rfl
  · obtain ⟨k, hk, hkeven, hkbytes⟩ := getPublicKey_secp256k1 E hsec parentKey curve hname g
    refine ⟨{ g with k := some k }, ?_⟩
    have hdata : unhexilify (k ++ padStart 8 '0' (numToString16 (some (i : Int))))
        = slip10ChildData E parentKey i := by
      rw [hidx.1, unhexilify_append_even _ _ hkeven, hkbytes, hidx.2]
      simp only [slip10ChildData, hh, if_false]
    have hnot : ¬ (_AND (some (i : Int)) BIP32KEY_HARDEN ≠ 0) := fun h => hh ((and_harden i hi).mp h)
    simp only [deriveChild, hnot, if_false, hk]
    rw [hloop, hdata]
    cases hs : slip10ChildSpec E secp256k1_n parentKey chain (toBytesBE 4 i) fuel
        (slip10ChildData E parentKey i) with
    | none => rfl
    | some r =>
      obtain ⟨kL, kR⟩ := r
      obtain ⟨k2, hk2, _, _⟩ := getPublicKey_secp256k1 E hsec kL curve hname { g with k := some k }
      simp only [hk2]
      rfl

/-- C13: for curve secp256k1, whenever `deriveChild` returns, its node has `kL`
equal to the 32-byte big-endian encoding of `(a + parentKey) mod order` and `kR`
equal to the right 32 bytes of the accepted HMAC output, `a` being the left half
of the first HMAC-SHA512 of the retry sequence (first data `0x00 ‖ parentKey ‖
index` for a hardened index, else the compressed public key of the parent key
`‖ index`, the index on 4 big-endian bytes; after a rejection `0x01 ‖ kR ‖
index`) with `a < order` and `(a + parentKey) mod order ≠ 0`; hence
`0 < kL < order`.  Conversely the call returns that node as soon as the retry
sequence accepts within the fuel. -/
theorem deriveChild_secp256k1 (E : Ext) (hmac : E.hmacSHA512Ok) (hsec : E.secpPublicOk)
    (curve : CurveParams)
    (hc : curveInfo (some "secp256k1".toList) = CurveLookup.params curve)
    (fuel : Nat) (parentKey chain : Bytes) (hpk : ∀ b ∈ parentKey, b < 256)
    (i : Nat) (hi : i < 2 ^ 32) (g : Globals) :
    (∀ node g', deriveChild E fuel parentKey chain (some (i : Int)) curve g
        = (Outcome.resolved node, g') →
      ∃ kR, slip10ChildSpec E secp256k1_n parentKey chain (toBytesBE 4 i) fuel
          (slip10ChildData E parentKey i) = some (node.kL, kR) ∧
        node.kR = some kR ∧ node.kL.length = 32 ∧
        0 < beVal node.kL ∧ beVal node.kL < secp256k1_n) ∧
    (∀ kL kR, slip10ChildSpec E secp256k1_n parentKey chain (toBytesBE 4 i) fuel
          (slip10ChildData E parentKey i) = some (kL, kR) →
      ∃ node g', deriveChild E fuel parentKey chain (some (i : Int)) curve g
          = (Outcome.resolved node, g') ∧ node.kL = kL ∧ node.kR = some kR) := by
  obtain ⟨g1, heq⟩ := deriveChild_secp256k1_eq E hmac hsec curve hc fuel parentKey chain hpk
    i hi g
  constructor
  · intro node g' hres
    rw [heq] at hres
    cases hs : slip10ChildSpec E secp256k1_n parentKey chain (toBytesBE 4 i) fuel
        (slip10ChildData E parentKey i) with
    | none =>
      rw [hs] at hres
      simp at hres
    | some r =>
      obtain ⟨kL, kR⟩ := r
      rw [hs] at hres
      simp only [Prod.mk.injEq, Outcome.resolved.injEq] at hres
      obtain ⟨hn, _⟩ := hres
      obtain ⟨b1, b2, b3⟩ := slip10ChildSpec_bounds E secp256k1_n (by decide) parentKey chain
        (toBytesBE 4 i) fuel _ kL kR hs
      subst hn
      exact ⟨kR, rfl, rfl, b1, b2, b3⟩
  · intro kL kR hs
    rw [heq, hs]
    exact ⟨_, _, rfl, rfl, rfl⟩

theorem refExt_secpPublicOk : refExt.secpPublicOk := by
  intro k
  have hp : secp256k1_p < 2 ^ 256 := by decide
  have hp0 : 0 < secp256k1_p := by decide
  simp only [refExt, secpPublicRef]
  exact ⟨Nat.lt_trans (Nat.mod_lt _ hp0) hp, Nat.lt_trans (Nat.mod_lt _ hp0) hp⟩

theorem refExt_hmacSHA512Ok : refExt.hmacSHA512Ok := by
  intro m k
  exact digest_spec sha512Params _ 64 _ (by decide)

theorem deriveChild_secp256k1_witness :
    refExt.hmacSHA512Ok ∧ refExt.secpPublicOk ∧
      curveInfo (some "secp256k1".toList) = CurveLookup.params
        { name := "secp256k1".toList, modifier := "Bitcoin seed".toList,
          order := some secp256k1_n } ∧
      (∀ b ∈ List.replicate 32 1, b < 256) ∧ 2147483648 < 2 ^ 32 ∧
      (∀ node g', deriveChild refExt 4 (List.replicate 32 1) (List.replicate 32 2)
          (some ((2147483648 : Nat) : Int))
          { name := "secp256k1".toList, modifier := "Bitcoin seed".toList,
            order := some secp256k1_n } { k := none } = (Outcome.resolved node, g') →
        node.kL.length = 32 ∧ 0 < beVal node.kL ∧ beVal node.kL < secp256k1_n) :=
  ⟨refExt_hmacSHA512Ok, refExt_secpPublicOk, by decide, by decide, by decide,
    fun node g' h =>
      let ⟨_, _, _, h3, h4, h5⟩ :=
        (deriveChild_secp256k1 refExt refExt_hmacSHA512Ok refExt_secpPublicOk _ (by decide) 4
          (List.replicate 32 1) (List.replicate 32 2) (by decide) 2147483648 (by decide)
          { k := none }).1 node g' h
      ⟨h3, h4, h5⟩⟩

/-! ## Kholaw root key -/

theorem leVal_append (a b : Bytes) : leVal (a ++ b) = leVal a + 256 ^ a.length * leVal b := by
  induction a with
  | nil => simp [leVal]
  | cons x a ih =>
    rw [List.cons_append, leVal, ih, leVal, List.length_cons, Nat.pow_succ]
    ring

theorem leVal_lt (a : Bytes) (h : ∀ b ∈ a, b < 256) : leVal a < 256 ^ a.length := by
  induction a with
  | nil => simp [leVal]
  | cons x a ih =>
    have hx := h x (by simp)
    have := ih (fun b hb => h b (by simp [hb]))
    simp only [leVal, List.length_cons, Nat.pow_succ]
    omega

theorem clamp_bytes : ∀ b, b < 256 →
    _clearBit b 0b00000111 = b / 8 * 8 ∧
      (_getBit b 0b00100000 = 0 →
        _setBit (_clearBit b 0b10000000) 0b01000000 = 64 + b % 32 ∧ b / 32 % 2 = 0) := by
  decide!

theorem list32_split (l : Bytes) (h : l.length = 32) :
    ∃ b0 mid b31, l = b0 :: (mid ++ [b31]) ∧ mid.length = 30 := by
  cases l with
  | nil => simp at h
  | cons b0 t =>
    have ht : t.length = 31 := by simpa using h
    have hne : t ≠ [] := by intro e; rw [e] at ht; simp at ht
    refine ⟨b0, t.dropLast, t.getLast hne, ?_, ?_⟩
    · rw [List.dropLast_append_getLast hne]
    · simp [ht]

theorem set_ends (v b w : Nat) (mid : Bytes) (h : mid.length = 30) :
    (v :: (mid ++ [b])).getD 31 0 = b ∧ (v :: (mid ++ [b])).set 31 w = v :: (mid ++ [w]) := by
  constructor
  · simp [List.getD_eq_getElem?_getD, List.getElem?_append_right, h]
  · simp [List.set_append, h]

/-- The loop of the Kholaw root ends on the hex text of an HMAC output whose byte
31 has bit `0x20` clear. -/
theorem rootKeyKholawLoop_some (E : Ext) (hmac : E.hmacSHA512Ok) (curve : CurveParams)
    (fuel : Nat) : ∀ (m : Bytes) (I : Str),
      rootKeyKholawLoop E curve fuel (hexilify (E.hmacSHA512 m (utf8 curve.modifier))) = some I →
      ∃ m', I = hexilify (E.hmacSHA512 m' (utf8 curve.modifier)) ∧
        _getBit ((E.hmacSHA512 m' (utf8 curve.modifier)).take 32 |>.getD 31 0) 0b00100000 = 0 := by
  induction fuel with
  | zero => intro m I h; simp [rootKeyKholawLoop] at h
  | succ fuel ih =>
    intro m I h
    obtain ⟨_, hlt⟩ := hmac m (utf8 curve.modifier)
    have ht : ∀ b ∈ (E.hmacSHA512 m (utf8 curve.modifier)).take 32, b < 256 :=
      fun b hb => hlt b (List.mem_of_mem_take hb)
    rw [rootKeyKholawLoop] at h
    simp only [(halves_of_hex _ hlt).1, hexilify_eq_bytesToHex _ ht,
      hexToBytes_bytesToHex _ ht] at h
    split at h
    · exact ih _ I h
    · rename_i hbit
      simp only [Option.some.injEq] at h
      refine ⟨m, h.symm, ?_⟩
      simpa using hbit

theorem rootKey_kholaw_bytes (E : Ext) (hmac : E.hmacSHA512Ok) (curve : CurveParams)
    (fuel : Nat) (seed : Bytes) (node : DerivationNode)
    (h : rootKey E fuel seed (CurveLookup.params curve) "kholaw".toList
      = Outcome.resolved node) :
    ∃ out b0 mid b31, (∃ m, out = E.hmacSHA512 m (utf8 curve.modifier)) ∧
      out.take 32 = b0 :: (mid ++ [b31]) ∧ mid.length = 30 ∧ b31 / 32 % 2 = 0 ∧
      b0 < 256 ∧ b31 < 256 ∧ (∀ b ∈ mid, b < 256) ∧
      node.kL = (b0 / 8 * 8) :: (mid ++ [64 + b31 % 32]) ∧ node.kR = some (out.drop 32) := by
  have hm : ("kholaw".toList = "slip10".toList) = False := by decide
  simp only [rootKey, hm, if_false, if_true] at h
  split at h
  · simp at h
  · rename_i I hloop
    obtain ⟨m', hI, hbit⟩ := rootKeyKholawLoop_some E hmac curve fuel seed I hloop
    obtain ⟨hlen, hlt⟩ := hmac m' (utf8 curve.modifier)
    have ht : ∀ b ∈ (E.hmacSHA512 m' (utf8 curve.modifier)).take 32, b < 256 :=
      fun b hb => hlt b (List.mem_of_mem_take hb)
    obtain ⟨b0, mid, b31, hsplit, hmid⟩ :=
      list32_split ((E.hmacSHA512 m' (utf8 curve.modifier)).take 32) (by simp [hlen])
    have hb0 : b0 < 256 := ht b0 (by rw [hsplit]; simp)
    have hb31 : b31 < 256 := ht b31 (by rw [hsplit]; simp)
    have hmidlt : ∀ b ∈ mid, b < 256 := fun b hb => ht b (by rw [hsplit]; simp [hb])
    rw [hsplit] at hbit
    rw [(set_ends b0 b31 0 mid hmid).1] at hbit
    obtain ⟨c0, c31⟩ := clamp_bytes b31 hb31
    obtain ⟨c31a, c31b⟩ := c31 hbit
    have c0' := (clamp_bytes b0 hb0).1
    have hfinal : ∀ b ∈ (b0 / 8 * 8) :: (mid ++ [64 + b31 % 32]), b < 256 := by
      intro b hb
      simp only [List.mem_cons, List.mem_append, List.mem_singleton, List.not_mem_nil,
        or_false] at hb
      rcases hb with rfl | hb | rfl
      · omega
      · exact hmidlt b hb
      · omega
    injection h with h
    have hkL0 : node.kL = unhexilify (bytesToHex
        (((List.set (hexToBytes (hexilify (unhexilify (substr 0 64 I)))) 0
          (_clearBit (List.getD (hexToBytes (hexilify (unhexilify (substr 0 64 I)))) 0 0) 7)).set
          31 (_clearBit ((List.set (hexToBytes (hexilify (unhexilify (substr 0 64 I)))) 0
            (_clearBit (List.getD (hexToBytes (hexilify (unhexilify (substr 0 64 I)))) 0 0)
              7)).getD 31 0) 128)).set 31
          (_setBit (((List.set (hexToBytes (hexilify (unhexilify (substr 0 64 I)))) 0
            (_clearBit (List.getD (hexToBytes (hexilify (unhexilify (substr 0 64 I)))) 0 0)
              7)).set 31 (_clearBit ((List.set (hexToBytes (hexilify (unhexilify
                (substr 0 64 I)))) 0 (_clearBit (List.getD (hexToBytes (hexilify (unhexilify
                (substr 0 64 I)))) 0 0) 7)).getD 31 0) 128)).getD 31 0) 64))) := by
      rw [← h]; rfl
    have hkR0 : node.kR = some (unhexilify (substrFrom 64 I)) := by rw [← h]; rfl
    clear h
    rw [hI, (halves_of_hex _ hlt).1, hexilify_eq_bytesToHex _ ht,
      hexToBytes_bytesToHex _ ht] at hkL0
    simp only [hsplit] at hkL0
    simp only [List.set_cons_zero, List.getD_cons_zero, c0'] at hkL0
    rw [(set_ends (b0 / 8 * 8) b31 0 mid hmid).1,
      (set_ends (b0 / 8 * 8) b31 (_clearBit b31 128) mid hmid).2,
      (set_ends (b0 / 8 * 8) (_clearBit b31 128) 0 mid hmid).1,
      (set_ends (b0 / 8 * 8) (_clearBit b31 128) (_setBit (_clearBit b31 128) 64) mid hmid).2,
      c31a, unhexilify_bytesToHex _ hfinal] at hkL0
    have hkL : node.kL = (b0 / 8 * 8) :: (mid ++ [64 + b31 % 32]) := hkL0
    have hkR : node.kR = some ((E.hmacSHA512 m' (utf8 curve.modifier)).drop 32) := by
      rw [hkR0, hI, (halves_of_hex _ hlt).2]
    exact ⟨_, b0, mid, b31, ⟨m', rfl⟩, hsplit, hmid, c31b, hb0, hb31, hmidlt, hkL, hkR⟩

theorem clamped_leVal (b0 b31 : Nat) (mid : Bytes) (hmid : mid.length = 30)
    (hmidlt : ∀ b ∈ mid, b < 256) (hb0 : b0 < 256) :
    ((b0 / 8 * 8) :: (mid ++ [64 + b31 % 32])).length = 32 ∧
      (∀ b ∈ (b0 / 8 * 8) :: (mid ++ [64 + b31 % 32]), b < 256) ∧
      leVal ((b0 / 8 * 8) :: (mid ++ [64 + b31 % 32])) % 8 = 0 ∧
      2 ^ 254 ≤ leVal ((b0 / 8 * 8) :: (mid ++ [64 + b31 % 32])) ∧
      leVal ((b0 / 8 * 8) :: (mid ++ [64 + b31 % 32])) < 2 ^ 254 + 2 ^ 253 := by
  have hM := leVal_lt mid hmidlt
  rw [hmid] at hM
  have hval : leVal ((b0 / 8 * 8) :: (mid ++ [64 + b31 % 32]))
      = b0 / 8 * 8 + 256 * (leVal mid + 256 ^ 30 * (64 + b31 % 32)) := by
    rw [leVal, leVal_append, hmid]
    simp [leVal]
  refine ⟨by simp [hmid], ?_, ?_, ?_, ?_⟩
  · intro b hb
    simp only [List.mem_cons, List.mem_append, List.mem_singleton, List.not_mem_nil,
      or_false] at hb
    rcases hb with rfl | hb | rfl
    · omega
    · exact hmidlt b hb
    · omega
  · rw [hval]; omega
  · rw [hval]
    have e : (2 : Nat) ^ 254 = 256 * (256 ^ 30 * 64) := by norm_num
    rw [e]
    have : 256 ^ 30 * 64 ≤ leVal mid + 256 ^ 30 * (64 + b31 % 32) := by
      have : 256 ^ 30 * 64 ≤ 256 ^ 30 * (64 + b31 % 32) := Nat.mul_le_mul_left _ (by omega)
      omega
    omega
  · rw [hval]
    have e : (2 : Nat) ^ 254 + 2 ^ 253 = 256 * (256 ^ 30 * 96) := by norm_num
    rw [e]
    have h1 : 256 ^ 30 * (64 + b31 % 32) ≤ 256 ^ 30 * 95 := Nat.mul_le_mul_left _ (by omega)
    have h2 : leVal mid + 256 ^ 30 * (64 + b31 % 32) + 1 ≤ 256 ^ 30 * 96 := by
      have : (256 : Nat) ^ 30 * 96 = 256 ^ 30 * 95 + 256 ^ 30 := by ring
      omega
    omega

theorem sampleKholawRoot_eq :
    rootKey refExt 5 (List.replicate 64 7) (CurveLookup.params ed25519Params) "kholaw".toList
      = Outcome.resolved sampleKholawRoot := by
  decide!

/-- C14: for every seed for which `rootKey(seed, curve, 'kholaw')` returns, the
root `kL` is the left half `b0 ‖ mid ‖ b31` of the accepted HMAC output (the one
whose byte 31 has bit `0x20` clear) with byte 0 replaced by `b0` without its low
3 bits and byte 31 by `64 + b31 mod 32` (bit 7 clear, bit 6 set, bit 5 clear, the
low 5 bits kept), every other byte unchanged; read as a little-endian integer
it is a multiple of 8 in `[2^254, 2^254 + 2^253)`. -/
theorem rootKey_kholaw_clamped (E : Ext) (hmac : E.hmacSHA512Ok) (curve : CurveParams)
    (fuel : Nat) (seed : Bytes) (node : DerivationNode)
    (h : rootKey E fuel seed (CurveLookup.params curve) "kholaw".toList
      = Outcome.resolved node) :
    ∃ out b0 mid b31, (∃ m, out = E.hmacSHA512 m (utf8 curve.modifier)) ∧
      out.take 32 = b0 :: (mid ++ [b31]) ∧ mid.length = 30 ∧ b31 / 32 % 2 = 0 ∧
      node.kL = (b0 / 8 * 8) :: (mid ++ [64 + b31 % 32]) ∧ node.kR = some (out.drop 32) ∧
      node.kL.length = 32 ∧
      leVal node.kL % 8 = 0 ∧ 2 ^ 254 ≤ leVal node.kL ∧ leVal node.kL < 2 ^ 254 + 2 ^ 253 := by
  obtain ⟨out, b0, mid, b31, hout, hsplit, hmid, hbit, hb0, _, hmidlt, hkL, hkR⟩ :=
    rootKey_kholaw_bytes E hmac curve fuel seed node h
  obtain ⟨hlen, _, h8, hlo, hhi⟩ := clamped_leVal b0 b31 mid hmid hmidlt hb0
  refine ⟨out, b0, mid, b31, hout, hsplit, hmid, hbit, hkL, hkR, ?_, ?_, ?_, ?_⟩
  · rw [hkL]; exact hlen
  · rw [hkL]; exact h8
  · rw [hkL]; exact hlo
  · rw [hkL]; exact hhi

theorem rootKey_kholaw_clamped_witness :
    refExt.hmacSHA512Ok ∧
      rootKey refExt 5 (List.replicate 64 7) (CurveLookup.params ed25519Params) "kholaw".toList
        = Outcome.resolved sampleKholawRoot ∧
      leVal sampleKholawRoot.kL % 8 = 0 ∧ 2 ^ 254 ≤ leVal sampleKholawRoot.kL ∧
      leVal sampleKholawRoot.kL < 2 ^ 254 + 2 ^ 253 :=
  ⟨refExt_hmacSHA512Ok, sampleKholawRoot_eq,
    let ⟨_, _, _, _, _, _, _, _, _, _, _, h1, h2, h3⟩ :=
      rootKey_kholaw_clamped refExt refExt_hmacSHA512Ok ed25519Params 5 (List.replicate 64 7)
        sampleKholawRoot sampleKholawRoot_eq
    ⟨h1, h2, h3⟩⟩

/-! ## Kholaw child derivation -/

theorem fixedDigits_eq_bytesToHex (n : Nat) : ∀ x,
    fixedDigits 16 (2 * n) x = bytesToHex (toBytesBE n x) := by
  induction n with
  | zero => intro x; rfl
  | succ n ih =>
    intro x
    have hb : x % 256 < 256 := Nat.mod_lt _ (by omega)
    have happ : bytesToHex (toBytesBE n (x / 256) ++ [x % 256])
        = bytesToHex (toBytesBE n (x / 256)) ++ bytesToHex [x % 256] := by
      simp [bytesToHex]
    rw [show 2 * (n + 1) = 2 * n + 2 by ring, fixedDigits_two, toBytesBE, happ,
      bytesToHex_cons _ _ hb, Nat.div_div_eq_div_mul, ih]
    have e1 : x % 256 / 16 = x / 16 % 16 := by omega
    have e2 : x % 256 % 16 = x % 16 := by omega
    rw [e1, e2]
    rfl

theorem reverse_toBytesBE (n : Nat) : ∀ x, (toBytesBE n x).reverse = toBytesLE n x := by
  induction n with
  | zero => intro x; rfl
  | succ n ih => intro x; simp [toBytesBE, toBytesLE, ih]

/-- The text `ib` of `deriveChildKhoLaw`: the index on 4 little-endian bytes. -/
theorem index_le (i : Nat) (hi : i < 2 ^ 32) :
    reverseHex (padStart (4 * 2) '0' (numToString16 (some (i : Int))))
      = bytesToHex (toBytesLE 4 i) := by
  rw [show 4 * 2 = 8 by rfl, (unhexilify_index i hi).1, show 8 = 2 * 4 by rfl,
    fixedDigits_eq_bytesToHex, reverseHex, hexToBytes_bytesToHex _ (toBytesBE_lt 4 i),
    reverse_toBytesBE]

theorem bytesToHex_append (a b : Bytes) : bytesToHex (a ++ b) = bytesToHex a ++ bytesToHex b := by
  simp [bytesToHex]

theorem substrLast_hexilify_gen (bs : Bytes) (k : Nat) (hk : 0 < k) (hle : k ≤ bs.length) :
    substrLast (2 * k) (hexilify bs) = hexilify (bs.drop (bs.length - k)) := by
  conv_lhs => rw [← List.take_append_drop (bs.length - k) bs, hexilify_append]
  apply substrLast_append _ _ (2 * k) _ (by omega)
  rw [length_hexilify]
  simp
  omega

theorem unhexilify_tagged (tag : Str) (t : Nat) (htag : unhexilify tag = [t])
    (hlen : tag.length = 2) (body : Bytes) (hbody : ∀ b ∈ body, b < 256) :
    unhexilify (tag ++ bytesToHex body) = t :: body := by
  rw [unhexilify_append_even _ _ (by rw [hlen]), htag, unhexilify_bytesToHex _ hbody]
  rfl

/-- C15: `deriveChildKhoLaw` treats the index `i` as hardened iff `i ≥ 2^31` and,
for `0 ≤ i < 2^32`, computes `Z = HMAC-SHA512(Zpre, parent chain code)` and the
child chain code as the last 32 bytes of `HMAC-SHA512(Cpre, parent chain code)`,
with `Zpre = 0x02 ‖ A ‖ i`, `Cpre = 0x03 ‖ A ‖ i` when not hardened and `Zpre =
0x00 ‖ kL ‖ kR ‖ i`, `Cpre = 0x01 ‖ kL ‖ kR ‖ i` when hardened, `i` on exactly 4
little-endian bytes; `ZL` is `Z[0:28]` and `ZR` is `Z[32:64]`; the node the call
returns carries that chain code. -/
theorem khoLawHmacs_spec (E : Ext) (hmac : E.hmacSHA512Ok) (kLP kRP Ab cP : Bytes)
    (hkL : ∀ b ∈ kLP, b < 256) (hkR : ∀ b ∈ kRP, b < 256) (hA : ∀ b ∈ Ab, b < 256)
    (i : Nat) (hi : i < 2 ^ 32) :
    khoLawHmacs E kLP kRP (some (bytesToHex Ab)) cP (some (i : Int))
        = (hexilify (E.hmacSHA512 (khoLawPreimages kLP kRP Ab i).1 cP),
           hexilify ((E.hmacSHA512 (khoLawPreimages kLP kRP Ab i).2 cP).drop 32)) ∧
      khoLawZL (hexilify (E.hmacSHA512 (khoLawPreimages kLP kRP Ab i).1 cP))
        = (E.hmacSHA512 (khoLawPreimages kLP kRP Ab i).1 cP).take 28 ∧
      khoLawZR (hexilify (E.hmacSHA512 (khoLawPreimages kLP kRP Ab i).1 cP))
        = (E.hmacSHA512 (khoLawPreimages kLP kRP Ab i).1 cP).drop 32 ∧
      ∀ node : DerivationNode, node.kL = kLP → node.kR = some kRP →
        node.A = some (bytesToHex Ab) → node.c = some cP →
        ∃ o, deriveChildKhoLaw E node (some (i : Int)) = Outcome.resolved o ∧
          ∀ n, o = some n →
            n.c = some ((E.hmacSHA512 (khoLawPreimages kLP kRP Ab i).2 cP).drop 32) := by
  have hle4 := toBytesLE_lt 4 i
  have hib := index_le i hi
  have hpre : ∀ (t : Nat) (tag : Str), unhexilify tag = [t] → tag.length = 2 →
      unhexilify (if decide ((i : Int) < 2 ^ 31) = true then
          tag ++ (some (bytesToHex Ab)).getD "undefined".toList ++
            reverseHex (padStart (4 * 2) '0' (numToString16 (some (i : Int))))
        else tag ++ hexilify kLP ++ hexilify kRP ++
            reverseHex (padStart (4 * 2) '0' (numToString16 (some (i : Int)))))
        = if i < 2 ^ 31 then t :: (Ab ++ toBytesLE 4 i)
          else t :: (kLP ++ kRP ++ toBytesLE 4 i) := by
    intro t tag htag hlen
    rw [hib]
    by_cases hreg : i < 2 ^ 31
    · have hreg' : (i : Int) < 2 ^ 31 := by exact_mod_cast hreg
      simp only [hreg, hreg', decide_True, if_true, Option.getD_some]
      rw [List.append_assoc, ← bytesToHex_append]
      exact unhexilify_tagged tag t htag hlen _ (by
        intro b hb
        rcases List.mem_append.mp hb with h | h
        · exact hA b h
        · exact hle4 b h)
    · have hreg' : ¬ (i : Int) < 2 ^ 31 := by
        intro h; exact hreg (by exact_mod_cast h)
      simp only [hreg, hreg', decide_False, if_false, Bool.false_eq_true]
      rw [hexilify_eq_bytesToHex _ hkL, hexilify_eq_bytesToHex _ hkR, List.append_assoc,
        List.append_assoc, ← bytesToHex_append, ← bytesToHex_append]
      rw [unhexilify_tagged tag t htag hlen _ (by
        intro b hb
        rcases List.mem_append.mp hb with h | h
        · exact hkL b h
        · rcases List.mem_append.mp h with h | h
          · exact hkR b h
          · exact hle4 b h)]
      simp
  have hZ : khoLawHmacs E kLP kRP (some (bytesToHex Ab)) cP (some (i : Int))
      = (hexilify (E.hmacSHA512 (khoLawPreimages kLP kRP Ab i).1 cP),
         hexilify ((E.hmacSHA512 (khoLawPreimages kLP kRP Ab i).2 cP).drop 32)) := by
    have h2 := hpre 2 "02".toList (by decide) (by decide)
    have h3 := hpre 3 "03".toList (by decide) (by decide)
    have h0 := hpre 0 "00".toList (by decide) (by decide)
    have h1 := hpre 1 "01".toList (by decide) (by decide)
    obtain ⟨hlen2, _⟩ := hmac (khoLawPreimages kLP kRP Ab i).2 cP
    have hsub := substrLast_hexilify_gen (E.hmacSHA512 (khoLawPreimages kLP kRP Ab i).2 cP) 32
      (by omega) (by omega)
    rw [hlen2] at hsub
    by_cases hreg : i < 2 ^ 31
    · have hreg' : (i : Int) < 2 ^ 31 := by exact_mod_cast hreg
      simp only [hreg, hreg', decide_True, if_true] at h2 h3
      simp only [khoLawHmacs, khoLawPreimages, hreg, hreg', decide_True, if_true, h2, h3] at hsub ⊢
      rw [show 32 * 2 = 2 * 32 by rfl, hsub]
    · have hreg' : ¬ (i : Int) < 2 ^ 31 := by
        intro h; exact hreg (by exact_mod_cast h)
      simp only [hreg, hreg', decide_False, if_false, Bool.false_eq_true] at h0 h1
      simp only [khoLawHmacs, khoLawPreimages, hreg, hreg', decide_False, if_false,
        Bool.false_eq_true, h0, h1] at hsub ⊢
      rw [show 32 * 2 = 2 * 32 by rfl, hsub]
  obtain ⟨hlen1, hlt1⟩ := hmac (khoLawPreimages kLP kRP Ab i).1 cP
  obtain ⟨hlen2, hlt2⟩ := hmac (khoLawPreimages kLP kRP Ab i).2 cP
  refine ⟨hZ, ?_, ?_, ?_⟩
  · simp only [khoLawZL, substr, List.drop_zero]
    rw [show 28 * 2 = 2 * 28 by rfl, hexilify_take,
      unhexilify_hexilify _ (fun b hb => hlt1 b (List.mem_of_mem_take hb))]
  · simp only [khoLawZR, substrFrom]
    rw [show 32 * 2 = 2 * 32 by rfl, hexilify_drop,
      unhexilify_hexilify _ (fun b hb => hlt1 b (List.mem_of_mem_drop hb))]
  · intro node h1 h2 h3 h4
    simp only [deriveChildKhoLaw, h1, h2, h3, h4, hZ]
    split
    · exact ⟨none, rfl, by intro n hn; simp at hn⟩
    · refine ⟨_, rfl, ?_⟩
      intro n hn
      simp only [Option.some.injEq] at hn
      rw [← hn]
      simp only [_NODE]
      rw [unhexilify_hexilify _ (fun b hb => hlt2 b (List.mem_of_mem_drop hb))]

theorem khoLawHmacs_spec_witness :
    refExt.hmacSHA512Ok ∧ (∀ b ∈ List.replicate 32 1, b < 256) ∧
      (∀ b ∈ List.replicate 32 2, b < 256) ∧ (∀ b ∈ List.replicate 32 3, b < 256) ∧
      5 < 2 ^ 32 ∧
      khoLawHmacs refExt (List.replicate 32 1) (List.replicate 32 2)
          (some (bytesToHex (List.replicate 32 3))) (List.replicate 32 4) (some ((5 : Nat) : Int))
        = (hexilify (refExt.hmacSHA512 (khoLawPreimages (List.replicate 32 1)
              (List.replicate 32 2) (List.replicate 32 3) 5).1 (List.replicate 32 4)),
           hexilify ((refExt.hmacSHA512 (khoLawPreimages (List.replicate 32 1)
              (List.replicate 32 2) (List.replicate 32 3) 5).2 (List.replicate 32 4)).drop 32)) :=
  ⟨refExt_hmacSHA512Ok, by decide, by decide, by decide, by decide,
    (khoLawHmacs_spec refExt refExt_hmacSHA512Ok (List.replicate 32 1) (List.replicate 32 2)
      (List.replicate 32 3) (List.replicate 32 4) (by decide) (by decide) (by decide) 5
      (by decide)).1⟩

/-! ## Point compression -/

theorem and_one_byte (b : Nat) (hb : b < 256) : _AND (some (b : Int)) 1 ≠ 0 ↔ b % 2 = 1 := by
  have h1 : toUint32 (some (b : Int)) = b := by
    simp only [toUint32]
    have : (b : Int) % 4294967296 = (b : Int) := Int.emod_eq_of_lt (by omega) (by omega)
    rw [this]
    simp
  unfold _AND
  rw [h1, Nat.and_one_is_mod]
  omega

/-- C19: for `x` and `y` each given as 32 bytes of big-endian hex (64 hex digits,
`y = y0 ‖ ys`), `encodeXY(x, y)` returns the 32 bytes of `y` in little-endian order
(`reverse(ys) ‖ y0`) with the bit `0x80` of the last byte set when `x` is odd and
every other bit unchanged; when `x` is even it returns the byte-reversed `y`
unchanged. -/
theorem encodeXY_spec (xb ys : Bytes) (y0 : Nat) (hx : xb.length = 32) (hy : ys.length = 31)
    (hxlt : ∀ b ∈ xb, b < 256) (hy0 : y0 < 256) (hylt : ∀ b ∈ ys, b < 256) :
    encodeXY (bytesToHex xb) (bytesToHex (y0 :: ys))
        = bytesToHex (ys.reverse ++ [if beVal xb % 2 = 1 then y0 ||| 128 else y0]) ∧
      (hexToBytes (encodeXY (bytesToHex xb) (bytesToHex (y0 :: ys)))).length = 32 := by
  obtain ⟨x0, mid, x31, hsplit, hmid⟩ := list32_split xb hx
  have hx31 : x31 < 256 := hxlt x31 (by rw [hsplit]; simp)
  have hpar : beVal xb % 2 = x31 % 2 := by
    rw [hsplit, show x0 :: (mid ++ [x31]) = (x0 :: mid) ++ [x31] by simp,
      beVal_append_singleton]
    omega
  have hget : xb.getD 31 0 = x31 := by rw [hsplit]; exact (set_ends x0 x31 0 mid hmid).1
  have hyall : ∀ b ∈ y0 :: ys, b < 256 := by
    intro b hb
    rcases List.mem_cons.mp hb with h | h
    · rw [h]; exact hy0
    · exact hylt b h
  have hor : (y0 ||| 128) < 256 := Nat.or_lt_two_pow (n := 8) hy0 (by norm_num)
  have hmain : encodeXY (bytesToHex xb) (bytesToHex (y0 :: ys))
      = bytesToHex (ys.reverse ++ [if beVal xb % 2 = 1 then y0 ||| 128 else y0]) := by
    simp only [encodeXY, hexToBytes_bytesToHex _ hxlt, hexToBytes_bytesToHex _ hyall, hget]
    by_cases hodd : x31 % 2 = 1
    · have := (and_one_byte x31 hx31).mpr hodd
      simp only [this, ne_eq, not_false_eq_true, if_true, hpar, hodd, List.reverse_cons]
      rw [Nat.mod_eq_of_lt (by omega : (y0 ||| 128) < 4294967296)]
    · have : ¬ (_AND (some (x31 : Int)) 1 ≠ 0) := fun h => hodd ((and_one_byte x31 hx31).mp h)
      simp only [this, if_false, hpar, hodd, List.reverse_cons]
  refine ⟨hmain, ?_⟩
  rw [hmain, hexToBytes_bytesToHex]
  · simp [hy]
  · intro b hb
    rcases List.mem_append.mp hb with h | h
    · exact hylt b (List.mem_reverse.mp h)
    · simp only [List.mem_singleton] at h
      rw [h]
      split
      · exact hor
      · exact hy0

theorem encodeXY_spec_witness :
    (List.replicate 32 3).length = 32 ∧ (List.replicate 31 5).length = 31 ∧
      (∀ b ∈ List.replicate 32 3, b < 256) ∧ 9 < 256 ∧ (∀ b ∈ List.replicate 31 5, b < 256) ∧
      encodeXY (bytesToHex (List.replicate 32 3)) (bytesToHex (9 :: List.replicate 31 5))
        = bytesToHex ((List.replicate 31 5).reverse ++
            [if beVal (List.replicate 32 3) % 2 = 1 then 9 ||| 128 else 9]) :=
  ⟨by decide, by decide, by decide, by decide, by decide,
    (encodeXY_spec (List.replicate 32 3) (List.replicate 31 5) 9 (by decide) (by decide)
      (by decide) (by decide) (by decide)).1⟩

/-! ## Defects of the Kholaw child and of `getPublicKey` -/

/-- C16 (failing input): for the Kholaw root of the seed of 64 bytes `0x07` and
index 95, `kRn` has two leading zero hex digits and the `kR` of the node
`deriveChildKhoLaw` returns has 31 bytes, not 32. -/
theorem deriveChildKhoLaw_kR_31_bytes :
    childLengths (deriveChildKhoLaw refExt sampleKholawRoot (some 95))
      = some (32, some 31, some 64) := by
  decide!

/-- The branch `kLn % ed25519_n == 0n` of `deriveChildKhoLaw`: the promise is
resolved without a node, no error is raised. -/
theorem deriveChildKhoLaw_vanishing (E : Ext) (node : DerivationNode) (i : JsNum)
    (kRP cP : Bytes) (hkR : node.kR = some kRP) (hc : node.c = some cP)
    (h0 : khoLawKLn (khoLawHmacs E node.kL kRP node.A cP i).1 node.kL % ed25519_n = 0) :
    deriveChildKhoLaw E node i = Outcome.resolved none := by
  simp [deriveChildKhoLaw, hkR, hc, h0]

/-- C17 (failing input): for the parent `sampleVanishingParent` and index 0,
`8·int_LE(ZL) + int_LE(parent kL)` is a multiple of the group order, and
`deriveChildKhoLaw` resolves its promise with `undefined` instead of failing. -/
theorem deriveChildKhoLaw_resolves_undefined :
    khoLawKLn (khoLawHmacs refExt sampleVanishingParent.kL (sampleVanishingParent.kR.getD [])
        sampleVanishingParent.A (sampleVanishingParent.c.getD []) (some 0)).1
        sampleVanishingParent.kL % ed25519_n = 0 ∧
      deriveChildKhoLaw refExt sampleVanishingParent (some 0) = Outcome.resolved none := by
  decide!

/-- C18 (divergence): for curve nist256p1 `getPublicKey` computes nothing from the
key: it returns the module variable `k` left by an earlier call, and throws a
`ReferenceError` when `k` was never assigned. -/
theorem getPublicKey_nist256p1 :
    curveInfo (some "nist256p1".toList) = CurveLookup.params nist256p1Params ∧
      ∀ (E : Ext) (key : Bytes) (g : Globals),
        getPublicKey E key nist256p1Params g =
          match g.k with
          | some k => (Except.ok k, g)
          | none => (Except.error JsError.referenceError, g) := by
  refine ⟨by decide, ?_⟩
  intro E key g
  have h1 : (nist256p1Params.name == "ed25519".toList) = false := by decide
  have h2 : (nist256p1Params.name == "secp256k1".toList) = false := by decide
  simp only [getPublicKey, h1, h2, Bool.false_eq_true, if_false]

/-- With the module freshly loaded, a SLIP10 child under `slip10-nist256p1` is
rejected with a `ReferenceError`. -/
theorem deriveBip39Seed_nist256p1_fresh :
    deriveBip39Seed refExt 5 (List.replicate 64 7) "slip10-nist256p1".toList
        (some ['m', '/', '0', Char.ofNat 39]) { k := none }
      = (Outcome.rejected JsError.referenceError, { k := none }) := by
  decide!

/-- C20 (failing input): for the Kholaw root of the seed of 64 bytes `0x07` and
index 34, the coordinate `y` of the child's public point has 62 hex digits and
the text `A` of the node has 62 hex digits (31 bytes), not 64. -/
theorem deriveChildKhoLaw_A_31_bytes :
    childLengths (deriveChildKhoLaw refExt sampleKholawRoot (some 34))
      = some (32, some 32, some 62) := by
  decide!

/-! ## The rejection-sampling loops -/

theorem rootKeySlip10_rejecting (E : Ext) (hmac : E.hmacSHA512Ok) (curve : CurveParams)
    (order : Nat) (hname : curve.name ≠ "ed25519".toList) (hord : curve.order = some order)
    (hrej : ∀ m key, order ≤ beVal ((E.hmacSHA512 m key).take 32)) (fuel : Nat) :
    ∀ seed first, rootKeySlip10 E curve fuel seed first = Outcome.unfinished := by
  induction fuel with
  | zero => intro seed first; rfl
  | succ n ih =>
    intro seed first
    have hI := hmac seed (utf8 curve.modifier)
    have h1 := (halves_of_hex _ hI.2).1
    have hlt : ∀ b ∈ (E.hmacSHA512 seed (utf8 curve.modifier)).take 32, b < 256 :=
      fun b hb => hI.2 b (List.mem_of_mem_take hb)
    have hr := hrej seed (utf8 curve.modifier)
    have hn : (curve.name == "ed25519".toList) = false := by simpa using hname
    simp only [rootKeySlip10, h1, bigIntHex_hexilify _ hlt, hord, hn]
    simp [Nat.not_lt.mpr hr, ih]

theorem rootKeyKholawLoop_rejecting (E : Ext) (hmac : E.hmacSHA512Ok) (curve : CurveParams)
    (hbit : ∀ m key, _getBit (((E.hmacSHA512 m key).take 32).getD 31 0) 0b00100000 ≠ 0)
    (fuel : Nat) :
    ∀ m, rootKeyKholawLoop E curve fuel (hexilify (E.hmacSHA512 m (utf8 curve.modifier)))
      = none := by
  induction fuel with
  | zero => intro m; rfl
  | succ n ih =>
    intro m
    have hI := hmac m (utf8 curve.modifier)
    have h1 := (halves_of_hex _ hI.2).1
    have hlt : ∀ b ∈ (E.hmacSHA512 m (utf8 curve.modifier)).take 32, b < 256 :=
      fun b hb => hI.2 b (List.mem_of_mem_take hb)
    have hb := hbit m (utf8 curve.modifier)
    simp only [rootKeyKholawLoop, h1, hexilify_eq_bytesToHex _ hlt, hexToBytes_bytesToHex _ hlt]
    rw [if_pos (by simpa using hb)]
    exact ih _

theorem deriveChildLoop_rejecting (E : Ext) (hmac : E.hmacSHA512Ok) (curve : CurveParams)
    (order : Nat) (hname : curve.name ≠ "ed25519".toList) (hord : curve.order = some order)
    (hrej : ∀ m key, order ≤ beVal ((E.hmacSHA512 m key).take 32))
    (parentKey chain : Bytes) (i : JsNum) (fuel : Nat) :
    ∀ data, deriveChildLoop E curve parentKey chain i fuel data = Outcome.unfinished := by
  induction fuel with
  | zero => intro data; rfl
  | succ n ih =>
    intro data
    have hI := hmac (unhexilify data) chain
    have h1 := (halves_of_hex _ hI.2).1
    have hlt : ∀ b ∈ (E.hmacSHA512 (unhexilify data) chain).take 32, b < 256 :=
      fun b hb => hI.2 b (List.mem_of_mem_take hb)
    have hr := hrej (unhexilify data) chain
    have hn : (curve.name == "ed25519".toList) = false := by simpa using hname
    simp only [deriveChildLoop, h1, bigIntHex_hexilify _ hlt, hord, hn]
    simp [Nat.not_lt.mpr hr, ih]

theorem stuckExt_hmacSHA512Ok : stuckExt.hmacSHA512Ok := by
  intro m k
  show (List.replicate 64 255).length = 64 ∧ ∀ b ∈ List.replicate 64 255, b < 256
  exact ⟨by decide, by decide⟩

theorem stuckExt_rejects (m key : Bytes) :
    secp256k1_n ≤ beVal ((stuckExt.hmacSHA512 m key).take 32) ∧
      _getBit (((stuckExt.hmacSHA512 m key).take 32).getD 31 0) 0b00100000 ≠ 0 := by
  show secp256k1_n ≤ beVal ((List.replicate 64 255).take 32) ∧
      _getBit (((List.replicate 64 255).take 32).getD 31 0) 0b00100000 ≠ 0
  decide

/-- C21 (counterexample): with an HMAC-SHA512 that returns 64 bytes `0xff` on
every input, every candidate is rejected and, whatever the number of passes
allowed, the SLIP10 root loop (secp256k1), the Kholaw root loop and the child
loop of `deriveChild` are still running: none stops, none raises an error. -/
theorem loops_have_no_cap :
    (∀ fuel seed, rootKey stuckExt fuel seed (curveInfo (some "secp256k1".toList))
        "slip10".toList = Outcome.unfinished) ∧
    (∀ fuel seed, rootKey stuckExt fuel seed (curveInfo (some "ed25519".toList))
        "kholaw".toList = Outcome.unfinished) ∧
    (∀ fuel parentKey chain i data,
      deriveChildLoop stuckExt secp256k1Params parentKey chain i fuel data
        = Outcome.unfinished) := by
  refine ⟨?_, ?_, ?_⟩
  · intro fuel seed
    exact rootKeySlip10_rejecting stuckExt stuckExt_hmacSHA512Ok secp256k1Params secp256k1_n
      (by decide) rfl (fun m key => (stuckExt_rejects m key).1) fuel seed none
  · intro fuel seed
    have h := rootKeyKholawLoop_rejecting stuckExt stuckExt_hmacSHA512Ok ed25519Params
      (fun m key => (stuckExt_rejects m key).2) fuel seed
    show (match rootKeyKholawLoop stuckExt ed25519Params fuel
      (hexilify (stuckExt.hmacSHA512 seed (utf8 ed25519Params.modifier))) with
      | none => Outcome.unfinished
      | some _ => _) = Outcome.unfinished
    rw [h]
  · intro fuel parentKey chain i data
    exact deriveChildLoop_rejecting stuckExt stuckExt_hmacSHA512Ok secp256k1Params secp256k1_n
      (by decide) rfl (fun m key => (stuckExt_rejects m key).1) parentKey chain i fuel data

/-- C21 (amended): the loops of `rootKey` (SLIP10 and Kholaw) and of `deriveChild`
have no iteration cap and raise no internal error; each runs until a candidate
is accepted.  For a curve with an order, when every HMAC-SHA512 output has its
first 32 bytes, read big-endian, at or above the order, and bit `0x20` set in
byte 31, none of the three loops has stopped after `fuel` passes, for every
`fuel`. -/
theorem loops_run_until_accepted (E : Ext) (hmac : E.hmacSHA512Ok) (curve : CurveParams)
    (order : Nat) (hname : curve.name ≠ "ed25519".toList) (hord : curve.order = some order)
    (hrej : ∀ m key, order ≤ beVal ((E.hmacSHA512 m key).take 32))
    (hbit : ∀ m key, _getBit (((E.hmacSHA512 m key).take 32).getD 31 0) 0b00100000 ≠ 0)
    (fuel : Nat) :
    (∀ seed, rootKey E fuel seed (CurveLookup.params curve) "slip10".toList
        = Outcome.unfinished) ∧
    (∀ seed, rootKey E fuel seed (CurveLookup.params curve) "kholaw".toList
        = Outcome.unfinished) ∧
    (∀ parentKey chain i data,
      deriveChildLoop E curve parentKey chain i fuel data = Outcome.unfinished) := by
  refine ⟨?_, ?_, ?_⟩
  · intro seed
    exact rootKeySlip10_rejecting E hmac curve order hname hord hrej fuel seed none
  · intro seed
    have h := rootKeyKholawLoop_rejecting E hmac curve hbit fuel seed
    simp only [rootKey, h]
    simp
  · intro parentKey chain i data
    exact deriveChildLoop_rejecting E hmac curve order hname hord hrej parentKey chain i fuel data

theorem loops_run_until_accepted_witness :
    stuckExt.hmacSHA512Ok ∧ secp256k1Params.name ≠ "ed25519".toList ∧
      secp256k1Params.order = some secp256k1_n ∧
      (∀ m key, secp256k1_n ≤ beVal ((stuckExt.hmacSHA512 m key).take 32)) ∧
      (∀ m key, _getBit (((stuckExt.hmacSHA512 m key).take 32).getD 31 0) 0b00100000 ≠ 0) ∧
      rootKey stuckExt 1000 [] (CurveLookup.params secp256k1Params) "slip10".toList
        = Outcome.unfinished :=
  ⟨stuckExt_hmacSHA512Ok, by decide, rfl, fun m key => (stuckExt_rejects m key).1,
    fun m key => (stuckExt_rejects m key).2,
    (loops_run_until_accepted stuckExt stuckExt_hmacSHA512Ok secp256k1Params secp256k1_n
      (by decide) rfl (fun m key => (stuckExt_rejects m key).1)
      (fun m key => (stuckExt_rejects m key).2) 1000).1 []⟩

/-! ## The test vectors of the `all … feel` mnemonic -/

theorem allFeel_kholaw :
    algoKeyAddress (deriveMnemonic vectorExt 10 allFeelMnemonic "kholaw-ed25519".toList
        (some defaultPath) [] { k := none })
      = some ("1075ab5e3fcedcb69eef77974b314cc0cbc163c01a0c354989dc70b8789a194f".toList,
          "NVGXFOROGBDBUW6CEQDX6V742PWFPLXUDKW6V7HOZHFD7GSQEB556GUZII".toList) := by
  decide!

theorem allFeel_slip10 :
    algoKeyAddress (deriveMnemonic vectorExt 10 allFeelMnemonic "slip10-ed25519".toList
        (some defaultPath) [] { k := none })
      = some ("7b6ec191cb3b77f6593cefaddf0489af47bb65e0f4480391bcedd00caa822d11".toList,
          "NMRBZNN2RXUNVLVVPVD53GJV6A2A55QWJXMD2KG42N7NQZB67WXYFGONVA".toList) := by
  decide!

/-- C22 (counterexample): for the mnemonic `all` (23 times) `feel`, method
`kholaw-ed25519` and path `m/44'/283'/0'/0/0`, the key and address `deriveMnemonic`
yields are not `7b6ec191…2d11` and `NMRBZNN2…ONVA`. -/
theorem deriveMnemonic_kholaw_vector_differs :
    algoKeyAddress (deriveMnemonic vectorExt 10 allFeelMnemonic "kholaw-ed25519".toList
        (some defaultPath) [] { k := none })
      ≠ some ("7b6ec191cb3b77f6593cefaddf0489af47bb65e0f4480391bcedd00caa822d11".toList,
          "NMRBZNN2RXUNVLVVPVD53GJV6A2A55QWJXMD2KG42N7NQZB67WXYFGONVA".toList) := by
  rw [allFeel_kholaw]
  decide

/-- C22 (amended): for the mnemonic `all` (23 times) `feel` and path
`m/44'/283'/0'/0/0`, `deriveMnemonic` yields key `1075ab5e…194f` and address
`NVGXFORO…UZII` with method `kholaw-ed25519`; the key `7b6ec191…2d11` and the
address `NMRBZNN2…ONVA` are what method `slip10-ed25519` yields. -/
theorem deriveMnemonic_vectors :
    algoKeyAddress (deriveMnemonic vectorExt 10 allFeelMnemonic "kholaw-ed25519".toList
        (some defaultPath) [] { k := none })
      = some ("1075ab5e3fcedcb69eef77974b314cc0cbc163c01a0c354989dc70b8789a194f".toList,
          "NVGXFOROGBDBUW6CEQDX6V742PWFPLXUDKW6V7HOZHFD7GSQEB556GUZII".toList) ∧
    algoKeyAddress (deriveMnemonic vectorExt 10 allFeelMnemonic "slip10-ed25519".toList
        (some defaultPath) [] { k := none })
      = some ("7b6ec191cb3b77f6593cefaddf0489af47bb65e0f4480391bcedd00caa822d11".toList,
          "NMRBZNN2RXUNVLVVPVD53GJV6A2A55QWJXMD2KG42N7NQZB67WXYFGONVA".toList) :=
  ⟨allFeel_kholaw, allFeel_slip10⟩

/-! ## The BIP39 checksum -/

theorem length_bitsOfBytes (bs : Bytes) : (bitsOfBytes bs).length = 8 * bs.length := by
  induction bs with
  | nil => rfl
  | cons b bs ih =>
    simp only [bitsOfBytes, List.flatMap_cons, List.length_append, length_fixedDigits,
      List.length_cons] at ih ⊢
    omega

theorem fixedDigits_binary (w n : Nat) : ∀ c ∈ fixedDigits 2 w n, c = '0' ∨ c = '1' := by
  induction w generalizing n with
  | zero => intro c hc; simp [fixedDigits] at hc
  | succ w ih =>
    intro c hc
    simp only [fixedDigits, List.mem_append, List.mem_singleton] at hc
    rcases hc with h | h
    · exact ih _ c h
    · have h2 : n % 2 = 0 ∨ n % 2 = 1 := by omega
      rcases h2 with h2 | h2
      · left; rw [h, h2]; rfl
      · right; rw [h, h2]; rfl

theorem bitsOfBytes_binary (bs : Bytes) : ∀ c ∈ bitsOfBytes bs, c = '0' ∨ c = '1' := by
  intro c hc
  simp only [bitsOfBytes, List.mem_flatMap] at hc
  obtain ⟨b, _, h⟩ := hc
  exact fixedDigits_binary 8 b c h

theorem hex2bits_bytesToHex (bs : Bytes) (h : ∀ b ∈ bs, b < 256) :
    hex2bits (bytesToHex bs) = bitsOfBytes bs := by
  rw [hex2bits, hexToBytes_bytesToHex bs h, bitsOfBytes]
  apply List.flatMap_congr
  intro b hb
  exact padStart_natToString 2 (by decide) 7 b (h b hb)

theorem hex2bits_first_byte (bs : Bytes) (h : ∀ b ∈ bs, b < 256) (hne : bs ≠ []) :
    hex2bits (substr 0 2 (hexilify bs)) = fixedDigits 2 8 (bs.headD 0) := by
  cases bs with
  | nil => exact absurd rfl hne
  | cons b rest =>
    have hb : b < 256 := h b (List.mem_cons_self _ _)
    have h1 : substr 0 2 (hexilify (b :: rest)) = fixedDigits 16 2 b := by
      rw [hexilify_cons, substr, List.drop_zero, List.take_left' (length_fixedDigits 16 2 b)]
    have h2 : fixedDigits 16 2 b = bytesToHex [b] := by
      have := fixedDigits_eq_bytesToHex 1 b
      simp only [Nat.mul_one] at this
      rw [this]
      simp [toBytesBE, Nat.mod_eq_of_lt hb]
    rw [h1, h2, hex2bits_bytesToHex [b] (by simpa using hb)]
    simp [bitsOfBytes]

theorem entCheckBits_eq (E : Ext) (hsha : E.sha256Ok) (ent : Bytes) (h : ∀ b ∈ ent, b < 256)
    (cs : Nat) (hcs : cs ≤ 8) :
    entCheckBits E (bytesToHex ent) cs = (bitsOfBytes (E.sha256 ent)).take cs := by
  have hs := hsha ent
  have hne : E.sha256 ent ≠ [] := by
    intro h0; rw [h0] at hs; simp at hs
  rw [entCheckBits, unhexilify_bytesToHex ent h, hex2bits_first_byte _ hs.2 hne]
  have hl : (substr 0 cs (fixedDigits 2 8 ((E.sha256 ent).headD 0))).length = cs := by
    simp [substr, length_fixedDigits, hcs]
  rw [padStart, hl, Nat.sub_self, List.replicate_zero, List.nil_append, substr, List.drop_zero]
  cases hd : E.sha256 ent with
  | nil => exact absurd hd hne
  | cons b rest =>
    simp only [List.headD_cons, bitsOfBytes, List.flatMap_cons]
    rw [List.take_append_of_le_length (by rw [length_fixedDigits]; exact hcs)]

/-- C23 (counterexample): for an entropy of 36 bytes (288 bits, `cs = 9`),
`entCheckBits` reads one byte of the digest only: its text is a space followed by
eight bits, not the first nine bits of SHA-256. -/
theorem entCheckBits_nine_bits :
    entCheckBits refExt (List.replicate 72 '0') 9
        = ' ' :: (bitsOfBytes (refExt.sha256 (List.replicate 36 0))).take 8 ∧
      entCheckBits refExt (List.replicate 72 '0') 9
        ≠ (bitsOfBytes (refExt.sha256 (List.replicate 36 0))).take 9 := by
  decide!

/-- C23 (amended): for every entropy of `4·cs` bytes with `cs ≤ 8` (at most 256
bits), `entCheckBits(entropy, cs)` is exactly the first `cs` bits of
SHA-256(entropy), a string of `cs` characters each `0` or `1`, and
`ent2bip39words` appends exactly those bits to the entropy bits before cutting
them into 11-bit numbers. -/
theorem entCheckBits_spec (E : Ext) (hsha : E.sha256Ok) (ent : Bytes) (h : ∀ b ∈ ent, b < 256)
    (cs : Nat) (hlen : ent.length = 4 * cs) (hcs : cs ≤ 8) :
    entCheckBits E (bytesToHex ent) cs = (bitsOfBytes (E.sha256 ent)).take cs ∧
      (entCheckBits E (bytesToHex ent) cs).length = cs ∧
      (∀ c ∈ entCheckBits E (bytesToHex ent) cs, c = '0' ∨ c = '1') ∧
      ent2bip39words E (bytesToHex ent)
        = numsToWords E (bits2uintN 11
            (bitsOfBytes ent ++ (bitsOfBytes (E.sha256 ent)).take cs)) := by
  have he := entCheckBits_eq E hsha ent h cs hcs
  have hl : (bitsOfBytes (E.sha256 ent)).length = 256 := by
    rw [length_bitsOfBytes, (hsha ent).1]
  refine ⟨he, ?_, ?_, ?_⟩
  · rw [he, List.length_take, hl]; omega
  · intro c hc
    rw [he] at hc
    exact bitsOfBytes_binary _ c (List.mem_of_mem_take hc)
  · have hlen2 : (bytesToHex ent).length = 8 * cs := by
      rw [length_bytesToHex ent h, hlen]; omega
    have hcs2 : (bytesToHex ent).length * 8 / 2 / 32 = cs := by
      rw [hlen2]; omega
    simp only [ent2bip39words, hcs2, he, hex2bits_bytesToHex ent h]
    have hb : (bitsOfBytes ent).length ≤ (bytesToHex ent).length * 8 / 2 + cs := by
      rw [length_bitsOfBytes, hlen2, hlen]; omega
    rw [substr, List.drop_zero, List.take_of_length_le hb]

theorem entCheckBits_spec_witness :
    refExt.sha256Ok ∧ (∀ b ∈ List.replicate 16 0, b < 256) ∧
      (List.replicate 16 0).length = 4 * 4 ∧ 4 ≤ 8 ∧
      entCheckBits refExt (bytesToHex (List.replicate 16 0)) 4
        = (bitsOfBytes (refExt.sha256 (List.replicate 16 0))).take 4 :=
  ⟨refExt_sha256Ok, by decide, by decide, by decide,
    (entCheckBits_spec refExt refExt_sha256Ok (List.replicate 16 0) (by decide) 4 (by decide)
      (by decide)).1⟩

/-! ## Number of words of a mnemonic -/

theorem numsToWords_eq_map (E : Ext) (nums : List Nat) :
    numsToWords E nums = nums.map (wordAt E) := by
  have h : ∀ (l : List Nat) (acc : List (Option Str)),
      l.foldl (fun p c => p ++ [wordAt E c]) acc = acc ++ l.map (wordAt E) := by
    intro l
    induction l with
    | nil => intro acc; simp
    | cons a l ih => intro acc; simp [ih]
  simpa [numsToWords] using h nums []

theorem chunksOf_length (n : Nat) (hn : 0 < n) : ∀ (k fuel : Nat) (s : Str),
    s.length = k * n → k ≤ fuel → (chunksOf n fuel s).length = k := by
  intro k
  induction k with
  | zero =>
    intro fuel s hs _
    have : s = [] := List.length_eq_zero.mp (by simpa using hs)
    subst this
    cases fuel <;> simp [chunksOf]
  | succ k ih =>
    intro fuel s hs hf
    cases fuel with
    | zero => omega
    | succ fuel =>
      have hne : s ≠ [] := by
        intro h0; subst h0
        simp at hs
        have := Nat.mul_pos (Nat.succ_pos k) hn
        omega
      rw [chunksOf, if_neg hne, List.length_cons, ih fuel (s.drop n) _ (by omega)]
      rw [List.length_drop, hs, Nat.succ_mul]; omega

theorem chunksOf_le (n : Nat) : ∀ (fuel : Nat) (s : Str), ∀ g ∈ chunksOf n fuel s,
    g.length ≤ n := by
  intro fuel
  induction fuel with
  | zero => intro s g hg; simp [chunksOf] at hg
  | succ fuel ih =>
    intro s g hg
    rw [chunksOf] at hg
    split at hg
    · simp at hg
    · rcases List.mem_cons.mp hg with h | h
      · rw [h, List.length_take]; omega
      · exact ih _ g h

theorem parseDigits_lt (s : Str) : ∀ a : Nat,
    (parseDigits 2 s (some a)).getD 0 < (a + 1) * 2 ^ s.length := by
  induction s with
  | nil => intro a; simp [parseDigits]
  | cons c cs ih =>
    intro a
    have hpos : 0 < 2 ^ cs.length := Nat.pow_pos (by decide)
    have hbase : a < (a + 1) * 2 ^ (cs.length + 1) := by
      have : (a + 1) * 1 ≤ (a + 1) * 2 ^ (cs.length + 1) :=
        Nat.mul_le_mul_left _ (Nat.pow_pos (by decide))
      omega
    rw [parseDigits]
    split
    · rename_i d hd
      split
      · rename_i hlt
        have h1 := ih (a * 2 + d)
        simp only [Option.getD_some, List.length_cons]
        have h2 : (a * 2 + d + 1) * 2 ^ cs.length ≤ (a + 1) * 2 ^ (cs.length + 1) := by
          rw [Nat.pow_succ, Nat.mul_comm (2 ^ cs.length) 2, ← Nat.mul_assoc]
          exact Nat.mul_le_mul_right _ (by omega)
        exact Nat.lt_of_lt_of_le h1 h2
      · simpa using hbase
    · simpa using hbase

theorem parseIntRadix_two_lt (s : Str) : (parseIntRadix 2 s).getD 0 < 2 ^ s.length := by
  cases s with
  | nil => simp [parseIntRadix, parseDigits]
  | cons c cs =>
    rw [parseIntRadix, parseDigits]
    split
    · rename_i d hd
      split
      · rename_i hlt
        have h1 := parseDigits_lt cs (0 * 2 + d)
        simp only [Option.getD_none, List.length_cons]
        have h2 : (0 * 2 + d + 1) * 2 ^ cs.length ≤ 2 ^ (cs.length + 1) := by
          rw [Nat.pow_succ, Nat.mul_comm (2 ^ cs.length) 2]
          exact Nat.mul_le_mul_right _ (by omega)
        exact Nat.lt_of_lt_of_le h1 h2
      · simp
    · simp

theorem bits2uintN_lt (n : Nat) (bits : Str) : ∀ x ∈ bits2uintN n bits, x < 2 ^ n := by
  intro x hx
  simp only [bits2uintN, List.mem_map] at hx
  obtain ⟨g, hg, hgx⟩ := hx
  rw [← hgx]
  exact Nat.lt_of_lt_of_le (parseIntRadix_two_lt g)
    (Nat.pow_le_pow_right (by decide) (chunksOf_le n _ _ g hg))

theorem length_entCheckBits (E : Ext) (ent : Str) (cs : Nat) :
    (entCheckBits E ent cs).length = cs := by
  simp only [entCheckBits, padStart, substr, List.length_append, List.length_replicate,
    List.length_take, List.length_drop]
  omega

theorem length_ent2bip39words (E : Ext) (ent : Bytes) (h : ∀ b ∈ ent, b < 256) (cs : Nat)
    (hlen : ent.length = 4 * cs) :
    (ent2bip39words E (bytesToHex ent)).length = 3 * cs ∧
      ∀ w ∈ ent2bip39words E (bytesToHex ent), ∃ i, i < 2048 ∧ w = wordAt E i := by
  have hlen2 : (bytesToHex ent).length = 8 * cs := by
    rw [length_bytesToHex ent h, hlen]; omega
  have hcs2 : (bytesToHex ent).length * 8 / 2 / 32 = cs := by
    rw [hlen2]; omega
  have hb : (bitsOfBytes ent).length ≤ (bytesToHex ent).length * 8 / 2 + cs := by
    rw [length_bitsOfBytes, hlen2, hlen]; omega
  have he : ent2bip39words E (bytesToHex ent)
      = (bits2uintN 11 (bitsOfBytes ent ++ entCheckBits E (bytesToHex ent) cs)).map
          (wordAt E) := by
    simp only [ent2bip39words, hcs2, hex2bits_bytesToHex ent h, numsToWords_eq_map]
    rw [substr, List.drop_zero, List.take_of_length_le hb]
  have hl : (bitsOfBytes ent ++ entCheckBits E (bytesToHex ent) cs).length = 3 * cs * 11 := by
    rw [List.length_append, length_bitsOfBytes, length_entCheckBits, hlen]; omega
  refine ⟨?_, ?_⟩
  · rw [he, List.length_map, bits2uintN, List.length_map,
      chunksOf_length 11 (by decide) (3 * cs) _ _ hl (by rw [hl]; omega)]
  · intro w hw
    rw [he, List.mem_map] at hw
    obtain ⟨i, hi, hiw⟩ := hw
    exact ⟨i, bits2uintN_lt 11 _ i hi, hiw.symm⟩

/-- C24: for every entropy of `n` bytes with `n` in {16, 20, 24, 28, 32},
`ent2bip39words` returns exactly `3n/4` entries (12, 15, 18, 21, 24), each a word
of the 2048-entry table; the entropy size `generateMnemonic` computes for a word
count `w` in {12, 15, 18, 21, 24}, `(11w - (11w mod 32))/8`, is `4w/3` bytes, so
that `randomWords` of that size is `3n/4 = w` words joined by spaces. -/
theorem ent2bip39words_count (E : Ext) (hwords : E.bip39words.length = 2048) (ent : Bytes)
    (h : ∀ b ∈ ent, b < 256) (n : Nat) (hlen : ent.length = n)
    (hn : n ∈ [16, 20, 24, 28, 32]) :
    (ent2bip39words E (bytesToHex ent)).length = 3 * n / 4 ∧
      3 * n / 4 ∈ [12, 15, 18, 21, 24] ∧
      generateMnemonicSize (3 * n / 4) = n ∧
      (∀ w ∈ [12, 15, 18, 21, 24], generateMnemonicSize w = 4 * w / 3) ∧
      ∃ ws : List Str, ws.length = 3 * n / 4 ∧ (∀ s ∈ ws, s ∈ E.bip39words) ∧
        ent2bip39words E (bytesToHex ent) = ws.map some ∧
        randomWords E (bytesToHex ent) = joinWith ' ' ws := by
  have hn4 : n = 4 * (n / 4) ∧ 3 * n / 4 = 3 * (n / 4) := by
    simp only [List.mem_cons, List.mem_singleton, List.not_mem_nil, or_false] at hn
    rcases hn with h | h | h | h | h <;> subst h <;> decide
  have hl := length_ent2bip39words E ent h (n / 4) (by rw [hlen]; exact hn4.1)
  have hsome : ∀ w ∈ ent2bip39words E (bytesToHex ent), ∃ s ∈ E.bip39words, w = some s := by
    intro w hw
    obtain ⟨i, hi, hiw⟩ := hl.2 w hw
    have hi2 : i < E.bip39words.length := by rw [hwords]; exact hi
    refine ⟨E.bip39words.get ⟨i, hi2⟩, List.get_mem _ _ _, ?_⟩
    rw [hiw, wordAt, List.get?_eq_get hi2]
  refine ⟨by rw [hl.1, hn4.2], ?_, ?_, by decide, ?_⟩
  · simp only [List.mem_cons, List.mem_singleton, List.not_mem_nil, or_false] at hn
    rcases hn with h | h | h | h | h <;> subst h <;> decide
  · simp only [List.mem_cons, List.mem_singleton, List.not_mem_nil, or_false] at hn
    rcases hn with h | h | h | h | h <;> subst h <;> decide
  · refine ⟨(ent2bip39words E (bytesToHex ent)).map (fun w => w.getD []), ?_, ?_, ?_, ?_⟩
    · rw [List.length_map, hl.1, hn4.2]
    · intro s hs
      rw [List.mem_map] at hs
      obtain ⟨w, hw, hws⟩ := hs
      obtain ⟨s', hs', hw'⟩ := hsome w hw
      rw [← hws, hw']
      exact hs'
    · rw [List.map_map]
      conv_lhs => rw [← List.map_id (ent2bip39words E (bytesToHex ent))]
      apply List.map_congr_left
      intro w hw
      obtain ⟨s', _, hw'⟩ := hsome w hw
      rw [hw']; rfl
    · rfl

theorem refExt_words_length : refExt.bip39words.length = 2048 := by
  simp [refExt, sampleWords]

theorem ent2bip39words_count_witness :
    refExt.bip39words.length = 2048 ∧ (∀ b ∈ List.replicate 16 0, b < 256) ∧
      (List.replicate 16 0).length = 16 ∧ 16 ∈ [16, 20, 24, 28, 32] ∧
      (ent2bip39words refExt (bytesToHex (List.replicate 16 0))).length = 3 * 16 / 4 :=
  ⟨refExt_words_length, by decide, by decide, by decide,
    (ent2bip39words_count refExt refExt_words_length (List.replicate 16 0) (by decide) 16
      (by decide) (by decide)).1⟩

/-! ## The Kholaw invariant on `kL` -/

theorem beVal_reverse (l : Bytes) : beVal l.reverse = leVal l := by
  induction l with
  | nil => rfl
  | cons b bs ih =>
    rw [List.reverse_cons, beVal_append_singleton, ih, leVal]
    omega

theorem reverseHex_bytesToHex (bs : Bytes) (h : ∀ b ∈ bs, b < 256) :
    reverseHex (bytesToHex bs) = bytesToHex bs.reverse := by
  rw [reverseHex, hexToBytes_bytesToHex bs h]

theorem bigIntHex_reverseHex_hexilify (bs : Bytes) (h : ∀ b ∈ bs, b < 256) :
    bigIntHex (reverseHex (hexilify bs)) = leVal bs := by
  have hr : ∀ b ∈ bs.reverse, b < 256 := fun b hb => h b (List.mem_reverse.mp hb)
  rw [hexilify_eq_bytesToHex bs h, reverseHex_bytesToHex bs h,
    ← hexilify_eq_bytesToHex bs.reverse hr, bigIntHex_hexilify _ hr, beVal_reverse]

theorem khoLawZL_hexilify (out : Bytes) (h : ∀ b ∈ out, b < 256) :
    khoLawZL (hexilify out) = out.take 28 := by
  have ht : ∀ b ∈ out.take 28, b < 256 := fun b hb => h b (List.mem_of_mem_take hb)
  rw [khoLawZL, substr, List.drop_zero, Nat.mul_comm 28 2, hexilify_take, unhexilify_hexilify _ ht]

theorem length_natToString_eq (b : Nat) (hb : 2 ≤ b) : ∀ w n, b ^ w ≤ n → n < b ^ (w + 1) →
    (natToString b n).length = w + 1 := by
  intro w
  induction w with
  | zero =>
    intro n _ hn
    rw [natToString_lt b n (by simpa using hn)]
    rfl
  | succ w ih =>
    intro n hlo hhi
    have hbpos : 0 < b := by omega
    have hge : ¬ n < b := by
      have : b ^ 1 ≤ b ^ (w + 1) := Nat.pow_le_pow_right hbpos (by omega)
      simp only [Nat.pow_one] at this
      omega
    rw [natToString_ge b n hb hge, List.length_append, List.length_singleton,
      ih (n / b) ((Nat.le_div_iff_mul_le hbpos).mpr (by rw [← Nat.pow_succ]; exact hlo))
        ((Nat.div_lt_iff_lt_mul hbpos).mpr (by rw [← Nat.pow_succ]; exact hhi))]

theorem natToString_eq_fixedDigits (n : Nat) (hlo : 2 ^ 252 ≤ n) (hhi : n < 2 ^ 256) :
    natToString 16 n = fixedDigits 16 64 n ∧ (natToString 16 n).length = 64 := by
  have hl : (natToString 16 n).length = 64 :=
    length_natToString_eq 16 (by decide) 63 n (by norm_num at hlo ⊢; exact hlo)
      (by norm_num at hhi ⊢; exact hhi)
  have hp := padStart_natToString 16 (by decide) 63 n (by norm_num at hhi ⊢; exact hhi)
  rw [padStart, hl] at hp
  simp only [Nat.sub_self, List.replicate_zero, List.nil_append] at hp
  exact ⟨hp, hl⟩

theorem leVal_toBytesLE (n : Nat) : ∀ x, leVal (toBytesLE n x) = x % 256 ^ n := by
  induction n with
  | zero => intro x; simp [toBytesLE, leVal, Nat.mod_one]
  | succ n ih =>
    intro x
    rw [toBytesLE, leVal, ih, Nat.pow_succ, Nat.mul_comm (256 ^ n) 256, Nat.mod_mul]

theorem kholaw_child_bytes (n : Nat) (hlo : 2 ^ 252 ≤ n) (hhi : n < 2 ^ 256) :
    unhexilify (reverseHex (natToString 16 n)) = toBytesLE 32 n := by
  have h1 := fixedDigits_eq_bytesToHex 32 n
  rw [(natToString_eq_fixedDigits n hlo hhi).1, h1,
    reverseHex_bytesToHex _ (toBytesBE_lt 32 n), reverse_toBytesBE,
    unhexilify_bytesToHex _ (toBytesLE_lt 32 n)]

theorem khoLawKLn_eq (E : Ext) (hmac : E.hmacSHA512Ok) (kLP kRP : Bytes) (AP : Option Str)
    (cP : Bytes) (i : JsNum) (hkL : ∀ b ∈ kLP, b < 256) :
    ∃ m, khoLawKLn (khoLawHmacs E kLP kRP AP cP i).1 kLP
        = leVal ((E.hmacSHA512 m cP).take 28) * 8 + leVal kLP ∧
      leVal ((E.hmacSHA512 m cP).take 28) < 2 ^ 224 := by
  have hZ : ∃ m, (khoLawHmacs E kLP kRP AP cP i).1 = hexilify (E.hmacSHA512 m cP) :=
    ⟨_, rfl⟩
  obtain ⟨m, hm⟩ := hZ
  have hout := hmac m cP
  have ht : ∀ b ∈ (E.hmacSHA512 m cP).take 28, b < 256 :=
    fun b hb => hout.2 b (List.mem_of_mem_take hb)
  refine ⟨m, ?_, ?_⟩
  · rw [khoLawKLn, hm, khoLawZL_hexilify _ hout.2, bigIntHex_reverseHex_hexilify _ ht,
      bigIntHex_reverseHex_hexilify _ hkL]
  · have := leVal_lt _ ht
    rw [List.length_take, hout.1] at this
    norm_num at this ⊢
    exact this

theorem deriveChildKhoLaw_kL (E : Ext) (hmac : E.hmacSHA512Ok) (node child : DerivationNode)
    (i : JsNum) (hlt : ∀ b ∈ node.kL, b < 256) (hlo : 2 ^ 254 ≤ leVal node.kL)
    (hhi : leVal node.kL + 2 ^ 227 ≤ 2 ^ 256)
    (h : deriveChildKhoLaw E node i = Outcome.resolved (some child)) :
    ∃ zl, zl < 2 ^ 224 ∧ child.kL = toBytesLE 32 (leVal node.kL + 8 * zl) ∧
      leVal child.kL = leVal node.kL + 8 * zl ∧
      (natToString 16 (leVal node.kL + 8 * zl)).length = 64 := by
  unfold deriveChildKhoLaw at h
  split at h
  · rename_i kRP cP hkR hc
    obtain ⟨m, hk, hz⟩ := khoLawKLn_eq E hmac node.kL kRP node.A cP i hlt
    simp only at h
    split at h
    · simp at h
    · simp only [Outcome.resolved.injEq, Option.some.injEq] at h
      have hkL : child.kL
          = unhexilify (reverseHex (natToString 16
              (khoLawKLn (khoLawHmacs E node.kL kRP node.A cP i).1 node.kL))) := by
        rw [← h]; rfl
      have hsum : leVal ((E.hmacSHA512 m cP).take 28) * 8 + leVal node.kL
          = leVal node.kL + 8 * leVal ((E.hmacSHA512 m cP).take 28) := by omega
      rw [hk, hsum] at hkL
      have h252 : (2 : Nat) ^ 252 ≤ leVal node.kL + 8 * leVal ((E.hmacSHA512 m cP).take 28) := by
        have : (2 : Nat) ^ 252 ≤ 2 ^ 254 := Nat.pow_le_pow_right (by decide) (by decide)
        omega
      have h256 : leVal node.kL + 8 * leVal ((E.hmacSHA512 m cP).take 28) < 2 ^ 256 := by
        have e : (2 : Nat) ^ 227 = 8 * 2 ^ 224 := by norm_num
        omega
      rw [kholaw_child_bytes _ h252 h256] at hkL
      refine ⟨_, hz, hkL, ?_, (natToString_eq_fixedDigits _ h252 h256).2⟩
      rw [hkL, leVal_toBytesLE]
      exact Nat.mod_eq_of_lt (by norm_num at h256 ⊢; exact h256)
  · simp at h

/-- The invariant of a Kholaw node after `m` derivation steps. -/
theorem walkPath_kholaw_kL (E : Ext) (hmac : E.hmacSHA512Ok) (curve : CurveParams)
    (fuel : Nat) : ∀ (segs : List Str) (m : Nat) (o node : DerivationNode) (g g' : Globals),
    m + segs.length ≤ 2 ^ 26 →
    o.kL.length = 32 → (∀ b ∈ o.kL, b < 256) → leVal o.kL % 8 = 0 → 2 ^ 254 ≤ leVal o.kL →
    leVal o.kL < 2 ^ 254 + 2 ^ 253 + m * 2 ^ 227 →
    walkPath E fuel curve "kholaw".toList segs o g = (Outcome.resolved node, g') →
    node.kL.length = 32 ∧ (∀ b ∈ node.kL, b < 256) ∧ leVal node.kL % 8 = 0 ∧
      2 ^ 254 ≤ leVal node.kL ∧
      leVal node.kL < 2 ^ 254 + 2 ^ 253 + (m + segs.length) * 2 ^ 227 := by
  intro segs
  induction segs with
  | nil =>
    intro m o node g g' _ hlen hlt h8 hlo hhi hw
    simp only [walkPath, Prod.mk.injEq, Outcome.resolved.injEq] at hw
    rw [← hw.1]
    exact ⟨hlen, hlt, h8, hlo, by simpa using hhi⟩
  | cons c rest ih =>
    intro m o node g g' hm hlen hlt h8 hlo hhi hw
    have hms : (2 : Nat) ^ 253 = 2 ^ 26 * 2 ^ 227 := by norm_num
    have e256 : (2 : Nat) ^ 256 = 2 ^ 254 + 2 ^ 253 + 2 ^ 253 + 2 ^ 255 := by norm_num
    have hmle : m * 2 ^ 227 + 2 ^ 227 ≤ 2 ^ 26 * 2 ^ 227 := by
      have : (m + 1) * 2 ^ 227 ≤ 2 ^ 26 * 2 ^ 227 :=
        Nat.mul_le_mul_right _ (by simp only [List.length_cons] at hm; omega)
      rw [Nat.add_mul, Nat.one_mul] at this
      exact this
    have hm2 : ("kholaw".toList == "slip10".toList) = false := by decide
    have hm3 : ("kholaw".toList == "kholaw".toList) = true := by decide
    simp only [walkPath, hm2, hm3, Bool.false_eq_true, if_false, if_true] at hw
    split at hw
    · rename_i o' hchild
      obtain ⟨zl, hz, hkL, hval, _⟩ := deriveChildKhoLaw_kL E hmac o o' _ hlt hlo
        (by omega) hchild
      have e224 : (2 : Nat) ^ 227 = 8 * 2 ^ 224 := by norm_num
      have := ih (m + 1) o' node g g' (by simp only [List.length_cons] at hm; omega)
        (by rw [hkL, length_toBytesLE]) (by rw [hkL]; exact toBytesLE_lt 32 _)
        (by rw [hval]; omega) (by rw [hval]; omega)
        (by rw [hval, Nat.add_mul, Nat.one_mul]; omega) hw
      simp only [List.length_cons]
      have e : m + 1 + rest.length = m + (rest.length + 1) := by omega
      rw [e] at this
      exact this
    · simp at hw
    · simp at hw
    · simp at hw
    · simp at hw

theorem sampleKholawChild_eq :
    walkPath refExt 5 ed25519Params "kholaw".toList [['4', '4', Char.ofNat 39]]
        sampleKholawRoot { k := none }
      = (Outcome.resolved sampleKholawChild, { k := none }) := by
  decide!

/-- C25: along a Kholaw derivation — a root returned by `rootKey(seed, curve,
'kholaw')`, then the nodes the path walker reaches — every `kL`, read as a
little-endian integer, is a multiple of 8 and at least `2^254`; the root is
below `2^254 + 2^253`; a node reached by a path of fewer than `2^26` segments is
below `2^254 + 2^253 + segments·2^227`, hence below `2^255`, 32 bytes long, and
its hex form has exactly 64 digits; each child adds `8·int_LE(ZL) < 2^227` to its
parent's `kL`, is 32 bytes long and has a hex form of exactly 64 digits. -/
theorem kholaw_kL_invariant (E : Ext) (hmac : E.hmacSHA512Ok) (curve : CurveParams)
    (fuel : Nat) (seed : Bytes) (segs : List Str) (root node : DerivationNode)
    (g g' : Globals)
    (hroot : rootKey E fuel seed (CurveLookup.params curve) "kholaw".toList
      = Outcome.resolved root)
    (hsegs : segs.length < 2 ^ 26)
    (hw : walkPath E fuel curve "kholaw".toList segs root g = (Outcome.resolved node, g')) :
    (leVal root.kL % 8 = 0 ∧ 2 ^ 254 ≤ leVal root.kL ∧ leVal root.kL < 2 ^ 254 + 2 ^ 253) ∧
      (node.kL.length = 32 ∧ leVal node.kL % 8 = 0 ∧ 2 ^ 254 ≤ leVal node.kL ∧
        leVal node.kL < 2 ^ 254 + 2 ^ 253 + segs.length * 2 ^ 227 ∧
        leVal node.kL < 2 ^ 255 ∧ (natToString 16 (leVal node.kL)).length = 64) ∧
      ∀ (child : DerivationNode) (i : JsNum),
        deriveChildKhoLaw E node i = Outcome.resolved (some child) →
        ∃ zl, zl < 2 ^ 224 ∧ 8 * zl < 2 ^ 227 ∧ leVal child.kL = leVal node.kL + 8 * zl ∧
          leVal child.kL % 8 = 0 ∧ child.kL.length = 32 ∧
          (natToString 16 (leVal child.kL)).length = 64 := by
  obtain ⟨out, b0, mid, b31, _, _, hmid, _, hb0, _, hmidlt, hkL, _⟩ :=
    rootKey_kholaw_bytes E hmac curve fuel seed root hroot
  obtain ⟨hlen, hlt, h8, hlo, hhi⟩ := clamped_leVal b0 b31 mid hmid hmidlt hb0
  rw [← hkL] at hlen hlt h8 hlo hhi
  obtain ⟨nlen, nlt, n8, nlo, nhi⟩ := walkPath_kholaw_kL E hmac curve fuel segs 0 root node g g'
    (by omega) hlen hlt h8 hlo (by simpa using hhi) hw
  have e253 : (2 : Nat) ^ 253 = 2 ^ 26 * 2 ^ 227 := by norm_num
  have e255 : (2 : Nat) ^ 255 = 2 ^ 254 + 2 ^ 253 + 2 ^ 253 := by norm_num
  have e256 : (2 : Nat) ^ 256 = 2 ^ 255 + 2 ^ 255 := by norm_num
  have e227 : (2 : Nat) ^ 227 = 8 * 2 ^ 224 := by norm_num
  have hsl : segs.length * 2 ^ 227 + 2 ^ 227 ≤ 2 ^ 26 * 2 ^ 227 := by
    have : (segs.length + 1) * 2 ^ 227 ≤ 2 ^ 26 * 2 ^ 227 := Nat.mul_le_mul_right _ (by omega)
    rw [Nat.add_mul, Nat.one_mul] at this
    exact this
  simp only [Nat.zero_add] at nhi
  have n255 : leVal node.kL < 2 ^ 255 := by omega
  have h252 : (2 : Nat) ^ 252 ≤ 2 ^ 254 := Nat.pow_le_pow_right (by decide) (by decide)
  refine ⟨⟨h8, hlo, hhi⟩, ⟨nlen, n8, nlo, nhi, n255, ?_⟩, ?_⟩
  · exact (natToString_eq_fixedDigits _ (by omega) (by omega)).2
  · intro child i hchild
    obtain ⟨zl, hz, hckL, hval, hdig⟩ := deriveChildKhoLaw_kL E hmac node child i nlt nlo
      (by omega) hchild
    refine ⟨zl, hz, by omega, hval, by omega, ?_, ?_⟩
    · rw [hckL, length_toBytesLE]
    · rw [hval]; exact hdig

theorem kholaw_kL_invariant_witness :
    refExt.hmacSHA512Ok ∧
      rootKey refExt 5 (List.replicate 64 7) (CurveLookup.params ed25519Params) "kholaw".toList
        = Outcome.resolved sampleKholawRoot ∧
      [['4', '4', Char.ofNat 39]].length < 2 ^ 26 ∧
      walkPath refExt 5 ed25519Params "kholaw".toList [['4', '4', Char.ofNat 39]]
          sampleKholawRoot { k := none }
        = (Outcome.resolved sampleKholawChild, { k := none }) ∧
      leVal sampleKholawChild.kL % 8 = 0 ∧ 2 ^ 254 ≤ leVal sampleKholawChild.kL ∧
      leVal sampleKholawChild.kL < 2 ^ 255 ∧
      (natToString 16 (leVal sampleKholawChild.kL)).length = 64 :=
  ⟨refExt_hmacSHA512Ok, sampleKholawRoot_eq, by decide, sampleKholawChild_eq,
    let ⟨_, ⟨_, h8, hlo, _, h255, hdig⟩, _⟩ :=
      kholaw_kL_invariant refExt refExt_hmacSHA512Ok ed25519Params 5 (List.replicate 64 7)
        [['4', '4', Char.ofNat 39]] sampleKholawRoot sampleKholawChild { k := none }
        { k := none } sampleKholawRoot_eq (by decide) sampleKholawChild_eq
    ⟨h8, hlo, h255, hdig⟩⟩

/-! ## Words, blanks and the word table -/

theorem letter_toNat (c : Char) (h : 'a' ≤ c ∧ c ≤ 'z') : 97 ≤ c.toNat ∧ c.toNat ≤ 122 := by
  obtain ⟨h1, h2⟩ := h
  rw [Char.le_def] at h1 h2
  exact ⟨h1, h2⟩

theorem letter_props (c : Char) (h : 'a' ≤ c ∧ c ≤ 'z') :
    isJsSpace c = false ∧ c.toLower = c ∧ c ≠ ' ' ∧ c.toNat < 128 := by
  have hn := letter_toNat c h
  refine ⟨?_, ?_, ?_, by omega⟩
  · simp only [isJsSpace]
    have : ∀ n : Nat, 97 ≤ n → n ≤ 122 →
        (decide (n = 32) || (decide (9 ≤ n) && decide (n ≤ 13)) || decide (n = 160) ||
          decide (n = 5760) || (decide (8192 ≤ n) && decide (n ≤ 8202)) || decide (n = 8232) ||
          decide (n = 8233) || decide (n = 8239) || decide (n = 8287) || decide (n = 12288) ||
          decide (n = 65279)) = false := by
      intro n h1 h2
      simp
      omega
    exact this c.toNat hn.1 hn.2
  · simp only [Char.toLower]
    have : ¬ (c.toNat ≥ 65 ∧ c.toNat ≤ 90) := by omega
    rw [if_neg this]
  · intro hc
    rw [hc] at hn
    have : (' ' : Char).toNat = 32 := rfl
    omega

theorem splitOn_ne_nil (sep : Char) : ∀ s : Str, splitOn sep s ≠ [] := by
  intro s
  induction s with
  | nil => simp [splitOn]
  | cons c cs ih =>
    rw [splitOn]
    split
    · simp
    · split <;> simp

theorem splitOn_word (w : Str) (h : ' ' ∉ w) : splitOn ' ' w = [w] := by
  induction w with
  | nil => rfl
  | cons c cs ih =>
    have hc : c ≠ ' ' := fun e => h (by rw [e]; exact List.mem_cons_self _ _)
    have hcs : ' ' ∉ cs := fun e => h (List.mem_cons_of_mem _ e)
    rw [splitOn, ih hcs]
    simp [hc]

theorem splitOn_word_blank (w rest : Str) (h : ' ' ∉ w) :
    splitOn ' ' (w ++ ' ' :: rest) = w :: splitOn ' ' rest := by
  induction w with
  | nil =>
    rw [List.nil_append, splitOn]
    cases hs : splitOn ' ' rest with
    | nil => exact absurd hs (splitOn_ne_nil ' ' rest)
    | cons x xs => simp
  | cons c cs ih =>
    have hc : c ≠ ' ' := fun e => h (by rw [e]; exact List.mem_cons_self _ _)
    have hcs : ' ' ∉ cs := fun e => h (List.mem_cons_of_mem _ e)
    rw [List.cons_append, splitOn, ih hcs]
    simp [hc]

theorem splitOn_joinWith : ∀ ws : List Str, ws ≠ [] → (∀ w ∈ ws, ' ' ∉ w) →
    splitOn ' ' (joinWith ' ' ws) = ws
  | [], h, _ => absurd rfl h
  | [w], _, hw => by
    rw [joinWith, splitOn_word w (hw w (List.mem_singleton_self w))]
  | w :: w2 :: ws, _, hw => by
    rw [joinWith, splitOn_word_blank w _ (hw w (List.mem_cons_self _ _)),
      splitOn_joinWith (w2 :: ws) (by simp) (fun x hx => hw x (List.mem_cons_of_mem _ hx))]

theorem mem_joinWith : ∀ (ws : List Str) (c : Char), c ∈ joinWith ' ' ws →
    c = ' ' ∨ ∃ w ∈ ws, c ∈ w
  | [], c, h => by simp [joinWith] at h
  | [w], c, h => by
    rw [joinWith] at h
    exact Or.inr ⟨w, List.mem_singleton_self w, h⟩
  | w :: w2 :: ws, c, h => by
    rw [joinWith, List.mem_append, List.mem_cons] at h
    rcases h with h | h | h
    · exact Or.inr ⟨w, List.mem_cons_self _ _, h⟩
    · exact Or.inl h
    · rcases mem_joinWith (w2 :: ws) c h with h' | ⟨x, hx, hc⟩
      · exact Or.inl h'
      · exact Or.inr ⟨x, List.mem_cons_of_mem _ hx, hc⟩

theorem head?_joinWith : ∀ (ws : List Str) (w : Str) (c : Char) (cs : Str),
    ws.head? = some w → w = c :: cs → (joinWith ' ' ws).head? = some c
  | [], _, _, _, h, _ => by simp at h
  | [w], _, c, cs, h, hw => by
    simp only [List.head?_cons, Option.some.injEq] at h
    rw [joinWith, h, hw]; rfl
  | w :: w2 :: ws, _, c, cs, h, hw => by
    simp only [List.head?_cons, Option.some.injEq] at h
    rw [joinWith, h, hw]; rfl

theorem getLast?_joinWith : ∀ (ws : List Str) (w : Str) (c : Char),
    ws.getLast? = some w → w.getLast? = some c → (joinWith ' ' ws).getLast? = some c
  | [], _, _, h, _ => by simp at h
  | [w], _, c, h, hw => by
    simp only [List.getLast?_singleton, Option.some.injEq] at h
    rw [joinWith, h, hw]
  | w :: w2 :: ws, x, c, h, hw => by
    rw [List.getLast?_cons_cons] at h
    have ih := getLast?_joinWith (w2 :: ws) x c h hw
    rw [joinWith, List.getLast?_append, List.getLast?_cons, ih]
    rfl

theorem dropWhile_head (p : Char → Bool) (s : Str) (c : Char) (h : s.head? = some c)
    (hp : p c = false) : s.dropWhile p = s := by
  cases s with
  | nil => rfl
  | cons a as =>
    simp only [List.head?_cons, Option.some.injEq] at h
    rw [List.dropWhile_cons, h, hp]
    simp

theorem trim_of_ends (s : Str) (a b : Char) (ha : s.head? = some a) (hb : s.getLast? = some b)
    (hpa : isJsSpace a = false) (hpb : isJsSpace b = false) : trim s = s := by
  rw [trim, dropWhile_head isJsSpace s a ha hpa,
    dropWhile_head isJsSpace s.reverse b (by rw [List.head?_reverse]; exact hb) hpb,
    List.reverse_reverse]

theorem normalize_join (E : Ext) (hn : E.nfkdOk) (ws : List Str) (hne : ws ≠ [])
    (hw : ∀ w ∈ ws, w ≠ [] ∧ ∀ c ∈ w, 'a' ≤ c ∧ c ≤ 'z') :
    splitOn ' ' (E.nfkd (toLowerCase (trim (joinWith ' ' ws)))) = ws := by
  have hchars : ∀ c ∈ joinWith ' ' ws, c = ' ' ∨ ('a' ≤ c ∧ c ≤ 'z') := by
    intro c hc
    rcases mem_joinWith ws c hc with h | ⟨w, hwm, hcw⟩
    · exact Or.inl h
    · exact Or.inr ((hw w hwm).2 c hcw)
  have htrim : trim (joinWith ' ' ws) = joinWith ' ' ws := by
    obtain ⟨w0, hw0⟩ : ∃ w0, ws.head? = some w0 := by
      cases ws with
      | nil => exact absurd rfl hne
      | cons a _ => exact ⟨a, rfl⟩
    obtain ⟨w1, hw1⟩ : ∃ w1, ws.getLast? = some w1 := by
      cases h : ws.getLast? with
      | none => exact absurd (List.getLast?_eq_none_iff.mp h) hne
      | some a => exact ⟨a, rfl⟩
    have hm0 : w0 ∈ ws := List.mem_of_mem_head? hw0
    have hm1 : w1 ∈ ws := List.mem_of_mem_getLast? hw1
    obtain ⟨c0, cs0, hc0⟩ : ∃ c cs, w0 = c :: cs := by
      cases w0 with
      | nil => exact absurd rfl (hw _ hm0).1
      | cons c cs => exact ⟨c, cs, rfl⟩
    obtain ⟨c1, hc1⟩ : ∃ c, w1.getLast? = some c := by
      cases h : w1.getLast? with
      | none => exact absurd (List.getLast?_eq_none_iff.mp h) (hw _ hm1).1
      | some a => exact ⟨a, rfl⟩
    have hl0 := (hw _ hm0).2 c0 (by rw [hc0]; exact List.mem_cons_self _ _)
    have hl1 := (hw _ hm1).2 c1 (List.mem_of_mem_getLast? hc1)
    exact trim_of_ends _ c0 c1 (head?_joinWith ws w0 c0 cs0 hw0 hc0)
      (getLast?_joinWith ws w1 c1 hw1 hc1) (letter_props c0 hl0).1 (letter_props c1 hl1).1
  have hlow : toLowerCase (joinWith ' ' ws) = joinWith ' ' ws := by
    rw [toLowerCase]
    conv_rhs => rw [← List.map_id (joinWith ' ' ws)]
    apply List.map_congr_left
    intro c hc
    rcases hchars c hc with h | h
    · rw [h]; rfl
    · exact (letter_props c h).2.1
  have hascii : ∀ c ∈ joinWith ' ' ws, c.toNat < 128 := by
    intro c hc
    rcases hchars c hc with h | h
    · rw [h]; decide
    · exact (letter_props c h).2.2.2
  rw [htrim, hlow, hn _ hascii]
  apply splitOn_joinWith ws hne
  intro w hwm hsp
  exact (letter_props ' ' ((hw w hwm).2 ' ' hsp)).2.2.1 rfl

theorem table_get (E : Ext) (hE : E.wordsOk) (i j : Nat) (wi wj : Str)
    (hi : E.bip39words.get? i = some wi) (hj : E.bip39words.get? j = some wj)
    (h : wi = wj) : i = j :=
  hE.2.2 i j wi wj hi hj (by rw [h])

theorem findByFour_table (E : Ext) (hE : E.wordsOk) (i : Nat) (w : Str)
    (hw : E.bip39words.get? i = some w) : findByFour E w = some w := by
  rw [findByFour]
  cases hf : E.bip39words.find? (fun bw => substr 0 4 bw == substr 0 4 w) with
  | none =>
    have := List.find?_eq_none.mp hf w (List.get?_mem hw)
    simp at this
  | some x =>
    have hp := List.find?_some hf
    have hx := List.mem_of_find?_eq_some hf
    obtain ⟨j, hj⟩ := List.get?_of_mem hx
    have hij := hE.2.2 j i x w hj hw (by simpa using hp)
    rw [hij, hw] at hj
    rw [← Option.some.inj hj]

theorem findIdx?_first {α : Type} (p : α → Bool) : ∀ (l : List α) (i : Nat) (x : α),
    l.get? i = some x → p x = true → (∀ j y, j < i → l.get? j = some y → p y = false) →
    l.findIdx? p = some i := by
  intro l
  induction l with
  | nil => intro i x h; simp at h
  | cons a as ih =>
    intro i x hx hp hfirst
    cases i with
    | zero =>
      simp only [List.get?_cons_zero, Option.some.injEq] at hx
      rw [List.findIdx?_cons, hx, hp]
      rfl
    | succ i =>
      have ha : p a = false := hfirst 0 a (by omega) rfl
      rw [List.findIdx?_cons, ha]
      simp only [Bool.false_eq_true, if_false]
      rw [List.findIdx?_succ, ih i x (by simpa using hx) hp
        (fun j y hj hy => hfirst (j + 1) y (by omega) (by simpa using hy))]
      rfl

theorem findIndex_table (E : Ext) (hE : E.wordsOk) (i : Nat) (w : Str)
    (hw : E.bip39words.get? i = some w) : findIndex E (some w) = (i : Int) := by
  have h := findIdx?_first (fun bw => bw == w) E.bip39words i w hw (by simp)
    (by
      intro j y hj hy
      by_contra hc
      have hyw : y = w := by simpa using hc
      have := table_get E hE j i y w hy hw hyw
      omega)
  simp only [findIndex, h]

/-! ## Groups of binary digits -/

theorem chunksOf_nil (n fuel : Nat) : chunksOf n fuel [] = [] := by
  cases fuel <;> simp [chunksOf]

theorem chunksOf_fuel (n : Nat) (hn : 0 < n) : ∀ (fuel : Nat) (s : Str), s.length ≤ fuel →
    ∀ fuel', s.length ≤ fuel' → chunksOf n fuel s = chunksOf n fuel' s := by
  intro fuel
  induction fuel with
  | zero =>
    intro s hs fuel' _
    have : s = [] := List.length_eq_zero.mp (by omega)
    subst this
    rw [chunksOf_nil, chunksOf_nil]
  | succ fuel ih =>
    intro s hs fuel' hs'
    by_cases h0 : s = []
    · subst h0; rw [chunksOf_nil, chunksOf_nil]
    · have hpos : 0 < s.length := List.length_pos.mpr h0
      cases fuel' with
      | zero => omega
      | succ fuel' =>
        rw [chunksOf, chunksOf, if_neg h0, if_neg h0,
          ih (s.drop n) (by rw [List.length_drop]; omega) fuel'
            (by rw [List.length_drop]; omega)]

theorem chunksOf_append (n : Nat) (hn : 0 < n) (g t : Str) (hg : g.length = n) (fuel : Nat)
    (hf : (g ++ t).length ≤ fuel) :
    chunksOf n fuel (g ++ t) = g :: chunksOf n fuel t := by
  cases fuel with
  | zero =>
    rw [List.length_append] at hf
    omega
  | succ fuel =>
    have hne : g ++ t ≠ [] := by
      intro h
      have hg0 : g = [] := (List.append_eq_nil.mp h).1
      rw [hg0] at hg
      simp at hg
      omega
    rw [chunksOf, if_neg hne, List.take_left' hg, List.drop_left' hg]
    rw [List.length_append] at hf
    rw [chunksOf_fuel n hn fuel t (by omega) (fuel + 1) (by omega)]

theorem chunksOf_flatMap {α : Type} (n : Nat) (hn : 0 < n) (f : α → Str) :
    ∀ (xs : List α) (t : Str) (fuel : Nat), (∀ x ∈ xs, (f x).length = n) →
      (xs.flatMap f ++ t).length ≤ fuel →
      chunksOf n fuel (xs.flatMap f ++ t) = xs.map f ++ chunksOf n fuel t := by
  intro xs
  induction xs with
  | nil => intro t fuel _ _; rfl
  | cons x xs ih =>
    intro t fuel hf hl
    have hx := hf x (List.mem_cons_self _ _)
    rw [List.flatMap_cons, List.append_assoc] at hl ⊢
    rw [chunksOf_append n hn (f x) _ hx fuel hl,
      ih t fuel (fun y hy => hf y (List.mem_cons_of_mem _ hy))
        (by rw [List.length_append] at hl; omega)]
    rfl

theorem parse_fixedDigits (n x : Nat) :
    (parseIntRadix 2 (fixedDigits 2 n x)).getD 0 = x % 2 ^ n := by
  cases n with
  | zero => simp [fixedDigits, parseIntRadix, parseDigits, Nat.mod_one]
  | succ n =>
    rw [parseIntRadix, parseDigits_fixedDigits_none 2 (by decide) (by decide) n x]
    rfl

theorem bits2uintN_flatMap (n : Nat) (hn : 0 < n) (xs : List Nat) (t : Str) :
    bits2uintN n (xs.flatMap (fixedDigits 2 n) ++ t)
      = xs.map (fun x => x % 2 ^ n) ++ bits2uintN n t := by
  rw [bits2uintN, chunksOf_flatMap n hn _ xs t _ (fun x _ => length_fixedDigits 2 n x)
    (Nat.le_refl _), List.map_append, List.map_map, bits2uintN]
  congr 1
  · apply List.map_congr_left
    intro x _
    exact parse_fixedDigits n x
  · rw [chunksOf_fuel n hn _ t (by rw [List.length_append]; omega) t.length (Nat.le_refl _)]

theorem fixedDigits_parse (g : Str) (h : ∀ c ∈ g, c = '0' ∨ c = '1') :
    fixedDigits 2 g.length ((parseIntRadix 2 g).getD 0) = g := by
  induction g using List.reverseRecOn with
  | nil => rfl
  | append_singleton g c ih =>
    have hg : ∀ c ∈ g, c = '0' ∨ c = '1' := fun x hx => h x (List.mem_append_left _ hx)
    have hc : c = '0' ∨ c = '1' := h c (by simp)
    have hvalid : ∀ x ∈ g, ∃ d, hexVal x = some d ∧ d < 2 := by
      intro x hx
      rcases hg x hx with e | e
      · exact ⟨0, by rw [e]; rfl, by decide⟩
      · exact ⟨1, by rw [e]; rfl, by decide⟩
    have ih' := ih hg
    rw [parseIntRadix, parseDigits_append 2 g [c] hvalid none, List.length_append,
      List.length_singleton, fixedDigits]
    rw [parseIntRadix] at ih'
    rcases hc with e | e
    · subst e
      have : parseDigits 2 ['0'] (parseDigits 2 g none)
          = some ((parseDigits 2 g none).getD 0 * 2 + 0) := rfl
      rw [this, Option.getD_some]
      have e1 : ((parseDigits 2 g none).getD 0 * 2 + 0) / 2 = (parseDigits 2 g none).getD 0 := by
        omega
      have e2 : ((parseDigits 2 g none).getD 0 * 2 + 0) % 2 = 0 := by omega
      rw [e1, e2, ih']
      rfl
    · subst e
      have : parseDigits 2 ['1'] (parseDigits 2 g none)
          = some ((parseDigits 2 g none).getD 0 * 2 + 1) := rfl
      rw [this, Option.getD_some]
      have e1 : ((parseDigits 2 g none).getD 0 * 2 + 1) / 2 = (parseDigits 2 g none).getD 0 := by
        omega
      have e2 : ((parseDigits 2 g none).getD 0 * 2 + 1) % 2 = 1 := by omega
      rw [e1, e2, ih']
      rfl

theorem binary_groups (n : Nat) (hn : 0 < n) : ∀ (k : Nat) (B : Str),
    B.length = k * n → (∀ c ∈ B, c = '0' ∨ c = '1') →
    (bits2uintN n B).flatMap (fixedDigits 2 n) = B ∧ (bits2uintN n B).length = k ∧
      ∀ x ∈ bits2uintN n B, x < 2 ^ n := by
  intro k
  induction k with
  | zero =>
    intro B hB _
    have : B = [] := List.length_eq_zero.mp (by simpa using hB)
    subst this
    simp [bits2uintN, chunksOf_nil]
  | succ k ih =>
    intro B hB hbin
    have hsplit : B = B.take n ++ B.drop n := (List.take_append_drop n B).symm
    have hlt : (B.take n).length = n := by
      rw [List.length_take, hB, Nat.succ_mul]; omega
    have hld : (B.drop n).length = k * n := by
      rw [List.length_drop, hB, Nat.succ_mul]; omega
    have hbt : ∀ c ∈ B.take n, c = '0' ∨ c = '1' := fun c hc => hbin c (List.mem_of_mem_take hc)
    have hbd : ∀ c ∈ B.drop n, c = '0' ∨ c = '1' := fun c hc => hbin c (List.mem_of_mem_drop hc)
    obtain ⟨ih1, ih2, ih3⟩ := ih (B.drop n) hld hbd
    have hfix := fixedDigits_parse (B.take n) hbt
    rw [hlt] at hfix
    have hone : bits2uintN n B
        = (parseIntRadix 2 (B.take n)).getD 0 :: bits2uintN n (B.drop n) := by
      conv_lhs => rw [hsplit, ← hfix]
      have := bits2uintN_flatMap n hn [(parseIntRadix 2 (B.take n)).getD 0] (B.drop n)
      simp only [List.flatMap_cons, List.flatMap_nil, List.append_nil, List.map_cons,
        List.map_nil, List.singleton_append] at this
      rw [this]
      congr 1
      apply Nat.mod_eq_of_lt
      have := parseIntRadix_two_lt (B.take n)
      rw [hlt] at this
      exact this
    rw [hone]
    refine ⟨?_, by simp [ih2], ?_⟩
    · rw [List.flatMap_cons, hfix, ih1, List.take_append_drop]
    · intro x hx
      rcases List.mem_cons.mp hx with h | h
      · rw [h]
        have := parseIntRadix_two_lt (B.take n)
        rw [hlt] at this
        exact this
      · exact ih3 x h

/-! ## Parsing the words of an entropy -/

theorem uintN2bits_nat (n : Nat) (xs : List Nat) (h : ∀ x ∈ xs, x < 2 ^ (n + 1)) :
    uintN2bits (n + 1) (xs.map Int.ofNat) = xs.flatMap (fixedDigits 2 (n + 1)) := by
  rw [uintN2bits, List.flatMap_map]
  apply List.flatMap_congr
  intro x hx
  have : intToString 2 (Int.ofNat x) = natToString 2 x := by
    simp [intToString]
  rw [this]
  exact padStart_natToString 2 (by decide) n x (h x hx)

theorem bits2hex_bitsOfBytes (bs : Bytes) (h : ∀ b ∈ bs, b < 256) :
    bits2hex (bitsOfBytes bs) = bytesToHex bs := by
  have h1 : bits2hex (bitsOfBytes bs) = bytesToHex (bits2uintN 8 (bitsOfBytes bs)) := by
    rw [bits2hex, bytesToHex, bits2uintN, List.flatMap_map]
  have h2 := bits2uintN_flatMap 8 (by decide) bs []
  rw [List.append_nil] at h2
  have h3 : bits2uintN 8 [] = [] := rfl
  rw [h1, bitsOfBytes, h2, h3, List.append_nil]
  congr 1
  conv_rhs => rw [← List.map_id bs]
  apply List.map_congr_left
  intro b hb
  exact Nat.mod_eq_of_lt (h b hb)

theorem wordAt_table (E : Ext) (hE : E.wordsOk) (x : Nat) (hx : x < 2048) :
    ∃ w, wordAt E x = some w ∧ E.bip39words.get? x = some w ∧
      w ≠ [] ∧ ∀ c ∈ w, 'a' ≤ c ∧ c ≤ 'z' := by
  have hl : x < E.bip39words.length := by rw [hE.1]; exact hx
  refine ⟨E.bip39words.get ⟨x, hl⟩, ?_, List.get?_eq_get hl, ?_⟩
  · rw [wordAt, List.get?_eq_get hl]
  · exact hE.2.1 _ (List.get_mem _ _ _)

theorem parseMnemonic_table (E : Ext) (hE : E.wordsOk) (hn : E.nfkdOk) (nums : List Nat)
    (hne : nums ≠ []) (hnums : ∀ x ∈ nums, x < 2048) :
    (parseMnemonic E (joinWords ' ' (nums.map (wordAt E)))).words = nums.map (wordAt E) ∧
      (parseMnemonic E (joinWords ' ' (nums.map (wordAt E)))).mnemonic
        = joinWords ' ' (nums.map (wordAt E)) ∧
      (parseMnemonic E (joinWords ' ' (nums.map (wordAt E)))).checkbits
        = substrLast ((nums.flatMap (fixedDigits 2 11)).length % 32)
            (nums.flatMap (fixedDigits 2 11)) ∧
      (parseMnemonic E (joinWords ' ' (nums.map (wordAt E)))).valid
        = (substrLast ((nums.flatMap (fixedDigits 2 11)).length % 32)
              (nums.flatMap (fixedDigits 2 11))
            == entCheckBits E
              (bits2hex (substr 0 ((nums.flatMap (fixedDigits 2 11)).length
                - (nums.flatMap (fixedDigits 2 11)).length % 32)
                (nums.flatMap (fixedDigits 2 11))))
              ((nums.flatMap (fixedDigits 2 11)).length % 32)) := by
  have hstr : (nums.map (wordAt E)).map (fun w => w.getD [])
      = nums.map (fun x => (wordAt E x).getD []) := by
    rw [List.map_map]; rfl
  have hsplit : splitOn ' ' (E.nfkd (toLowerCase (trim (joinWords ' ' (nums.map (wordAt E))))))
      = nums.map (fun x => (wordAt E x).getD []) := by
    rw [joinWords, hstr]
    apply normalize_join E hn
    · intro h
      exact hne (List.map_eq_nil_iff.mp h)
    · intro w hw
      rw [List.mem_map] at hw
      obtain ⟨x, hx, hxw⟩ := hw
      obtain ⟨w', hw1, _, hw3⟩ := wordAt_table E hE x (hnums x hx)
      rw [← hxw, hw1]
      exact hw3
  have hwords : (nums.map (fun x => (wordAt E x).getD [])).map (findByFour E)
      = nums.map (wordAt E) := by
    rw [List.map_map]
    apply List.map_congr_left
    intro x hx
    obtain ⟨w', hw1, hw2, _⟩ := wordAt_table E hE x (hnums x hx)
    simp only [Function.comp, hw1, Option.getD_some]
    exact findByFour_table E hE x w' hw2
  have hidx : (nums.map (wordAt E)).map (findIndex E) = nums.map Int.ofNat := by
    rw [List.map_map]
    apply List.map_congr_left
    intro x hx
    obtain ⟨w', hw1, hw2, _⟩ := wordAt_table E hE x (hnums x hx)
    simp only [Function.comp, hw1]
    exact findIndex_table E hE x w' hw2
  have hbits : uintN2bits 11 (nums.map Int.ofNat) = nums.flatMap (fixedDigits 2 11) :=
    uintN2bits_nat 10 nums hnums
  simp only [parseMnemonic, hsplit, hwords, hidx, hbits, and_self, true_and]

theorem ent2bip39words_eq (E : Ext) (ent : Bytes) (h : ∀ b ∈ ent, b < 256) (cs : Nat)
    (hlen : ent.length = 4 * cs) :
    ent2bip39words E (bytesToHex ent)
      = (bits2uintN 11 (bitsOfBytes ent ++ entCheckBits E (bytesToHex ent) cs)).map
          (wordAt E) := by
  have hlen2 : (bytesToHex ent).length = 8 * cs := by
    rw [length_bytesToHex ent h, hlen]; omega
  have hcs2 : (bytesToHex ent).length * 8 / 2 / 32 = cs := by
    rw [hlen2]; omega
  have hb : (bitsOfBytes ent).length ≤ (bytesToHex ent).length * 8 / 2 + cs := by
    rw [length_bitsOfBytes, hlen2, hlen]; omega
  simp only [ent2bip39words, hcs2, hex2bits_bytesToHex ent h, numsToWords_eq_map]
  rw [substr, List.drop_zero, List.take_of_length_le hb]

theorem parseMnemonic_entropy (E : Ext) (hE : E.wordsOk) (hn : E.nfkdOk) (hsha : E.sha256Ok)
    (ent : Bytes) (h : ∀ b ∈ ent, b < 256) (cs : Nat) (hlen : ent.length = 4 * cs)
    (hcs1 : 1 ≤ cs) (hcs8 : cs ≤ 8) :
    (parseMnemonic E (joinWords ' ' (ent2bip39words E (bytesToHex ent)))).words
        = ent2bip39words E (bytesToHex ent) ∧
      (parseMnemonic E (joinWords ' ' (ent2bip39words E (bytesToHex ent)))).mnemonic
        = joinWords ' ' (ent2bip39words E (bytesToHex ent)) ∧
      (parseMnemonic E (joinWords ' ' (ent2bip39words E (bytesToHex ent)))).checkbits
        = (bitsOfBytes (E.sha256 ent)).take cs ∧
      (parseMnemonic E (joinWords ' ' (ent2bip39words E (bytesToHex ent)))).valid = true ∧
      uintN2bits 11 ((ent2bip39words E (bytesToHex ent)).map (findIndex E))
        = bitsOfBytes ent ++ (bitsOfBytes (E.sha256 ent)).take cs := by
  have hchk := entCheckBits_eq E hsha ent h cs hcs8
  have hchkl : ((bitsOfBytes (E.sha256 ent)).take cs).length = cs := by
    rw [List.length_take, length_bitsOfBytes, (hsha ent).1]; omega
  have hBl : (bitsOfBytes ent ++ (bitsOfBytes (E.sha256 ent)).take cs).length = 3 * cs * 11 := by
    rw [List.length_append, length_bitsOfBytes, hchkl, hlen]; omega
  have hBbin : ∀ c ∈ bitsOfBytes ent ++ (bitsOfBytes (E.sha256 ent)).take cs,
      c = '0' ∨ c = '1' := by
    intro c hc
    rcases List.mem_append.mp hc with h1 | h1
    · exact bitsOfBytes_binary _ c h1
    · exact bitsOfBytes_binary _ c (List.mem_of_mem_take h1)
  obtain ⟨g1, g2, g3⟩ := binary_groups 11 (by decide) (3 * cs) _ hBl hBbin
  have he := ent2bip39words_eq E ent h cs hlen
  rw [hchk] at he
  have hne : bits2uintN 11 (bitsOfBytes ent ++ (bitsOfBytes (E.sha256 ent)).take cs) ≠ [] := by
    intro h0
    rw [h0] at g2
    simp at g2
    omega
  obtain ⟨p1, p2, p3, p4⟩ := parseMnemonic_table E hE hn _ hne g3
  rw [g1] at p3 p4
  have hcs : (bitsOfBytes ent ++ (bitsOfBytes (E.sha256 ent)).take cs).length % 32 = cs := by
    rw [hBl]; omega
  rw [hcs] at p3 p4
  have hlast : substrLast cs (bitsOfBytes ent ++ (bitsOfBytes (E.sha256 ent)).take cs)
      = (bitsOfBytes (E.sha256 ent)).take cs :=
    substrLast_append _ _ cs hchkl (by omega)
  have hfirst : substr 0 ((bitsOfBytes ent ++ (bitsOfBytes (E.sha256 ent)).take cs).length - cs)
      (bitsOfBytes ent ++ (bitsOfBytes (E.sha256 ent)).take cs) = bitsOfBytes ent := by
    rw [substr, List.drop_zero, List.length_append, hchkl, Nat.add_sub_cancel,
      List.take_left]
  rw [hlast, hfirst, bits2hex_bitsOfBytes ent h, hchk] at p4
  rw [hlast] at p3
  rw [he]
  refine ⟨p1, p2, p3, by rw [p4]; simp, ?_⟩
  rw [List.map_map]
  have hidx : (bits2uintN 11 (bitsOfBytes ent ++ (bitsOfBytes (E.sha256 ent)).take cs)).map
      (findIndex E ∘ wordAt E)
      = (bits2uintN 11 (bitsOfBytes ent ++ (bitsOfBytes (E.sha256 ent)).take cs)).map
          Int.ofNat := by
    apply List.map_congr_left
    intro x hx
    obtain ⟨w', hw1, hw2, _⟩ := wordAt_table E hE x (g3 x hx)
    simp only [Function.comp, hw1]
    exact findIndex_table E hE x w' hw2
  rw [hidx, uintN2bits_nat 10 _ g3, g1]

/-! ## The test mnemonics -/

theorem flatten_replicate_blank (w : Str) : ∀ k : Nat,
    List.flatten (List.replicate (k + 1) (w ++ [' ']))
      = joinWith ' ' (List.replicate (k + 1) w) ++ [' ']
  | 0 => by simp [List.replicate, joinWith]
  | k + 1 => by
    have ih := flatten_replicate_blank w k
    rw [List.replicate_succ, List.flatten_cons, ih, List.replicate_succ (n := k + 1),
      List.replicate_succ (n := k), joinWith]
    simp

theorem trim_append_blank (s : Str) (a b : Char) (ha : s.head? = some a)
    (hb : s.getLast? = some b) (hpa : isJsSpace a = false) (hpb : isJsSpace b = false) :
    trim (s ++ [' ']) = s := by
  have h1 : (s ++ [' ']).head? = some a := by
    cases s with
    | nil => simp at ha
    | cons c cs => simpa using ha
  rw [trim, dropWhile_head isJsSpace _ a h1 hpa, List.reverse_append, List.reverse_singleton,
    List.singleton_append, List.dropWhile_cons]
  have h2 : isJsSpace ' ' = true := by decide
  rw [h2]
  simp only [if_true]
  rw [dropWhile_head isJsSpace s.reverse b (by rw [List.head?_reverse]; exact hb) hpb,
    List.reverse_reverse]

theorem bits2hex_eq (bits : Str) : bits2hex bits = bytesToHex (bits2uintN 8 bits) := by
  rw [bits2hex, bytesToHex, bits2uintN, List.flatMap_map]

theorem flatMap_replicate_succ (n i : Nat) (k : Nat) :
    (List.replicate (k + 1) i).flatMap (fixedDigits 2 n)
      = (List.replicate k i).flatMap (fixedDigits 2 n) ++ fixedDigits 2 n i := by
  rw [List.replicate_succ', List.flatMap_append]
  simp

theorem length_flatMap_replicate (n i k : Nat) :
    ((List.replicate k i).flatMap (fixedDigits 2 n)).length = k * n := by
  induction k with
  | zero => simp
  | succ k ih =>
    rw [flatMap_replicate_succ, List.length_append, ih, length_fixedDigits, Nat.succ_mul]

theorem flatMap_fixedDigits_binary (n : Nat) (xs : List Nat) :
    ∀ c ∈ xs.flatMap (fixedDigits 2 n), c = '0' ∨ c = '1' := by
  intro c hc
  rw [List.mem_flatMap] at hc
  obtain ⟨x, _, h⟩ := hc
  exact fixedDigits_binary n x c h

theorem testMnemonicWords_entropy (E : Ext) (hE : E.wordsOk) (hn : E.nfkdOk) (i : Nat)
    (w : Str) (hw : E.bip39words.get? i = some w) (cs : Nat) (hcs1 : 1 ≤ cs) (hcs8 : cs ≤ 8) :
    ∃ ent : Bytes, ent.length = 4 * cs ∧ (∀ b ∈ ent, b < 256) ∧
      bitsOfBytes ent = (List.replicate (3 * cs - 1) i).flatMap (fixedDigits 2 11)
        ++ (fixedDigits 2 11 i).take (11 - cs) ∧
      testMnemonicWords E w (3 * cs) = ent2bip39words E (bytesToHex ent) := by
  have hmem : w ∈ E.bip39words := List.get?_mem hw
  have hi : i < 2048 := by
    have := List.get?_eq_some.mp hw
    obtain ⟨hlt, _⟩ := this
    rw [hE.1] at hlt
    exact hlt
  obtain ⟨hwne, hwl⟩ := hE.2.1 w hmem
  obtain ⟨c0, cs0, hc0⟩ : ∃ c cs', w = c :: cs' := by
    cases w with
    | nil => exact absurd rfl hwne
    | cons c cs' => exact ⟨c, cs', rfl⟩
  obtain ⟨c1, hc1⟩ : ∃ c, w.getLast? = some c := by
    cases h : w.getLast? with
    | none => exact absurd (List.getLast?_eq_none_iff.mp h) hwne
    | some a => exact ⟨a, rfl⟩
  have hl0 := hwl c0 (by rw [hc0]; exact List.mem_cons_self _ _)
  have hl1 := hwl c1 (List.mem_of_mem_getLast? hc1)
  have htw : trim w = w :=
    trim_of_ends w c0 c1 (by rw [hc0]; rfl) hc1 (letter_props c0 hl0).1 (letter_props c1 hl1).1
  obtain ⟨k, hk⟩ : ∃ k, 3 * cs = k + 1 := ⟨3 * cs - 1, by omega⟩
  have hrep : List.replicate (k + 1) w ≠ [] := by simp
  have hdummy : trim (List.flatten (List.replicate (3 * cs) (trim w ++ [' '])))
      = joinWith ' ' (List.replicate (k + 1) w) := by
    rw [htw, hk, flatten_replicate_blank w k]
    exact trim_append_blank _ c0 c1
      (head?_joinWith _ w c0 cs0 (by simp [List.replicate_succ]) hc0)
      (getLast?_joinWith _ w c1 (by simp [List.getLast?_replicate]) hc1)
      (letter_props c0 hl0).1 (letter_props c1 hl1).1
  have hsplit : splitOn ' ' (E.nfkd (toLowerCase (trim (joinWith ' ' (List.replicate (k + 1) w)))))
      = List.replicate (k + 1) w :=
    normalize_join E hn _ hrep (fun x hx => by
      rw [List.eq_of_mem_replicate hx]; exact ⟨hwne, hwl⟩)
  have hwords : (List.replicate (k + 1) w).map (findByFour E)
      = List.replicate (k + 1) (some w) := by
    rw [List.map_replicate, findByFour_table E hE i w hw]
  have hidx : (List.replicate (k + 1) (some w)).map (findIndex E)
      = (List.replicate (k + 1) i).map Int.ofNat := by
    rw [List.map_replicate, List.map_replicate, findIndex_table E hE i w hw]
    rfl
  have hbits : uintN2bits 11 ((List.replicate (k + 1) i).map Int.ofNat)
      = (List.replicate (k + 1) i).flatMap (fixedDigits 2 11) :=
    uintN2bits_nat 10 _ (fun x hx => by rw [List.eq_of_mem_replicate hx]; exact hi)
  have hlenR : ((List.replicate (k + 1) i).flatMap (fixedDigits 2 11)).length = 33 * cs := by
    rw [length_flatMap_replicate, ← hk]; omega
  have hcs : 33 * cs % 32 = cs := by omega
  have htake : substr 0 (33 * cs - cs) ((List.replicate (k + 1) i).flatMap (fixedDigits 2 11))
      = (List.replicate k i).flatMap (fixedDigits 2 11) ++ (fixedDigits 2 11 i).take (11 - cs) := by
    rw [substr, List.drop_zero, flatMap_replicate_succ, List.take_append_eq_append_take,
      length_flatMap_replicate]
    have e1 : 33 * cs - cs = k * 11 + (11 - cs) := by omega
    rw [List.take_of_length_le (by rw [length_flatMap_replicate]; omega), e1,
      Nat.add_sub_cancel_left]
  have hB0l : ((List.replicate k i).flatMap (fixedDigits 2 11)
      ++ (fixedDigits 2 11 i).take (11 - cs)).length = 4 * cs * 8 := by
    rw [List.length_append, length_flatMap_replicate, List.length_take, length_fixedDigits]
    omega
  have hB0bin : ∀ c ∈ (List.replicate k i).flatMap (fixedDigits 2 11)
      ++ (fixedDigits 2 11 i).take (11 - cs), c = '0' ∨ c = '1' := by
    intro c hc
    rcases List.mem_append.mp hc with h1 | h1
    · exact flatMap_fixedDigits_binary 11 _ c h1
    · exact fixedDigits_binary 11 i c (List.mem_of_mem_take h1)
  obtain ⟨g1, g2, g3⟩ := binary_groups 8 (by decide) (4 * cs) _ hB0l hB0bin
  have hk' : k = 3 * cs - 1 := by omega
  refine ⟨bits2uintN 8 ((List.replicate k i).flatMap (fixedDigits 2 11)
      ++ (fixedDigits 2 11 i).take (11 - cs)), g2, g3, ?_, ?_⟩
  · rw [bitsOfBytes, g1, hk']
  · simp only [testMnemonicWords, hdummy, hsplit, hwords, hidx, hbits, hlenR, hcs, htake,
      bits2hex_eq]

theorem refExt_nfkdOk : refExt.nfkdOk := fun _ _ => rfl

theorem sampleWord_toNat (i : Nat) (hi : i < 2048) :
    (sampleWord i).map Char.toNat = [97 + i / 256, 97 + i / 16 % 16, 97 + i % 16] := by
  have h : ∀ n, n < 128 → (Char.ofNat n).toNat = n := by
    intro n hn
    have hv : n.isValidChar := Or.inl (by omega)
    simp only [Char.ofNat, hv, dif_pos, Char.toNat, Char.ofNatAux]
    rfl
  simp only [sampleWord, List.map_cons, List.map_nil]
  rw [h (97 + i / 256) (by omega), h (97 + i / 16 % 16) (by omega), h (97 + i % 16) (by omega)]

theorem refExt_get (i : Nat) (w : Str) (h : refExt.bip39words.get? i = some w) :
    i < 2048 ∧ w = sampleWord i := by
  have h' : sampleWords.get? i = some w := h
  obtain ⟨hlt, hget⟩ := List.get?_eq_some.mp h'
  have hl : sampleWords.length = 2048 := by simp [sampleWords]
  refine ⟨by rw [hl] at hlt; exact hlt, ?_⟩
  rw [← hget]
  simp [sampleWords]

theorem refExt_wordsOk : refExt.wordsOk := by
  refine ⟨refExt_words_length, ?_, ?_⟩
  · intro w hw
    obtain ⟨i, hi⟩ := List.get?_of_mem hw
    obtain ⟨hlt, hwi⟩ := refExt_get i w hi
    have ht := sampleWord_toNat i hlt
    rw [← hwi] at ht
    refine ⟨by intro h0; rw [h0] at ht; simp at ht, ?_⟩
    intro c hc
    have hcn : c.toNat ∈ w.map Char.toNat := List.mem_map_of_mem _ hc
    rw [ht] at hcn
    simp only [List.mem_cons, List.mem_singleton, List.not_mem_nil, or_false] at hcn
    have hb : 97 ≤ c.toNat ∧ c.toNat ≤ 122 := by
      rcases hcn with h | h | h <;> omega
    rw [Char.le_def, Char.le_def]
    exact ⟨hb.1, hb.2⟩
  · intro i j wi wj hi hj hsub
    obtain ⟨hil, hwi⟩ := refExt_get i wi hi
    obtain ⟨hjl, hwj⟩ := refExt_get j wj hj
    have e1 : substr 0 4 wi = wi := by rw [hwi]; rfl
    have e2 : substr 0 4 wj = wj := by rw [hwj]; rfl
    rw [e1, e2] at hsub
    have ti := sampleWord_toNat i hil
    have tj := sampleWord_toNat j hjl
    rw [← hwi, hsub, hwj, tj] at ti
    simp only [List.cons.injEq, and_true] at ti
    omega

/-- C26: for every word `w` of the table and every size in {12, 15, 18, 21, 24},
`testMnemonicWords(w, size)` returns exactly `size` words, the first `size - 1`
equal to `w` and the last one a word of the table; `parseMnemonic` of their join
returns those words with `valid == true`. -/
theorem testMnemonicWords_spec (E : Ext) (hE : E.wordsOk) (hn : E.nfkdOk) (hsha : E.sha256Ok)
    (w : Str) (hw : w ∈ E.bip39words) (size : Nat) (hsize : size ∈ [12, 15, 18, 21, 24]) :
    (testMnemonicWords E w size).length = size ∧
      (∃ last ∈ E.bip39words,
        testMnemonicWords E w size = List.replicate (size - 1) (some w) ++ [some last]) ∧
      (parseMnemonic E (joinWords ' ' (testMnemonicWords E w size))).words
        = testMnemonicWords E w size ∧
      (parseMnemonic E (joinWords ' ' (testMnemonicWords E w size))).valid = true := by
  obtain ⟨i, hi⟩ := List.get?_of_mem hw
  obtain ⟨cs, hsz, hcs1, hcs8, hcs4⟩ : ∃ cs, size = 3 * cs ∧ 1 ≤ cs ∧ cs ≤ 8 ∧ 4 ≤ cs := by
    simp only [List.mem_cons, List.mem_singleton, List.not_mem_nil, or_false] at hsize
    rcases hsize with h | h | h | h | h
    · exact ⟨4, by omega, by omega, by omega, by omega⟩
    · exact ⟨5, by omega, by omega, by omega, by omega⟩
    · exact ⟨6, by omega, by omega, by omega, by omega⟩
    · exact ⟨7, by omega, by omega, by omega, by omega⟩
    · exact ⟨8, by omega, by omega, by omega, by omega⟩
  subst hsz
  have hil : i < 2048 := by
    obtain ⟨hlt, _⟩ := List.get?_eq_some.mp hi
    rw [hE.1] at hlt
    exact hlt
  obtain ⟨ent, hlen, hlt, hbits, htm⟩ := testMnemonicWords_entropy E hE hn i w hi cs hcs1 hcs8
  obtain ⟨p1, _, _, p4, _⟩ := parseMnemonic_entropy E hE hn hsha ent hlt cs hlen hcs1 hcs8
  have he := ent2bip39words_eq E ent hlt cs hlen
  have hchk := entCheckBits_eq E hsha ent hlt cs hcs8
  have hchkl : ((bitsOfBytes (E.sha256 ent)).take cs).length = cs := by
    rw [List.length_take, length_bitsOfBytes, (hsha ent).1]; omega
  have hTl : ((fixedDigits 2 11 i).take (11 - cs) ++ (bitsOfBytes (E.sha256 ent)).take cs).length
      = 1 * 11 := by
    rw [List.length_append, List.length_take, length_fixedDigits, hchkl]; omega
  have hTbin : ∀ c ∈ (fixedDigits 2 11 i).take (11 - cs) ++ (bitsOfBytes (E.sha256 ent)).take cs,
      c = '0' ∨ c = '1' := by
    intro c hc
    rcases List.mem_append.mp hc with h1 | h1
    · exact fixedDigits_binary 11 i c (List.mem_of_mem_take h1)
    · exact bitsOfBytes_binary _ c (List.mem_of_mem_take h1)
  obtain ⟨_, t2, t3⟩ := binary_groups 11 (by decide) 1 _ hTl hTbin
  obtain ⟨t, ht⟩ : ∃ t, bits2uintN 11 ((fixedDigits 2 11 i).take (11 - cs)
      ++ (bitsOfBytes (E.sha256 ent)).take cs) = [t] := by
    cases hq : bits2uintN 11 ((fixedDigits 2 11 i).take (11 - cs)
      ++ (bitsOfBytes (E.sha256 ent)).take cs) with
    | nil => rw [hq] at t2; simp at t2
    | cons a as =>
      rw [hq] at t2
      simp only [List.length_cons] at t2
      have : as = [] := List.length_eq_zero.mp (by omega)
      exact ⟨a, by rw [this]⟩
  have htl : t < 2048 := t3 t (by rw [ht]; exact List.mem_singleton_self t)
  obtain ⟨wt, hwt1, hwt2, _⟩ := wordAt_table E hE t htl
  obtain ⟨wi, hwi1, hwi2, _⟩ := wordAt_table E hE i hil
  have hwiw : wi = w := by
    rw [hi] at hwi2
    exact (Option.some.inj hwi2).symm
  have hrepl : testMnemonicWords E w (3 * cs)
      = List.replicate (3 * cs - 1) (some w) ++ [some wt] := by
    have hmod : i % 2 ^ 11 = i := Nat.mod_eq_of_lt (by norm_num; exact hil)
    have hnums : bits2uintN 11 (bitsOfBytes ent ++ (bitsOfBytes (E.sha256 ent)).take cs)
        = List.replicate (3 * cs - 1) i ++ [t] := by
      rw [hbits, List.append_assoc, bits2uintN_flatMap 11 (by decide), ht, List.map_replicate,
        hmod]
    rw [htm, he, hchk, hnums, List.map_append, List.map_replicate, hwi1, hwiw]
    simp only [List.map_cons, List.map_nil, hwt1]
  refine ⟨?_, ⟨wt, List.get?_mem hwt2, hrepl⟩, ?_, ?_⟩
  · rw [hrepl, List.length_append, List.length_replicate, List.length_singleton]; omega
  · rw [htm]; exact p1
  · rw [htm]; exact p4

theorem testMnemonicWords_spec_witness :
    refExt.wordsOk ∧ refExt.nfkdOk ∧ refExt.sha256Ok ∧ sampleWord 516 ∈ refExt.bip39words ∧
      12 ∈ [12, 15, 18, 21, 24] ∧ (testMnemonicWords refExt (sampleWord 516) 12).length = 12 ∧
      (parseMnemonic refExt (joinWords ' ' (testMnemonicWords refExt (sampleWord 516) 12))).valid
        = true :=
  have hmem : sampleWord 516 ∈ refExt.bip39words :=
    List.mem_map.mpr ⟨516, List.mem_range.mpr (by decide), rfl⟩
  ⟨refExt_wordsOk, refExt_nfkdOk, refExt_sha256Ok, hmem, by decide,
    (testMnemonicWords_spec refExt refExt_wordsOk refExt_nfkdOk refExt_sha256Ok (sampleWord 516)
      hmem 12 (by decide)).1,
    (testMnemonicWords_spec refExt refExt_wordsOk refExt_nfkdOk refExt_sha256Ok (sampleWord 516)
      hmem 12 (by decide)).2.2.2⟩

/-! ## The seed of a mnemonic -/

theorem parseMnemonic_sampleUpper :
    (parseMnemonic refExt sampleUpperMnemonic).valid = true ∧
      (parseMnemonic refExt sampleUpperMnemonic).mnemonic = sampleMnemonic := by
  decide!

/-- C27 (failing input): `parseMnemonic` reports the text `AAA aaa … aad` valid
and maps it to the mnemonic `aaa aaa … aad`, but `bip39seed` of the text is
PBKDF2 over the bytes of the text as typed, and `bip39seed` of the parsed
mnemonic is PBKDF2 over other bytes. -/
theorem bip39seed_of_raw_text :
    (parseMnemonic refExt sampleUpperMnemonic).valid = true ∧
      (parseMnemonic refExt sampleUpperMnemonic).mnemonic = sampleMnemonic ∧
      bip39seed refExt sampleUpperMnemonic [] "mnemonic".toList
        = Outcome.resolved (refExt.pbkdf2 (utf8 sampleUpperMnemonic) (utf8 "mnemonic".toList)) ∧
      bip39seed refExt (parseMnemonic refExt sampleUpperMnemonic).mnemonic [] "mnemonic".toList
        = Outcome.resolved (refExt.pbkdf2 (utf8 sampleMnemonic) (utf8 "mnemonic".toList)) ∧
      utf8 sampleUpperMnemonic ≠ utf8 sampleMnemonic := by
  refine ⟨parseMnemonic_sampleUpper.1, parseMnemonic_sampleUpper.2, rfl, ?_, by decide⟩
  rw [parseMnemonic_sampleUpper.2]
  rfl

/-! ## The index of a path segment -/

theorem toUint32_nat (i : Nat) (hi : i < 2 ^ 32) : toUint32 (some (i : Int)) = i := by
  simp only [toUint32]
  have : (i : Int) % 4294967296 = (i : Int) := Int.emod_eq_of_lt (by omega) (by omega)
  rw [this]
  simp

theorem or_harden (n : Nat) (hn : n < 2 ^ 31) :
    _OR (some (n : Int)) BIP32KEY_HARDEN = n + 2 ^ 31 ∧
      _OR (some ((n + 2 ^ 31 : Nat) : Int)) BIP32KEY_HARDEN = n + 2 ^ 31 := by
  have e : BIP32KEY_HARDEN = 2 ^ 31 * 1 := by norm_num [BIP32KEY_HARDEN]
  have h1 : n ||| 2 ^ 31 * 1 = n + 2 ^ 31 := by
    rw [Nat.lor_comm, ← Nat.mul_add_lt_is_or hn 1]; omega
  have h2 : (n + 2 ^ 31) ||| 2 ^ 31 * 1 = n + 2 ^ 31 := by
    have : n + 2 ^ 31 = 2 ^ 31 * 1 ||| n := by
      rw [← Nat.mul_add_lt_is_or hn 1]; omega
    rw [this, Nat.lor_comm, ← Nat.lor_assoc, Nat.or_self]
  have e32 : (2 : Nat) ^ 32 = 2 ^ 31 + 2 ^ 31 := by norm_num
  constructor
  · rw [_OR, toUint32_nat n (by omega), e, h1]
    exact Nat.mod_eq_of_lt (by omega)
  · rw [_OR, toUint32_nat _ (by omega), e, h2]
    exact Nat.mod_eq_of_lt (by omega)

theorem digit_toNat (c : Char) (d : Nat) (h : hexVal c = some d) (hd : d < 10) :
    48 ≤ c.toNat ∧ c.toNat ≤ 57 := by
  unfold hexVal at h
  split at h
  · rename_i hc
    rw [Char.le_def, Char.le_def] at hc
    exact ⟨hc.1, hc.2⟩
  · split at h
    · rename_i hc
      rw [Char.le_def, Char.le_def] at hc
      have h1 : 97 ≤ c.toNat := hc.1
      simp only [Option.some.injEq] at h
      omega
    · split at h
      · rename_i hc
        rw [Char.le_def, Char.le_def] at hc
        have h1 : 65 ≤ c.toNat := hc.1
        simp only [Option.some.injEq] at h
        omega
      · simp at h

theorem natToString_ne_nil (b : Nat) (hb : 2 ≤ b) (n : Nat) : natToString b n ≠ [] := by
  by_cases h : n < b
  · rw [natToString_lt b n h]; simp
  · rw [natToString_ge b n hb h]; simp

theorem char_ne_of_toNat (c e : Char) (h : c.toNat ≠ e.toNat) : c ≠ e := by
  intro he
  exact h (by rw [he])

theorem parseInt_decimal (n : Nat) :
    parseInt (natToString 10 n) = some (n : Int) ∧
      parseInt (natToString 10 n ++ [Char.ofNat 39]) = some (n : Int) ∧
      (substrLast 1 (natToString 10 n) == [Char.ofNat 39]) = false ∧
      (substrLast 1 (natToString 10 n ++ [Char.ofNat 39]) == [Char.ofNat 39]) = true := by
  obtain ⟨hvalid, hparse⟩ := natToString_parse 10 (by decide) (by decide) n
  have hne := natToString_ne_nil 10 (by decide) n
  have hdig : ∀ c ∈ natToString 10 n, 48 ≤ c.toNat ∧ c.toNat ≤ 57 := by
    intro c hc
    obtain ⟨d, hd, hlt⟩ := hvalid c hc
    exact digit_toNat c d hd hlt
  have hsp : ∀ c, 48 ≤ c.toNat ∧ c.toNat ≤ 57 → isJsSpace c = false := by
    intro c hc
    simp only [isJsSpace]
    simp
    omega
  obtain ⟨c0, rest, hs⟩ : ∃ c0 rest, natToString 10 n = c0 :: rest := by
    cases h : natToString 10 n with
    | nil => exact absurd h hne
    | cons c r => exact ⟨c, r, rfl⟩
  have hc0 := hdig c0 (by rw [hs]; exact List.mem_cons_self _ _)
  have hc0m : c0 ≠ '-' := char_ne_of_toNat _ _ (by
    have : ('-' : Char).toNat = 45 := rfl
    omega)
  have hc0p : c0 ≠ '+' := char_ne_of_toNat _ _ (by
    have : ('+' : Char).toNat = 43 := rfl
    omega)
  have hgen : ∀ (t : Str), (∀ c ∈ t, (48 ≤ c.toNat ∧ c.toNat ≤ 57) ∨ c = Char.ofNat 39) →
      parseInt (c0 :: t) = (parseIntRadix 10 (c0 :: t)).map (fun k => (k : Int)) := by
    intro t ht
    have h1 : (c0 :: t).dropWhile isJsSpace = c0 :: t := by
      rw [List.dropWhile_cons, hsp c0 hc0]; simp
    have h2 : ((c0 :: t).head? == some '-') = false := by simpa using hc0m
    have h3 : ((c0 :: t).head? == some '+') = false := by simpa using hc0p
    have h4 : ((c0 :: t).take 2 == ['0', 'x']) = false ∧
        ((c0 :: t).take 2 == ['0', 'X']) = false := by
      cases t with
      | nil => constructor <;> simp [List.take]
      | cons c1 t' =>
        have hc1 := ht c1 (List.mem_cons_self _ _)
        have n1 : c1 ≠ 'x' := by
          rcases hc1 with h | h
          · exact char_ne_of_toNat _ _ (by
              have : ('x' : Char).toNat = 120 := rfl
              omega)
          · rw [h]; decide
        have n2 : c1 ≠ 'X' := by
          rcases hc1 with h | h
          · exact char_ne_of_toNat _ _ (by
              have : ('X' : Char).toNat = 88 := rfl
              omega)
          · rw [h]; decide
        constructor <;> simp [List.take, n1, n2]
    simp only [parseInt, h1, h2, h3, h4.1, h4.2, Bool.or_self, Bool.false_eq_true, if_false]
  have hlast : ∃ c1, (natToString 10 n).getLast? = some c1 ∧ 48 ≤ c1.toNat ∧ c1.toNat ≤ 57 := by
    cases h : (natToString 10 n).getLast? with
    | none => exact absurd (List.getLast?_eq_none_iff.mp h) hne
    | some a => exact ⟨a, rfl, hdig a (List.mem_of_mem_getLast? h)⟩
  refine ⟨?_, ?_, ?_, ?_⟩
  · rw [hs, hgen rest (fun c hc => Or.inl (hdig c (by rw [hs]; exact List.mem_cons_of_mem _ hc))),
      ← hs, parseIntRadix, hparse]
    rfl
  · rw [hs, List.cons_append, hgen (rest ++ [Char.ofNat 39]) (by
      intro c hc
      rcases List.mem_append.mp hc with h | h
      · exact Or.inl (hdig c (by rw [hs]; exact List.mem_cons_of_mem _ h))
      · exact Or.inr (List.mem_singleton.mp h)), ← List.cons_append, ← hs, parseIntRadix,
      parseDigits_append 10 _ _ hvalid, hparse]
    rfl
  · obtain ⟨c1, hc1, hd1⟩ := hlast
    have hl : 1 ≤ (natToString 10 n).length := by
      rw [hs]; simp
    have : substrLast 1 (natToString 10 n) = [c1] := by
      rw [substrLast, if_neg (by decide)]
      have h := List.getLast?_eq_some_iff.mp hc1
      obtain ⟨ys, hys⟩ := h
      rw [hys, List.length_append, List.length_singleton, Nat.add_sub_cancel,
        List.drop_left]
    rw [this]
    have hne39 : c1 ≠ Char.ofNat 39 := char_ne_of_toNat _ _ (by
      have : (Char.ofNat 39).toNat = 39 := rfl
      omega)
    simpa using hne39
  · rw [substrLast_append (natToString 10 n) [Char.ofNat 39] 1 (by simp) (by decide)]
    rfl

/-- C28: for a path segment written as the decimal text of `n < 2^31`, with or
without a trailing apostrophe, the index the path walker computes is `n + 2^31`
if the segment ends with an apostrophe or the curve is ed25519 under `slip10`,
and `n` otherwise; for such an index `i`, the text `deriveChild` appends,
`i.toString(16).padStart(8,0)`, is the 8 hex digits of the 4 big-endian bytes of
`i`, and its test `_AND(i, BIP32KEY_HARDEN)` holds iff `i ≥ 2^31`. -/
theorem segmentIndex_spec (curve : CurveParams) (method : Str) (n : Nat) (hn : n < 2 ^ 31) :
    segmentIndex curve method (natToString 10 n ++ [Char.ofNat 39])
        = some ((n + 2 ^ 31 : Nat) : Int) ∧
      segmentIndex curve method (natToString 10 n)
        = (if curve.name = "ed25519".toList ∧ method = "slip10".toList
            then some ((n + 2 ^ 31 : Nat) : Int) else some (n : Int)) ∧
      ∀ i : Nat, i = n ∨ i = n + 2 ^ 31 →
        padStart 8 '0' (numToString16 (some (i : Int))) = fixedDigits 16 8 i ∧
        unhexilify (padStart 8 '0' (numToString16 (some (i : Int)))) = toBytesBE 4 i ∧
        (_AND (some (i : Int)) BIP32KEY_HARDEN ≠ 0 ↔ 2 ^ 31 ≤ i) := by
  obtain ⟨p1, p2, p3, p4⟩ := parseInt_decimal n
  obtain ⟨o1, o2⟩ := or_harden n hn
  have e32 : (2 : Nat) ^ 32 = 2 ^ 31 + 2 ^ 31 := by norm_num
  refine ⟨?_, ?_, ?_⟩
  · simp only [segmentIndex, p2, p4, if_true, o1]
    split
    · rw [o2]
    · rfl
  · simp only [segmentIndex, p1, p3, Bool.false_eq_true, if_false]
    by_cases hc : curve.name = "ed25519".toList ∧ method = "slip10".toList
    · have hb : (curve.name == "ed25519".toList && method == "slip10".toList) = true := by
        simp [hc.1, hc.2]
      rw [if_pos hc, hb, if_pos rfl, o1]
    · have hb : (curve.name == "ed25519".toList && method == "slip10".toList) = false := by
        rw [Bool.and_eq_false_iff]
        by_cases h1 : curve.name = "ed25519".toList
        · right
          have h2 : method ≠ "slip10".toList := fun h2 => hc ⟨h1, h2⟩
          simpa using h2
        · left; simpa using h1
      rw [if_neg hc, hb]
      rfl
  · intro i hi
    have hi32 : i < 2 ^ 32 := by rcases hi with h | h <;> omega
    obtain ⟨u1, u2⟩ := unhexilify_index i hi32
    exact ⟨u1, by rw [u1, u2], and_harden i hi32⟩

theorem segmentIndex_spec_witness :
    44 < 2 ^ 31 ∧
      segmentIndex ed25519Params "kholaw".toList (natToString 10 44 ++ [Char.ofNat 39])
        = some ((44 + 2 ^ 31 : Nat) : Int) :=
  ⟨by decide, (segmentIndex_spec ed25519Params "kholaw".toList 44 (by decide)).1⟩

/-! ## The base32 input check of the page -/

/-- C29 (failing inputs): `checkBase32Input` returns 1 on the input `.` (bound
6), on `.^$|A2` (bound 6) and on 57 dots followed by `A` (bound 58, exact
length), although they hold characters outside `A-Z2-7`; on `*` it throws a
`SyntaxError` instead of returning -1. -/
theorem checkBase32Input_accepts_dot :
    checkBase32Input refExt ".".toList 6 true = Except.ok 1 ∧
      checkBase32Input refExt ".^$|A2".toList 6 true = Except.ok 1 ∧
      checkBase32Input refExt (List.replicate 57 '.' ++ ['A']) 58 false = Except.ok 1 ∧
      checkBase32Input refExt "*".toList 6 true = Except.error JsError.syntaxError :=
  ⟨rfl, rfl, rfl, rfl⟩

/-! ## The function `range` of the page -/

/-- C30 (failing input): `range(2, 255)` is `[255, 0]`, not `[255, 256]`, and
element 256 of `range(300)` is 0: element `i` of `range(n, o)` is `(i + o) mod
256`, for every size and offset. -/
theorem range_wraps_at_256 :
    range 2 255 = [255, 0] ∧ (range 300 0).get? 256 = some 0 ∧
      ∀ n o i : Nat, i < n → (range n o).get? i = some ((i + o) % 256) := by
  refine ⟨by decide, by decide, ?_⟩
  intro n o i hi
  simp [range, List.getElem?_range hi]

/-! ## The SLIP10 root keeps its first candidate -/

theorem rootKeySlip10_settled (E : Ext) (curve : CurveParams) (fuel : Nat) :
    ∀ (seed : Bytes) (n0 n : DerivationNode),
      rootKeySlip10 E curve fuel seed (some n0) = Outcome.resolved n → n = n0 := by
  induction fuel with
  | zero => intro seed n0 n h; simp [rootKeySlip10] at h
  | succ fuel ih =>
    intro seed n0 n h
    simp only [rootKeySlip10, Option.getD_some] at h
    split at h
    · simp only [Outcome.resolved.injEq] at h
      exact h.symm
    · exact ih _ n0 n h

theorem rootKeySlip10_first (E : Ext) (curve : CurveParams) (fuel : Nat) (seed : Bytes)
    (n : DerivationNode) (h : rootKeySlip10 E curve fuel seed none = Outcome.resolved n) :
    n.kL = unhexilify (substr 0 64 (hexilify (E.hmacSHA512 seed (utf8 curve.modifier)))) := by
  cases fuel with
  | zero => simp [rootKeySlip10] at h
  | succ fuel =>
    simp only [rootKeySlip10, Option.getD_none] at h
    split at h
    · simp only [Outcome.resolved.injEq] at h
      rw [← h]; rfl
    · rw [rootKeySlip10_settled E curve fuel _ _ n h]; rfl

/-- C12 (failing input): for nist256p1 and the seed of 60 zero bytes followed by
`99 af 97 ba`, `rootKey(seed, curve, 'slip10')` resolves with a node whose `kL` is
`ffffffff8a2fdae9…`, which is not below the group order `ffffffff00000000ffff…`:
the promise keeps the first candidate.  In general the node `rootKey` resolves
with holds the left half of the first HMAC output, accepted or not. -/
theorem rootKey_slip10_keeps_first_candidate :
    (rootKey refExt 2 sampleNistSeed (CurveLookup.params nist256p1Params)
        "slip10".toList).value?.map
        (fun n => (hexilify n.kL, nist256p1Params.order.map (fun q => decide (q ≤ beVal n.kL))))
      = some ("ffffffff8a2fdae97b9c7d2da328a5e88675dceff1accd3821035cdc8e0754b9".toList,
          some true) ∧
    ∀ (E : Ext) (curve : CurveParams) (fuel : Nat) (seed : Bytes) (n : DerivationNode),
      rootKey E fuel seed (CurveLookup.params curve) "slip10".toList = Outcome.resolved n →
      n.kL = unhexilify (substr 0 64 (hexilify (E.hmacSHA512 seed (utf8 curve.modifier)))) := by
  refine ⟨by decide!, ?_⟩
  intro E curve fuel seed n h
  exact rootKeySlip10_first E curve fuel seed n h

/-! ## Round trip of the BIP39 codec -/

/-- C5: for every entropy of 16, 20, 24, 28 or 32 bytes, `parseMnemonic` applied
to the words of `ent2bip39words(entropy)` joined by single spaces returns those
same words with `valid == true`; the bits it rebuilds from the words are the
entropy bits followed by the first `cs` bits of SHA-256(entropy), so the entropy
it recomputes the checksum over is the original one. -/
theorem parseMnemonic_ent2bip39words (E : Ext) (hE : E.wordsOk) (hn : E.nfkdOk)
    (hsha : E.sha256Ok) (ent : Bytes) (h : ∀ b ∈ ent, b < 256)
    (hlen : ent.length ∈ [16, 20, 24, 28, 32]) :
    (parseMnemonic E (joinWords ' ' (ent2bip39words E (bytesToHex ent)))).words
        = ent2bip39words E (bytesToHex ent) ∧
      (parseMnemonic E (joinWords ' ' (ent2bip39words E (bytesToHex ent)))).valid = true ∧
      (parseMnemonic E (joinWords ' ' (ent2bip39words E (bytesToHex ent)))).mnemonic
        = joinWords ' ' (ent2bip39words E (bytesToHex ent)) ∧
      uintN2bits 11 ((ent2bip39words E (bytesToHex ent)).map (findIndex E))
        = bitsOfBytes ent ++ (bitsOfBytes (E.sha256 ent)).take (ent.length / 4) ∧
      bits2hex (bitsOfBytes ent) = bytesToHex ent := by
  obtain ⟨cs, hcs, hcs1, hcs8⟩ : ∃ cs, ent.length = 4 * cs ∧ 1 ≤ cs ∧ cs ≤ 8 := by
    simp only [List.mem_cons, List.mem_singleton, List.not_mem_nil, or_false] at hlen
    rcases hlen with h | h | h | h | h
    · exact ⟨4, by omega, by omega, by omega⟩
    · exact ⟨5, by omega, by omega, by omega⟩
    · exact ⟨6, by omega, by omega, by omega⟩
    · exact ⟨7, by omega, by omega, by omega⟩
    · exact ⟨8, by omega, by omega, by omega⟩
  obtain ⟨p1, p2, _, p4, p5⟩ := parseMnemonic_entropy E hE hn hsha ent h cs hcs hcs1 hcs8
  have hq : ent.length / 4 = cs := by omega
  rw [hq]
  exact ⟨p1, p4, p2, p5, bits2hex_bitsOfBytes ent h⟩

theorem parseMnemonic_ent2bip39words_witness :
    refExt.wordsOk ∧ refExt.nfkdOk ∧ refExt.sha256Ok ∧ (∀ b ∈ List.replicate 16 0, b < 256) ∧
      (List.replicate 16 0).length ∈ [16, 20, 24, 28, 32] ∧
      (parseMnemonic refExt
        (joinWords ' ' (ent2bip39words refExt (bytesToHex (List.replicate 16 0))))).valid
        = true :=
  ⟨refExt_wordsOk, refExt_nfkdOk, refExt_sha256Ok, by decide, by decide,
    (parseMnemonic_ent2bip39words refExt refExt_wordsOk refExt_nfkdOk refExt_sha256Ok
      (List.replicate 16 0) (by decide) (by decide)).2.1⟩

/-! ## Method `bip39-seed` -/

/-- C8: for method `bip39-seed`, every seed and every path argument,
`deriveBip39Seed` performs no derivation: it resolves with a node whose `kL` is
the first 32 bytes of the seed and whose `algo.key` is their hex text (64
digits for a seed of 32 bytes or more), with no `kR`, chain code or public
point, and the result does not depend on the path. -/
theorem deriveBip39Seed_bip39_seed (E : Ext) (fuel : Nat) (seed : Bytes)
    (hlt : ∀ b ∈ seed, b < 256) (path path' : Option Str) (g : Globals) :
    deriveBip39Seed E fuel seed "bip39-seed".toList path g
        = deriveBip39Seed E fuel seed "bip39-seed".toList path' g ∧
      ∃ node, deriveBip39Seed E fuel seed "bip39-seed".toList path g
          = (Outcome.resolved node, g) ∧
        node.kL = seed.take 32 ∧ node.kR = none ∧ node.c = none ∧ node.A = none ∧
        node.algo.map (fun a => a.key) = some (padStart 64 '0' (hexilify (seed.take 32))) ∧
        (32 ≤ seed.length →
          node.algo.map (fun a => a.key) = some (hexilify (seed.take 32))) := by
  have hk : unhexilify (substr 0 (32 * 2) (hexilify seed)) = seed.take 32 :=
    (halves_of_hex seed hlt).1
  refine ⟨rfl, ?_⟩
  simp only [deriveBip39Seed, if_true, algoSecret, hk]
  refine ⟨_, rfl, rfl, rfl, rfl, rfl, rfl, ?_⟩
  intro hlen
  simp only [Option.map_some', algoAddress, Option.some.injEq]
  have hl : (hexilify (seed.take 32)).length = 64 := by
    rw [length_hexilify, List.length_take]; omega
  rw [padStart, hl]
  rfl

theorem deriveBip39Seed_bip39_seed_witness :
    (∀ b ∈ List.replicate 64 7, b < 256) ∧
      deriveBip39Seed refExt 0 (List.replicate 64 7) "bip39-seed".toList none { k := none }
        = deriveBip39Seed refExt 0 (List.replicate 64 7) "bip39-seed".toList
            (some "m/1/2".toList) { k := none } :=
  ⟨by decide,
    (deriveBip39Seed_bip39_seed refExt 0 (List.replicate 64 7) (by decide) none
      (some "m/1/2".toList) { k := none }).1⟩

/-! ## Method strings outside the five of the page -/

/-- C10 (counterexample): with method `foo-ed25519` the promise of
`deriveBip39Seed` stays pending (no error is raised), and with method
`kholaw-secp256k1` it resolves with a node. -/
theorem deriveBip39Seed_foo_pending :
    deriveBip39Seed refExt 5 (List.replicate 64 7) "foo-ed25519".toList none { k := none }
        = (Outcome.pending, { k := none }) ∧
      (deriveBip39Seed refExt 5 (List.replicate 64 7) "kholaw-secp256k1".toList
        (some ['m', '/', '0', Char.ofNat 39]) { k := none }).1.value?.isSome = true := by
  constructor
  · rfl
  · decide!

/-- C10 (amended): `deriveBip39Seed` has no unknown-curve error.  For a method
other than `bip39-seed`: when the part before the first `-` is neither `slip10`
nor `kholaw` the promise stays pending, whatever the curve part; when it is
`slip10` or `kholaw` and the part after it is not one of the three curve names,
the promise is rejected with a `TypeError`. -/
theorem deriveBip39Seed_unknown_method (E : Ext) (fuel : Nat) (seed : Bytes) (method : Str)
    (path : Option Str) (g : Globals) (hm : method ≠ "bip39-seed".toList) :
    ((splitOn '-' method).headD [] ≠ "slip10".toList →
      (splitOn '-' method).headD [] ≠ "kholaw".toList →
      deriveBip39Seed E fuel seed method path g = (Outcome.pending, g)) ∧
    (((splitOn '-' method).headD [] = "slip10".toList ∨
        (splitOn '-' method).headD [] = "kholaw".toList) →
      (∀ c, curveInfo ((splitOn '-' method).get? 1) ≠ CurveLookup.params c) →
      deriveBip39Seed E fuel seed method path g = (Outcome.rejected JsError.typeError, g)) := by
  constructor
  · intro h1 h2
    simp only [deriveBip39Seed, if_neg hm, rootKey, if_neg h1, if_neg h2]
  · intro h1 h2
    have hk : ("kholaw".toList = "slip10".toList) = False := by decide
    rcases h1 with h1 | h1
    · cases hc : curveInfo ((splitOn '-' method).get? 1) with
      | params c => exact absurd hc (h2 c)
      | inherited => simp only [deriveBip39Seed, if_neg hm, rootKey, h1, if_true, hc]
      | undefined => simp only [deriveBip39Seed, if_neg hm, rootKey, h1, if_true, hc]
    · cases hc : curveInfo ((splitOn '-' method).get? 1) with
      | params c => exact absurd hc (h2 c)
      | inherited =>
        simp only [deriveBip39Seed, if_neg hm, rootKey, h1, hk, if_false, if_true, hc]
      | undefined =>
        simp only [deriveBip39Seed, if_neg hm, rootKey, h1, hk, if_false, if_true, hc]

theorem deriveBip39Seed_unknown_method_witness :
    "slip10-foo".toList ≠ "bip39-seed".toList ∧
      deriveBip39Seed refExt 5 (List.replicate 64 7) "slip10-foo".toList none { k := none }
        = (Outcome.rejected JsError.typeError, { k := none }) :=
  ⟨by decide,
    (deriveBip39Seed_unknown_method refExt 5 (List.replicate 64 7) "slip10-foo".toList none
      { k := none } (by decide)).2 (Or.inl (by decide))
      (fun c h => CurveLookup.noConfusion
        ((show curveInfo ((splitOn '-' "slip10-foo".toList).get? 1) = CurveLookup.undefined
          from by decide).symm.trans h))⟩

/-! ## The module variable `k` -/

/-- C9 (failing input): the same call `deriveMnemonic(mnemonic,
'slip10-nist256p1', "m/0'", '')` is rejected with a `ReferenceError` when the
module was just loaded, and resolves with a key and an address when a
`slip10-secp256k1` derivation was run before it. -/
theorem deriveMnemonic_depends_on_k :
    (deriveMnemonic vectorExt 5 allFeelMnemonic "slip10-nist256p1".toList
        (some ['m', '/', '0', Char.ofNat 39]) [] { k := none }).1
      = Outcome.rejected JsError.referenceError ∧
    algoKeyAddress (deriveMnemonic vectorExt 5 allFeelMnemonic "slip10-nist256p1".toList
        (some ['m', '/', '0', Char.ofNat 39]) [] afterSecp256k1)
      = some ("02278e9816bd1d6f3f3158b7e6fb3b17668c363ee5c918f7d116f7c4dccc3168".toList,
          "TMXX6GU6X7SP7HQ22G426XHN7DKN6FK245VGINSPIU7OXFMM6RTTVSK2JU".toList) := by
  decide!

/-! ## The Algorand mnemonic of the zero key -/

/-- C3 (failing input): for the key of 32 zero bytes `algoMnemonic` gives the
word of index 0 twenty-four times and the word of index 943 (`dkp` in the sample
table) as checksum; `algoKeyFromMnemonic` decodes the key back but reports the
mnemonic invalid, and `algoAddressFromMnemonic` throws `Invalid mnemonic
checksum` on it. -/
theorem algoMnemonic_reported_invalid :
    (algoMnemonic refExt (List.replicate 64 '0')).words
        = List.replicate 24 (some "aaa".toList) ++ [some "dkp".toList] ∧
      (algoKeyFromMnemonic refExt
        (joinWords ' ' (algoMnemonic refExt (List.replicate 64 '0')).words)).toOption.map
          (fun r => (r.key, r.checksum, r.valid))
        = some (List.replicate 64 '0', "3af".toList, false) ∧
      thrown (algoAddressFromMnemonic refExt
        (joinWords ' ' (algoMnemonic refExt (List.replicate 64 '0')).words))
        = some (JsError.error "Invalid mnemonic checksum") ∧
      (bytes2b11 ((refExt.sha512_256 (List.replicate 32 0)).take 2)).head? = some 943 ∧
      (bytes2b11 ((refExt.sha512_256 (utf8 (List.replicate 64 '0'))).take 2)).head?
        = some 596 := by
  decide!

/-- C4 (failing input): on 25 tokens the last of which matches no entry of the
table (`aaa` 24 times, then `zzzz`), `algoKeyFromMnemonic` throws nothing: it
decodes a key from the first 24 words and returns it with `valid == false` and an
`undefined` last word.  In general it throws nothing whenever the text has 25
tokens: the test `nums.length !== 25` can never hold. -/
theorem algoKeyFromMnemonic_unknown_word :
    thrown (algoKeyFromMnemonic refExt
        ("aaa aaa aaa aaa aaa aaa aaa aaa aaa aaa aaa aaa aaa aaa aaa aaa aaa aaa aaa aaa " ++
          "aaa aaa aaa aaa zzzz").toList) = none ∧
      (algoKeyFromMnemonic refExt
        ("aaa aaa aaa aaa aaa aaa aaa aaa aaa aaa aaa aaa aaa aaa aaa aaa aaa aaa aaa aaa " ++
          "aaa aaa aaa aaa zzzz").toList).toOption.map
          (fun r => (r.key, r.words.getLast?, r.checksum, r.valid))
        = some (List.replicate 64 '0', some none, "-1".toList, false) ∧
      ∀ (E : Ext) (m : Str), (splitOn ' ' (E.nfkd (toLowerCase (trim m)))).length = 25 →
        thrown (algoKeyFromMnemonic E m) = none := by
  refine ⟨by decide!, by decide!, ?_⟩
  intro E m h
  simp only [algoKeyFromMnemonic, h, ne_eq, not_true_eq_false, if_false, List.length_map,
    thrown]

/-! ## Hardened segments under slip10-ed25519 -/

theorem parseDigits_append_stop (b : Nat) (q : Char) (hq : hexVal q = none) :
    ∀ (s : Str) (acc : Option Nat), parseDigits b (s ++ [q]) acc = parseDigits b s acc := by
  intro s
  induction s with
  | nil => intro acc; simp [parseDigits, hq]
  | cons c cs ih =>
    intro acc
    rw [List.cons_append, parseDigits, parseDigits]
    cases hexVal c with
    | none => rfl
    | some d =>
      simp only
      split
      · exact ih _
      · rfl

theorem dropWhile_append_stop (p : Char → Bool) (q : Char) (hq : p q = false) :
    ∀ s : Str, (s ++ [q]).dropWhile p = s.dropWhile p ++ [q] := by
  intro s
  induction s with
  | nil => simp [List.dropWhile, hq]
  | cons c cs ih =>
    rw [List.cons_append, List.dropWhile_cons, List.dropWhile_cons]
    split
    · exact ih
    · rfl

theorem parseTail_apostrophe (v : Str) :
    (if ((v ++ [Char.ofNat 39]).take 2 == ['0', 'x'] ||
          (v ++ [Char.ofNat 39]).take 2 == ['0', 'X']) = true
      then parseIntRadix 16 ((v ++ [Char.ofNat 39]).drop 2)
      else parseIntRadix 10 (v ++ [Char.ofNat 39]))
      = (if (v.take 2 == ['0', 'x'] || v.take 2 == ['0', 'X']) = true
          then parseIntRadix 16 (v.drop 2) else parseIntRadix 10 v) := by
  have hq : hexVal (Char.ofNat 39) = none := by decide
  match v with
  | [] => decide
  | [a] =>
    have h1 : (([a] ++ [Char.ofNat 39]).take 2 == ['0', 'x'] ||
        ([a] ++ [Char.ofNat 39]).take 2 == ['0', 'X']) = false := by
      simp
    have h2 : (([a] : Str).take 2 == ['0', 'x'] || ([a] : Str).take 2 == ['0', 'X']) = false := by
      simp
    rw [h1, h2]
    exact parseDigits_append_stop 10 _ hq [a] none
  | a :: b :: t =>
    have h1 : (a :: b :: t ++ [Char.ofNat 39]).take 2 = (a :: b :: t).take 2 := by simp
    have h2 : (a :: b :: t ++ [Char.ofNat 39]).drop 2 = (a :: b :: t).drop 2 ++ [Char.ofNat 39] := by
      simp
    rw [h1, h2]
    split
    · exact parseDigits_append_stop 16 _ hq _ none
    · exact parseDigits_append_stop 10 _ hq _ none

/-- The call `parseInt(c)` does not see an apostrophe at the end of `c`. -/
theorem parseInt_apostrophe (s : Str) : parseInt (s ++ [Char.ofNat 39]) = parseInt s := by
  have hsp : isJsSpace (Char.ofNat 39) = false := by decide
  simp only [parseInt, dropWhile_append_stop isJsSpace _ hsp]
  generalize s.dropWhile isJsSpace = u
  cases u with
  | nil => decide
  | cons c t =>
    simp only [List.cons_append, List.head?_cons]
    by_cases hs : ((some c == some '-') || (some c == some '+')) = true
    · simp only [hs, if_true, List.drop_succ_cons, List.drop_zero]
      rw [parseTail_apostrophe t]
    · simp only [hs, Bool.false_eq_true, if_false]
      rw [← List.cons_append, parseTail_apostrophe (c :: t)]

theorem toUint32_lt (x : JsNum) : toUint32 x < 2 ^ 32 := by
  cases x with
  | none => simp [toUint32]
  | some n =>
    simp only [toUint32]
    omega

/-- Setting the hardening bit twice is setting it once. -/
theorem or_harden_twice (x : JsNum) :
    _OR (some ((_OR x BIP32KEY_HARDEN : Nat) : Int)) BIP32KEY_HARDEN = _OR x BIP32KEY_HARDEN := by
  have hx := toUint32_lt x
  have hH : BIP32KEY_HARDEN < 2 ^ 32 := by norm_num [BIP32KEY_HARDEN]
  have hm : toUint32 x ||| BIP32KEY_HARDEN < 2 ^ 32 := Nat.or_lt_two_pow hx hH
  have e : (4294967296 : Nat) = 2 ^ 32 := by norm_num
  simp only [_OR]
  rw [e, Nat.mod_eq_of_lt hm, toUint32_nat _ hm, Nat.lor_assoc, Nat.or_self,
    Nat.mod_eq_of_lt hm]

theorem segmentIndex_apostrophe (curve : CurveParams) (method : Str)
    (hc : curve.name = "ed25519".toList) (hm : method = "slip10".toList) (s : Str) :
    segmentIndex curve method (s ++ [Char.ofNat 39]) = segmentIndex curve method s := by
  have hb : (curve.name == "ed25519".toList && method == "slip10".toList) = true := by
    simp [hc, hm]
  have hl : (substrLast 1 (s ++ [Char.ofNat 39]) == [Char.ofNat 39]) = true := by
    rw [substrLast_append s [Char.ofNat 39] 1 (by simp) (by decide)]
    rfl
  simp only [segmentIndex, hb, hl, if_true, parseInt_apostrophe, or_harden_twice]
  split
  · rw [or_harden_twice]
  · rfl

theorem map_markSegments (curve : CurveParams) (method : Str)
    (hc : curve.name = "ed25519".toList) (hm : method = "slip10".toList) :
    ∀ (marks : List Bool) (segs : List Str),
      (markSegments marks segs).map (segmentIndex curve method)
        = segs.map (segmentIndex curve method)
  | _, [] => by cases ‹List Bool› <;> rfl
  | [], s :: ss => rfl
  | b :: bs, s :: ss => by
    rw [markSegments, List.map_cons, List.map_cons, map_markSegments curve method hc hm bs ss]
    cases b
    · rfl
    · rw [if_pos rfl, segmentIndex_apostrophe curve method hc hm]

/-- The walk along a path depends on the segments only through their indices. -/
theorem walkPath_congr (E : Ext) (fuel : Nat) (curve : CurveParams) (method : Str) :
    ∀ (p q : List Str),
      p.map (segmentIndex curve method) = q.map (segmentIndex curve method) →
      ∀ (o : DerivationNode) (g : Globals),
        walkPath E fuel curve method p o g = walkPath E fuel curve method q o g
  | [], [], _, _, _ => rfl
  | [], _ :: _, h, _, _ => by simp at h
  | _ :: _, [], h, _, _ => by simp at h
  | c :: p, d :: q, h, o, g => by
    simp only [List.map_cons, List.cons.injEq] at h
    have ih := walkPath_congr E fuel curve method p q h.2
    simp only [walkPath, h.1, ih]

/-- C7: under method `slip10-ed25519`, for every seed and every two paths of
which the second has the segments of the first with an apostrophe appended to
any of them (the leading `m`, which names the root and is dropped, apart),
`deriveBip39Seed` gives the same outcome, that is the same key, address and
words: every segment is derived with the hardening bit set. -/
theorem deriveBip39Seed_slip10_ed25519_apostrophes (E : Ext) (fuel : Nat) (seed : Bytes)
    (g : Globals) (path marked : Str) (marks : List Bool)
    (hmarked : splitOn '/' marked = markSegments marks (splitOn '/' path))
    (hroot : ¬ ((splitOn '/' path).head? = some ['m'] ∧ marks.head? = some true)) :
    deriveBip39Seed E fuel seed "slip10-ed25519".toList (some marked) g
      = deriveBip39Seed E fuel seed "slip10-ed25519".toList (some path) g := by
  have hcurve : curveInfo ((splitOn '-' "slip10-ed25519".toList).get? 1)
      = CurveLookup.params ed25519Params := by decide
  have hmethod : (splitOn '-' "slip10-ed25519".toList).headD [] = "slip10".toList := by decide
  have hne : ¬ "slip10-ed25519".toList = "bip39-seed".toList := by decide
  have hstrip : ((if (markSegments marks (splitOn '/' path)).head? == some ['m']
        then (markSegments marks (splitOn '/' path)).drop 1
        else markSegments marks (splitOn '/' path)).map
          (segmentIndex ed25519Params "slip10".toList))
      = ((if (splitOn '/' path).head? == some ['m'] then (splitOn '/' path).drop 1
        else splitOn '/' path).map (segmentIndex ed25519Params "slip10".toList)) := by
    generalize splitOn '/' path = segs at hroot
    match segs, marks, hroot with
    | [], _, _ => cases ‹List Bool› <;> rfl
    | s :: ss, [], _ => rfl
    | s :: ss, false :: bs, _ =>
      simp only [markSegments, Bool.false_eq_true, if_false, List.head?_cons]
      split
      · exact map_markSegments ed25519Params _ rfl rfl bs ss
      · exact congrArg (fun l => segmentIndex ed25519Params "slip10".toList s :: l)
          (map_markSegments ed25519Params _ rfl rfl bs ss)
    | s :: ss, true :: bs, hroot =>
      have hs : s ≠ ['m'] := fun h => hroot ⟨by rw [h]; rfl, rfl⟩
      have hs2 : s ++ [Char.ofNat 39] ≠ ['m'] := by
        intro h
        have hl := congrArg List.getLast? h
        simp at hl
      have e1 : (((s ++ [Char.ofNat 39]) :: markSegments bs ss).head? == some ['m']) = false := by
        simpa using hs2
      have e2 : ((s :: ss).head? == some ['m']) = false := by simpa using hs
      simp only [markSegments, if_true, e1, e2, Bool.false_eq_true, if_false]
      exact map_markSegments ed25519Params _ rfl rfl (true :: bs) (s :: ss)
  have hwalk := walkPath_congr E fuel ed25519Params "slip10".toList _ _ hstrip
  simp only [deriveBip39Seed, Option.getD_some, if_neg hne, hcurve, hmethod, hmarked]
  cases rootKey E fuel seed (CurveLookup.params ed25519Params) "slip10".toList with
  | resolved root => simp only [hwalk]
  | rejected e => rfl
  | pending => rfl
  | unfinished => rfl

theorem deriveBip39Seed_slip10_ed25519_apostrophes_witness :
    splitOn '/' [ 'm', '/', '4', '4', Char.ofNat 39, '/', '2', '8', '3', Char.ofNat 39,
          '/', '0', Char.ofNat 39, '/', '0', Char.ofNat 39, '/', '0', Char.ofNat 39]
        = markSegments [false, true, true, true, true, true] (splitOn '/' "m/44/283/0/0/0".toList) ∧
      ¬ ((splitOn '/' "m/44/283/0/0/0".toList).head? = some ['m'] ∧
          [false, true, true, true, true, true].head? = some true) ∧
      deriveBip39Seed refExt 1 allFeelSeed "slip10-ed25519".toList
          (some [ 'm', '/', '4', '4', Char.ofNat 39, '/', '2', '8', '3', Char.ofNat 39,
            '/', '0', Char.ofNat 39, '/', '0', Char.ofNat 39, '/', '0', Char.ofNat 39])
          { k := none }
        = deriveBip39Seed refExt 1 allFeelSeed "slip10-ed25519".toList
            (some "m/44/283/0/0/0".toList) { k := none } :=
  ⟨by decide, by decide,
    deriveBip39Seed_slip10_ed25519_apostrophes refExt 1 allFeelSeed { k := none }
      "m/44/283/0/0/0".toList _ [false, true, true, true, true, true] (by decide) (by decide)⟩

end Bip39ToAlgo
